import Mathlib

/-!
# Verification of the CoverMonkey coverage engine (`src/Coverage.js`)

A shallow embedding of the analysis engine in `Coverage.js`:
the trace tokenizer (`Coverage.Parser`), the per-record script builder
(`Coverage.Script`), the control-flow reachability analysis
(`reachable` / `Script.prototype.checkReachability`), the per-line
aggregation (`Coverage.Line` / `Coverage.File`), and the stateful
diff/notification engine (`Coverage.prototype.parseData`).

JavaScript conventions that matter to the embedding:
* numbers that can be `NaN` or `Infinity` (from `parseInt` of a missing
  field, and the `min = Infinity` initializer of `Line.counts`) are
  modelled by the `JSNum` type; `===` is `JSNum.seq` (`NaN === NaN` is
  false);
* a thrown `TypeError` (property access on `undefined`) is modelled by
  an `Option`-valued function returning `none`;
* object-as-map idioms are modelled by association lists in insertion
  order; object keys are strings, so `pcToOpcodeIndex` is keyed by the
  decimal string of the pc;
* the regular expressions `SCRIPT_START`, `SCRIPT_END`, `SCRIPT_DATA`
  and the small regexes inside `reachable` are modelled by explicit
  character-list parsers with the same (greedy, anchored) semantics.
-/

set_option maxHeartbeats 1000000

namespace CoverMonkey

/-! ## JavaScript numbers (just the values this program can produce) -/

/-- A JavaScript number as it occurs in this program: an integer, `NaN`
(from `parseInt(undefined)`), `Infinity` (the `min` initializer in
`Line.counts`), or `undefined` (the `counts[0] = rawcounts[0]` slot when
`rawcounts` is empty). -/
inductive JSNum where
  | int (n : Int)
  | nan
  | inf
  | undef
deriving DecidableEq

namespace JSNum

/-- JavaScript `+` on the numbers above (`NaN` propagates; `undefined`
never reaches an addition in this program, treat it like `NaN`). -/
def add : JSNum → JSNum → JSNum
  | int a, int b => int (a + b)
  | inf, int _ => inf
  | int _, inf => inf
  | inf, inf => inf
  | _, _ => nan

/-- JavaScript strict equality `===` on these values: `NaN === NaN` is
false, `undefined === undefined` is true. -/
def seq : JSNum → JSNum → Bool
  | int a, int b => a == b
  | inf, inf => true
  | undef, undef => true
  | _, _ => false

/-- `Math.min` (`NaN` absorbs, `Infinity` is the identity). -/
def jmin : JSNum → JSNum → JSNum
  | nan, _ => nan
  | _, nan => nan
  | undef, _ => nan
  | _, undef => nan
  | inf, b => b
  | a, inf => a
  | int a, int b => int (min a b)

/-- `Math.max` (`NaN` absorbs). -/
def jmax : JSNum → JSNum → JSNum
  | nan, _ => nan
  | _, nan => nan
  | undef, _ => nan
  | _, undef => nan
  | inf, _ => inf
  | _, inf => inf
  | int a, int b => int (max a b)

/-- JavaScript `>= 0` (false on `NaN` and `undefined`). -/
def ge0 : JSNum → Bool
  | int a => 0 ≤ a
  | inf => true
  | _ => false

/-- JavaScript `> 0` (false on `NaN` and `undefined`). -/
def gt0 : JSNum → Bool
  | int a => 0 < a
  | inf => true
  | _ => false

/-- JavaScript `a - b <= 0`, the ascending comparator
`function(a,b) { return a-b; }` of `Line.counts`; only ever used by this
program on lists of plain integers, where it is the usual order. -/
def leInt : JSNum → JSNum → Bool
  | int a, int b => a ≤ b
  | _, _ => true

end JSNum

/-! ## Characters, digit strings, association lists -/

/-- `\d` of JavaScript regexps. -/
def isDigitC (c : Char) : Bool := 48 ≤ c.toNat && c.toNat ≤ 57

/-- `\w` of JavaScript regexps: `[A-Za-z0-9_]`. -/
def isWordC (c : Char) : Bool :=
  (65 ≤ c.toNat && c.toNat ≤ 90) || (97 ≤ c.toNat && c.toNat ≤ 122) ||
  isDigitC c || c = '_'

/-- `\s` of JavaScript regexps (the ASCII part; trace lines contain no
exotic whitespace). -/
def isSpaceC (c : Char) : Bool :=
  c = ' ' || c = '\t' || c = '\r' || c.toNat = 11 || c.toNat = 12

/-- `parseInt(s, 10)` on a nonempty all-digit string. -/
def digitsToNat (ds : List Char) : Nat :=
  ds.foldl (fun n c => n * 10 + (c.toNat - 48)) 0

/-- Is `p` a prefix of `s` (used for the anchored literal parts of the
regexps)? -/
def strHeads : List Char → List Char → Bool
  | [], _ => true
  | _ :: _, [] => false
  | p :: ps, c :: cs => p == c && strHeads ps cs

/-- Association-list lookup (JavaScript property read).  JavaScript
objects used as maps are modelled by association lists in insertion
order. -/
def alook {κ α : Type} [BEq κ] : List (κ × α) → κ → Option α
  | [], _ => none
  | (k, v) :: m, key => if k == key then some v else alook m key

/-- Association-list update (JavaScript property write: overwrite in
place, else append). -/
def aset {κ α : Type} [BEq κ] : List (κ × α) → κ → α → List (κ × α)
  | [], key, v => [(key, v)]
  | (k, w) :: m, key, v =>
      if k == key then (k, v) :: m else (k, w) :: aset m key v

/-- `rawdata.split("\n")` (always at least one piece, `"" → [""]`). -/
def splitLinesAux : List Char → List Char → List String
  | acc, [] => [String.mk acc.reverse]
  | acc, c :: cs =>
      if c = '\n' then String.mk acc.reverse :: splitLinesAux [] cs
      else splitLinesAux (c :: acc) cs

/-- `rawdata.split("\n")`. -/
def splitLines (s : String) : List String := splitLinesAux [] s.data

/-- `array.split("\t")` on the assembly text of a switch opcode. -/
def splitTabAux : List Char → List Char → List (List Char)
  | acc, [] => [acc.reverse]
  | acc, c :: cs =>
      if c = '\t' then acc.reverse :: splitTabAux [] cs
      else splitTabAux (c :: acc) cs

/-- `assembly.split("\t")`. -/
def splitTab (s : String) : List (List Char) := splitTabAux [] s.data

/-! ## The trace-line regexps

`Coverage.SCRIPT_START = /^--- SCRIPT (.*):(\d+) ---$/`
`Coverage.SCRIPT_END   = /^--- END SCRIPT/`
`Coverage.SCRIPT_DATA  = /^(\d+):(\d+(?:\/\d+)+)\s+x\s+(\d+)\s+(.*)$/`
-/

/-- Match `SCRIPT_START`, returning the two groups (filename, line).
The greedy `(.*)` means the filename runs up to the *last* colon that is
followed by digits only before the final `" ---"`; equivalently the line
number is the maximal all-digit suffix of the middle, which must be
nonempty and preceded by a colon. -/
def matchScriptStart (s : String) : Option (String × Nat) :=
  let cs := s.data
  if strHeads "--- SCRIPT ".data cs then
    let middleRev := (cs.drop 11).reverse
    if strHeads "--- ".data middleRev then
      let mrev := middleRev.drop 4
      let ds := mrev.takeWhile (fun c => isDigitC c)
      if ds.isEmpty then none
      else
        match mrev.drop ds.length with
        | ':' :: frev => some (String.mk frev.reverse, digitsToNat ds.reverse)
        | _ => none
    else none
  else none

/-- Match `SCRIPT_END` (an unanchored-at-the-right prefix test). -/
def matchScriptEnd (s : String) : Bool :=
  strHeads "--- END SCRIPT".data s.data

/-- Consume `(?:\/\d+)+`-style groups: zero or more `/digits` units.
Structural recursion on a character budget (each unit consumes at least
two characters, so a budget of the input length never runs out). -/
def slashUnitsF : Nat → List Char → (List (List Char) × List Char)
  | 0, cs => ([], cs)
  | fuel + 1, cs =>
      match cs with
      | '/' :: cs' =>
          let ds := cs'.takeWhile (fun c => isDigitC c)
          if ds.isEmpty then ([], cs)
          else
            let (us, rest) := slashUnitsF fuel (cs'.drop ds.length)
            (ds :: us, rest)
      | _ => ([], cs)

/-- Consume `(?:\/\d+)+`-style groups. -/
def slashUnits (cs : List Char) : List (List Char) × List Char :=
  slashUnitsF cs.length cs

/-- Match `SCRIPT_DATA`. Returns `(pc digits, count fields, srcline
digits, assembly)`; the count fields are the result of the later
`match[2].split('/')`. Maximal munch coincides with the regexp's
backtracking here because none of the adjacent pieces can absorb each
other's characters. -/
def matchScriptData (s : String) :
    Option (List Char × List (List Char) × List Char × String) :=
  let cs := s.data
  let d1 := cs.takeWhile (fun c => isDigitC c)
  if d1.isEmpty then none
  else
    match cs.drop d1.length with
    | ':' :: r2 =>
      let d2 := r2.takeWhile (fun c => isDigitC c)
      if d2.isEmpty then none
      else
        let (units, r3) := slashUnits (r2.drop d2.length)
        if units.isEmpty then none
        else
          let sp1 := r3.takeWhile (fun c => isSpaceC c)
          if sp1.isEmpty then none
          else
            match r3.drop sp1.length with
            | 'x' :: r4 =>
              let sp2 := r4.takeWhile (fun c => isSpaceC c)
              if sp2.isEmpty then none
              else
                let d3 := (r4.drop sp2.length).takeWhile (fun c => isDigitC c)
                if d3.isEmpty then none
                else
                  let r5 := (r4.drop sp2.length).drop d3.length
                  let sp3 := r5.takeWhile (fun c => isSpaceC c)
                  if sp3.isEmpty then none
                  else some (d1, d2 :: units, d3, String.mk (r5.drop sp3.length))
            | _ => none
    | _ => none

/-- The opcode count: `parseInt(counts[0]) + parseInt(counts[1]) +
parseInt(counts[2])` — the third field may be missing from the match
(the regexp only requires two), in which case `parseInt(undefined)` is
`NaN`. -/
def sumFirstThree (fields : List (List Char)) : JSNum :=
  let get' (i : Nat) : JSNum :=
    match fields[i]? with
    | some ds => .int (digitsToNat ds)
    | none => .nan
  .add (.add (get' 0) (get' 1)) (get' 2)

/-! ## Scripts (`Coverage.Script`) -/

/-- One decoded opcode. `reachable`, `fallsthrough` and `entrypoint`
start out absent (falsy) and are set by the reachability analysis. -/
structure Opcode where
  pc : Nat
  count : JSNum
  srcline : Nat
  assembly : String
  reachable : Bool := false
  fallsthrough : Bool := false
  entrypoint : Bool := false
deriving DecidableEq

/-- The caller-supplied `remap` hook `(file, line) -> [file, line]`. -/
def Remap : Type := String → Nat → String × Nat

/-- A parsed script record.  Fields that the constructor may leave
unassigned (`undefined`) are `Option`s. -/
structure Script where
  filename : Option String := none
  rawfilename : Option String := none
  startline : Option Nat := none
  name : Option String := none
  entrypoint : Option Nat := none
  opcodes : List Opcode := []
  pcToOpcodeIndex : List (String × Nat) := []
deriving DecidableEq

/-- Render an optional string the way string concatenation renders a
possibly-`undefined` value. -/
def jstr : Option String → String
  | some s => s
  | none => "undefined"

/-- Render an optional number for string concatenation. -/
def jnum : Option Nat → String
  | some n => Nat.repr n
  | none => "undefined"

/-- One line of the `Script` constructor's `forEach` body.  `none`
models the `TypeError` thrown by the continuation-line branch when there
is no previous opcode. -/
def scriptLine (remap : Option Remap) (script : Script) (dataline : String) :
    Option Script :=
  match matchScriptStart dataline with
  | some (file, line) =>
      match remap with
      | some rm =>
          let v := rm file line
          some { script with rawfilename := some file, filename := some v.1,
                             startline := some v.2,
                             name := some (v.1 ++ ":" ++ Nat.repr v.2) }
      | none =>
          some { script with filename := some file, startline := some line,
                             name := some (file ++ ":" ++ Nat.repr line) }
  | none =>
    if matchScriptEnd dataline then some script
    else if dataline = "main:" then
      some { script with entrypoint := some script.opcodes.length }
    else
      match matchScriptData dataline with
      | some (d1, fields, d3, asmText) =>
          let line :=
            match remap with
            | some rm => (rm (jstr script.rawfilename) (digitsToNat d3)).2
            | none => digitsToNat d3
          let asm1 :=
            if strHeads "lambda ".data asmText.data then "lambda"
            else if strHeads "deflocalfun ".data asmText.data then "deflocalfun"
            else asmText
          let op : Opcode :=
            { pc := digitsToNat d1, count := sumFirstThree fields,
              srcline := line, assembly := asm1 }
          some { script with
                 pcToOpcodeIndex :=
                   aset script.pcToOpcodeIndex (Nat.repr op.pc)
                        script.opcodes.length,
                 opcodes := script.opcodes ++ [op] }
      | none =>
        match dataline.data with
        | '\t' :: _ =>
            match script.opcodes.getLast? with
            | none => none  -- TypeError: no previous opcode
            | some lastOp =>
                some { script with
                       opcodes := script.opcodes.dropLast ++
                         [{ lastOp with
                            assembly := lastOp.assembly ++ dataline }] }
        | _ => some script

/-- `new Coverage.Script(lines, remap)`. -/
def buildScript (lines : List String) (remap : Option Remap) : Option Script :=
  lines.foldlM (scriptLine remap) {}

/-- `Script.prototype.toString`: the structural signature used for
duplicate detection. -/
def Script.sig (s : Script) : String :=
  jstr s.name ++ ":" ++ jnum s.entrypoint ++ "\n" ++
  String.intercalate "\n"
    (s.opcodes.map fun op =>
      Nat.repr op.pc ++ ":" ++ Nat.repr op.srcline ++ ":" ++ op.assembly)

/-- The element-wise loop of `Script.prototype.addCounts`:
`this.opcodes[i].count += that.opcodes[i].count` for every index of
`this.opcodes`.  `none` models the `TypeError` when `that` runs out of
opcodes first. -/
def addCountsList : List Opcode → List Opcode → Option (List Opcode)
  | [], _ => some []
  | _ :: _, [] => none
  | o :: os, p :: ps => do
      let rest ← addCountsList os ps
      pure ({ o with count := o.count.add p.count } :: rest)

/-- `Script.prototype.addCounts`: add `that`'s opcode counts into
`this` element-wise. -/
def addCounts (this' that : Script) : Option Script := do
  pure { this' with opcodes := ← addCountsList this'.opcodes that.opcodes }

/-! ## Opcode categories and branch-target decoding -/

/-- The `switches` table. -/
def switchesL : List String :=
  ["tableswitch", "lookupswitch", "tableswitchx", "lookupswitchx"]

/-- The `terminators` table. -/
def terminatorsL : List String := ["stop", "return", "throw", "retrval", "retsub"]

/-- The `unconditionals` table. -/
def unconditionalsL : List String := ["goto", "gotox", "default", "defaultx", "filter"]

/-- The `conditionals` table. -/
def conditionalsL : List String :=
  ["ifeq", "ifeqx", "ifne", "ifnex", "or", "orx", "and", "andx",
   "gosub", "gosubx", "case", "casex", "ifcantcalltop", "endfilter", "try"]

/-- The `nonlinear` table: the union of the four tables above
(`linear(op)` is `!(op in nonlinear)`). -/
def nonlinearL : List String :=
  terminatorsL ++ switchesL ++ conditionalsL ++ unconditionalsL

/-- `opcode.assembly.match(/(\w+)/)[1]`: the first maximal run of word
characters anywhere in the string; `none` models the `TypeError` when
there is no word character at all (`match` returns `null`). -/
def firstWord : List Char → Option String
  | [] => none
  | c :: cs =>
      if isWordC c then
        some (String.mk (c :: cs.takeWhile (fun d => isWordC d)))
      else firstWord cs

/-- `branchIndex(assembly)`: match `/^\w+\s+(\d+)/` and look the digit
string up in `pcToOpcodeIndex` (a string-keyed object).  `none` covers
both a failed match and a missing index entry, exactly as in the
source, where both produce a falsy `branch`. -/
def branchIndex (idx : List (String × Nat)) (assembly : String) : Option Nat :=
  let cs := assembly.data
  let w := cs.takeWhile (fun c => isWordC c)
  if w.isEmpty then none
  else
    let r1 := cs.drop w.length
    let sp := r1.takeWhile (fun c => isSpaceC c)
    if sp.isEmpty then none
    else
      let ds := (r1.drop sp.length).takeWhile (fun c => isDigitC c)
      if ds.isEmpty then none
      else alook idx (String.mk ds)

/-- `cases[0].match(/ffset (\d+)/)[1]`: the leftmost occurrence of the
literal `"ffset "` followed by at least one digit. -/
def findFfset : List Char → Option Nat
  | [] => none
  | c :: cs =>
      if c = 'f' && strHeads "fset ".data cs then
        let ds := (cs.drop 5).takeWhile (fun d => isDigitC d)
        if ds.isEmpty then findFfset cs else some (digitsToNat ds)
      else findFfset cs

/-- `cases[i].match(/: (\d+)$/)[1]`: the maximal all-digit suffix, which
must be nonempty and preceded by `": "`. -/
def caseOffset (cs : List Char) : Option Nat :=
  let rev := cs.reverse
  let ds := rev.takeWhile (fun c => isDigitC c)
  if ds.isEmpty then none
  else
    match rev.drop ds.length with
    | ' ' :: ':' :: _ => some (digitsToNat ds.reverse)
    | _ => none

/-- Decode a switch opcode's relative offsets: the default offset from
the first tab-separated piece, one case offset per following piece.
`none` models the `TypeError` of a failed sub-match. -/
def switchOffsets (assembly : String) : Option (List Nat) :=
  match splitTab assembly with
  | [] => none
  | c0 :: rest => do
      let d ← findFfset c0
      let cs ← rest.mapM caseOffset
      pure (d :: cs)

/-- Resolve relative switch offsets: each is added to the switch
opcode's own pc and looked up (as a number-turned-string key) in the
address index. -/
def resolveOffsets (idx : List (String × Nat)) (pc : Nat) (offs : List Nat) :
    Option (List Nat) :=
  offs.mapM fun off => alook idx (Nat.repr (pc + off))

/-! ## The reachability analysis (`reachable` / `checkReachability`)

The source function is recursive with no structural measure (it is
bounded by the `opcode.reachable` guard), so the embedding takes a fuel
parameter; `RRes.fuelOut` is fuel exhaustion (proved unreachable for
the fuel used by `checkReachability`), `RRes.jsError` is a thrown
`TypeError`.  The pending recursive calls are threaded as an explicit
work list: `reachable(script, i)` is `reachableAux idx fuel ops [i]`,
and a category's several successor calls run in source order. -/

/-- In-place update of one list element. -/
def modifyAt {α : Type} (f : α → α) : Nat → List α → List α
  | _, [] => []
  | 0, a :: as => f a :: as
  | n + 1, a :: as => a :: modifyAt f n as

/-- `opcode.reachable = true`. -/
def setReach : Nat → List Opcode → List Opcode :=
  modifyAt fun o => { o with reachable := true }

/-- `opcode.fallsthrough = true`. -/
def setFT : Nat → List Opcode → List Opcode :=
  modifyAt fun o => { o with fallsthrough := true }

/-- `opcode.entrypoint = true`. -/
def setEntry : Nat → List Opcode → List Opcode :=
  modifyAt fun o => { o with entrypoint := true }

/-- How the linear walk inside `reachable` ended. -/
inductive WalkRes where
  | offEnd
  | hitMarked
  | err
  | nonlinear (j : Nat) (w : String)
deriving DecidableEq

/-- The `while` loop of `reachable`: walk forward through consecutive
linear opcodes from position `i`, marking each reachable and
falls-through, until the end of the sequence, an already-reachable
opcode, or a non-linear opcode (returned with its name).  `err` is the
`TypeError` when an assembly string has no word character.  The first
argument is a step budget; any budget `≥ ops.length - i` gives the
loop's exact behaviour. -/
def walkLinear : Nat → List Opcode → Nat → List Opcode × WalkRes
  | 0, ops, _ => (ops, .offEnd)
  | k + 1, ops, i =>
      match ops[i]? with
      | none => (ops, .offEnd)
      | some op =>
          if op.reachable then (ops, .hitMarked)
          else
            let ops1 := setReach i ops
            match firstWord op.assembly.data with
            | none => (ops1, .err)
            | some w =>
                if nonlinearL.contains w then (ops1, .nonlinear i w)
                else walkLinear k (setFT i ops1) (i + 1)

/-- Result of a (fueled) run of `reachable`. -/
inductive RRes where
  | ok (ops : List Opcode)
  | jsError
  | fuelOut
deriving DecidableEq

/-- The successor work list of a conditional: the next instruction,
plus the branch target when `branch` is truthy (so no match, an
unresolved target, and a target of index 0 all suppress the branch
call). -/
def condWs (j : Nat) : Option Nat → List Nat
  | none => [j + 1]
  | some 0 => [j + 1]
  | some (t + 1) => [j + 1, t + 1]

/-- Processing one work-list position = one source-level call of
`reachable`: set the `entrypoint` flag (a `TypeError` if the position
is out of range), run the linear walk, then dispatch on the category of
the non-linear opcode reached, running its successor calls (through
`go`, the recursion at the next fuel level) in source order. -/
def auxStep (go : List Opcode → List Nat → RRes) (idx : List (String × Nat))
    (ops : List Opcode) (i : Nat) : RRes :=
  match ops[i]? with
  | none => .jsError
  | some _ =>
    let ops0 := setEntry i ops
    match walkLinear ops0.length ops0 i with
    | (ops', .offEnd) => .ok ops'
    | (ops', .hitMarked) => .ok ops'
    | (_, .err) => .jsError
    | (ops', .nonlinear j w) =>
      match ops'[j]? with
      | none => .jsError
      | some op =>
        if terminatorsL.contains w then .ok ops'
        else if unconditionalsL.contains w then
          match branchIndex idx op.assembly with
          | none => .jsError
          | some t => go ops' [t]
        else if conditionalsL.contains w then
          go ops' (condWs j (branchIndex idx op.assembly))
        else if switchesL.contains w then
          match switchOffsets op.assembly with
          | none => .jsError
          | some offs =>
            match resolveOffsets idx op.pc offs with
            | none => .jsError
            | some ts => go ops' ts
        else .ok ops'

/-- The recursive part of `reachable`, over a work list of pending
entry positions (`reachable(script, i)` is `reachableAux idx fuel ops
[i]`; a category's several successor calls run in source order). -/
def reachableAux (idx : List (String × Nat)) : Nat → List Opcode → List Nat → RRes
  | 0, _, _ => .fuelOut
  | _ + 1, ops, [] => .ok ops
  | fuel + 1, ops, i :: rest =>
    match auxStep (reachableAux idx fuel) idx ops i with
    | .ok ops2 => reachableAux idx fuel ops2 rest
    | e => e

/-- Number of not-yet-reachable opcodes (the quantity every descent of
`reachableAux` strictly decreases). -/
def unmarkedCount (ops : List Opcode) : Nat :=
  (ops.filter fun o => !o.reachable).length

/-- An upper bound on the length of any successor work list a script
can generate (2 for conditionals, the number of decoded offsets for a
switch). -/
def succBound (ops : List Opcode) : Nat :=
  ops.foldl
    (fun acc op =>
      max acc (match switchOffsets op.assembly with
               | some offs => offs.length
               | none => 0))
    2

/-- Fuel that provably suffices for `reachableAux` (see the termination
theorem). -/
def fuelFor (ops : List Opcode) : Nat :=
  unmarkedCount ops * (succBound ops + 1) + 2

/-- `Script.prototype.checkReachability`: start at position 0
regardless of the recorded entry index. -/
def checkReachability (s : Script) : RRes :=
  reachableAux s.pcToOpcodeIndex (fuelFor s.opcodes) s.opcodes [0]

/-! ### The specification-side successor relation (§4.3 of the spec) -/

/-- The per-category successor rules: terminator — no successors;
unconditional — the decoded target only; conditional — the next
instruction plus the decoded target when present; switch — the default
target plus all case targets; linear — the next instruction. -/
def succsOf (idx : List (String × Nat)) (ops : List Opcode) (j : Nat) : List Nat :=
  match ops[j]? with
  | none => []
  | some op =>
    match firstWord op.assembly.data with
    | none => []
    | some w =>
      if terminatorsL.contains w then []
      else if unconditionalsL.contains w then (branchIndex idx op.assembly).toList
      else if conditionalsL.contains w then
        (if j + 1 < ops.length then [j + 1] else []) ++
          (branchIndex idx op.assembly).toList
      else if switchesL.contains w then
        match switchOffsets op.assembly with
        | none => []
        | some offs => (resolveOffsets idx op.pc offs).getD []
      else if j + 1 < ops.length then [j + 1] else []

/-- One successor step under the rules above. -/
def stepRel (idx : List (String × Nat)) (ops : List Opcode) (a b : Nat) : Prop :=
  b ∈ succsOf idx ops a

/-- Graph reachability between positions under the successor rules
(reflexive-transitive closure of single steps). -/
def ReachFrom (idx : List (String × Nat)) (ops : List Opcode) : Nat → Nat → Prop :=
  Relation.ReflTransGen (stepRel idx ops)

/-- Is position `j` marked reachable? -/
def markedAt (ops : List Opcode) (j : Nat) : Bool :=
  match ops[j]? with
  | some op => op.reachable
  | none => false

/-! ## Per-line aggregation (`Coverage.Line`, `Coverage.File`) -/

/-- A source line of a file, with its opcodes keyed by
`script.name + ":" + pc` in insertion order (those keys contain a
colon, so `for..in` iterates them in insertion order). -/
structure Line where
  number : Nat
  opcodes : List (String × Opcode) := []
  startFunc : Bool := false
  endFunc : Bool := false
deriving DecidableEq

/-- `Line.prototype.addOpcode`: first registration wins, duplicates are
dropped. -/
def Line.addOp (ln : Line) (pc : String) (op : Opcode) : Line :=
  if (alook ln.opcodes pc).isSome then ln
  else { ln with opcodes := ln.opcodes ++ [(pc, op)] }

/-- One iteration of the opcode loop in `Line.prototype.counts`:
state is `(min, max, rawcounts, lastopcode)`. -/
def countsStep (st : JSNum × JSNum × List JSNum × Option Opcode)
    (entry : String × Opcode) : JSNum × JSNum × List JSNum × Option Opcode :=
  let (mn, mx, raw, lastop) := st
  let opcode := entry.2
  let c := opcode.count
  if opcode.reachable then
    let skip :=
      match lastop with
      | some lo =>
          lo.fallsthrough &&
            (JSNum.seq c lo.count ||
             (JSNum.seq c (.int 0) && !JSNum.seq lo.count (.int 0)))
      | none => false
    if skip then (mn, mx, raw, some opcode)
    else (JSNum.jmin mn c, JSNum.jmax mx c, raw ++ [c], some opcode)
  else (mn, mx, raw ++ [.int (-1)], some opcode)

/-- Insert into a `≤`-sorted list (the ascending numeric sort
`rawcounts.sort(function(a,b){return a-b})`; this program only sorts
lists of plain integers on any path that reaches the sort). -/
def insertAsc (x : JSNum) : List JSNum → List JSNum
  | [] => [x]
  | y :: ys => if JSNum.leInt x y then x :: y :: ys else y :: insertAsc x ys

/-- Ascending numeric sort. -/
def sortAsc (l : List JSNum) : List JSNum := l.foldr insertAsc []

/-- The adjacent-duplicate removal loop (`rawcounts[i] === counts[j]`
skips; note `NaN === NaN` is false, so `NaN`s are never deduplicated). -/
def dedupLoop (last : JSNum) : List JSNum → List JSNum
  | [] => []
  | y :: ys => if JSNum.seq y last then dedupLoop last ys else y :: dedupLoop y ys

/-- `counts[0] = rawcounts[0]` followed by the dedup loop; on an empty
`rawcounts` this stores `undefined` in slot 0. -/
def dedupAdj : List JSNum → List JSNum
  | [] => [.undef]
  | x :: xs => x :: dedupLoop x xs

/-- `Line.prototype.counts` (the cache field changes nothing in a pure
model).  Returns `none` exactly when the function leaves `counts`
undefined — the single-unreachable-non-`stop` branch — after which the
caller's `counts.length` throws. -/
def Line.countsF (ln : Line) : Option (List JSNum) :=
  let st := ln.opcodes.foldl countsStep (.inf, .int 0, [], none)
  let mn := st.1
  let mx := st.2.1
  let raw := st.2.2.1
  if JSNum.seq mn mx && JSNum.ge0 mn then some [mn]
  else if raw.length == 1 && JSNum.seq (raw.getD 0 .undef) (.int (-1)) then
    match ln.opcodes.head? with
    | some (_, op0) => if op0.assembly == "stop" then some [] else none
    | none => none
  else some (dedupAdj (sortAsc raw))

/-- `Line.prototype.coverage`.  Outer `none` = a thrown `TypeError`
(`counts` undefined); inner `none` = the function returning
`undefined` (single count that is neither `0` nor `-1`). -/
def Line.coverageF (ln : Line) : Option (Option String) := do
  let counts ← ln.countsF
  if counts.length == 0 then pure (some "")
  else if JSNum.gt0 (counts.getD 0 .undef) then pure (some "full")
  else if counts.length == 1 then
    if JSNum.seq (counts.getD 0 .undef) (.int 0) then pure (some "none")
    else if JSNum.seq (counts.getD 0 .undef) (.int (-1)) then pure (some "dead")
    else pure none
  else
    if JSNum.seq (counts.getD 0 .undef) (.int (-1)) &&
       JSNum.gt0 (counts.getD 1 .undef) then pure (some "full")
    else pure (some "some")

/-- A file: its lines keyed by line number. -/
structure File where
  name : String
  lines : List (Nat × Line) := []
deriving DecidableEq

/-- `File.prototype.line`: get, creating on first access. -/
def File.lineGet (f : File) (n : Nat) : Line :=
  match alook f.lines n with
  | some l => l
  | none => { number := n }

/-- Store a (possibly new) line back. -/
def File.lineSet (f : File) (n : Nat) (l : Line) : File :=
  { f with lines := aset f.lines n l }

/-- Add one coverage class into a `(covered, partial, uncovered, dead)`
tally (the common `switch` of `File.prototype.coverage` and the
recomputation loop in `parseData`; an unrecognized or undefined class
adds nothing). -/
def addClass (acc : Nat × Nat × Nat × Nat) (cv : Option String) :
    Nat × Nat × Nat × Nat :=
  match cv with
  | some "full" => (acc.1 + 1, acc.2.1, acc.2.2.1, acc.2.2.2)
  | some "some" => (acc.1, acc.2.1 + 1, acc.2.2.1, acc.2.2.2)
  | some "none" => (acc.1, acc.2.1, acc.2.2.1 + 1, acc.2.2.2)
  | some "dead" => (acc.1, acc.2.1, acc.2.2.1, acc.2.2.2 + 1)
  | _ => acc

/-- `File.prototype.coverage`: the four-way tally over all lines;
`none` when some line's `coverage()` throws. -/
def File.coverageF (f : File) : Option (Nat × Nat × Nat × Nat) :=
  f.lines.foldlM
    (fun acc nl => do pure (addClass acc (← nl.2.coverageF)))
    ((0, 0, 0, 0) : Nat × Nat × Nat × Nat)

/-! ## The tokenizer (`Coverage.Parser`) -/

/-- Parser state.  `scriptMap` maps a structural signature to the
index of the corresponding `Script` in `scripts` (the two JavaScript
containers alias the same objects; the index realizes that sharing). -/
structure ParserState where
  inscript : Bool := false
  scriptlines : List String := []
  scripts : List Script := []
  scriptMap : List (String × Nat) := []
  remap : Option Remap := none

/-- The three sentinel record headers that are discarded outright. -/
def isDummyHeader (h : String) : Bool :=
  h == "--- SCRIPT (null):0 ---" || h == "--- SCRIPT :0 ---" ||
  h == "--- SCRIPT -e:1 ---"

/-- `Parser.prototype.processLine`.  `none` models an exception
escaping from the `Script` constructor, `addCounts`, or
`checkReachability`. -/
def processLine (p : ParserState) (dataline : String) : Option ParserState :=
  if p.inscript then
    let slines := p.scriptlines ++ [dataline]
    if matchScriptEnd dataline then
      if isDummyHeader (slines.headD "") then
        some { p with inscript := false, scriptlines := [] }
      else do
        let script ← buildScript slines p.remap
        let sg := script.sig
        match alook p.scriptMap sg with
        | some i => do
            let existing ← p.scripts[i]?
            let merged ← addCounts existing script
            pure { p with inscript := false, scriptlines := [],
                          scripts := p.scripts.set i merged }
        | none =>
            match checkReachability script with
            | .ok ops' =>
                some { p with inscript := false, scriptlines := [],
                              scripts := p.scripts ++
                                [{ script with opcodes := ops' }],
                              scriptMap := aset p.scriptMap sg
                                p.scripts.length }
            | _ => none
    else some { p with scriptlines := slines }
  else
    if (matchScriptStart dataline).isSome then
      some { p with inscript := true, scriptlines := [dataline] }
    else some p

/-- Feed a list of lines through the parser. -/
def runLines (p : ParserState) (lines : List String) : Option ParserState :=
  lines.foldlM processLine p

/-! ## The coverage engine (`Coverage.prototype.parseData`) -/

/-- One entry of a file snapshot's `lines` array. -/
structure LineData where
  coverage : Option String
  counts : List JSNum
  startFunc : Bool := false
  endFunc : Bool := false
deriving DecidableEq

/-- A per-file snapshot (`filedata`).  The `lines` array is sparse;
it is modelled by an `Int`-keyed association list (the index
`linenum - 1` is `-1` for a line number of 0, which JavaScript stores
as a plain property that array iteration never visits). -/
structure FileData where
  filename : String
  covered : Nat
  partialCnt : Nat
  uncovered : Nat
  dead : Nat
  lines : List (Int × LineData)
deriving DecidableEq

/-- `array.length` of the sparse `lines` array: one past the largest
non-negative index. -/
def lenLines (lines : List (Int × LineData)) : Nat :=
  lines.foldl (fun acc kv => if 0 ≤ kv.1 then max acc (kv.1.toNat + 1) else acc) 0

/-- The notifications dispatched through `_trigger`. -/
inductive Event where
  | onNewScript (filename : String) (data : FileData)
  | onLineUpdate (filename : String) (linenum : Int) (data : LineData)
  | onScriptUpdate (filename : String) (data : FileData)
deriving DecidableEq

/-- Engine state: the persisted per-file snapshots. -/
structure Coverage where
  filenames : List (String × FileData) := []
deriving DecidableEq

/-- `equalArrays` from `parseData` (element-wise `===`; false on a
length mismatch, and false on any `NaN` element). -/
def equalArraysB : List JSNum → List JSNum → Bool
  | [], [] => true
  | a :: as, b :: bs => JSNum.seq a b && equalArraysB as bs
  | _, _ => false

/-- Distribute one script's opcodes into its file's lines and set the
start/end-of-function flags; `none` is the `TypeError` on
`script.opcodes[0]` when a script has no opcodes. -/
def assignScript (files : List (String × File)) (s : Script) :
    Option (List (String × File)) :=
  let fname := jstr s.filename
  let file :=
    match alook files fname with
    | some f => f
    | none => { name := fname }
  let file := s.opcodes.foldl
    (fun f op =>
      f.lineSet op.srcline
        ((f.lineGet op.srcline).addOp
          (jstr s.name ++ ":" ++ Nat.repr op.pc) op))
    file
  match s.opcodes.head?, s.opcodes.getLast? with
  | some op0, some opL =>
      let f1 := file.lineSet op0.srcline
        { file.lineGet op0.srcline with startFunc := true }
      let f2 := f1.lineSet opL.srcline
        { f1.lineGet opL.srcline with endFunc := true }
      some (aset files fname f2)
  | _, _ => none

/-- Build the per-file snapshot from a `File` (the `filedata` object). -/
def buildFileData (fname : String) (file : File) : Option FileData := do
  let cov ← file.coverageF
  let lds ← file.lines.foldlM
    (fun (acc : List (Int × LineData)) nl => do
      let cv ← nl.2.coverageF
      let cts ← nl.2.countsF
      pure (aset acc (Int.ofNat nl.1 - 1)
        { coverage := cv, counts := cts,
          startFunc := nl.2.startFunc, endFunc := nl.2.endFunc }))
    []
  pure { filename := fname, covered := cov.1, partialCnt := cov.2.1,
         uncovered := cov.2.2.1, dead := cov.2.2.2, lines := lds }

/-- Ascending insertion into a sorted list of strings. -/
def insertStr (x : String) : List String → List String
  | [] => [x]
  | y :: ys => if x < y then x :: y :: ys else y :: insertStr x ys

/-- `filenames.sort()` (default lexicographic string sort; the keys are
distinct, so the result is the unique ascending arrangement). -/
def sortStrings (l : List String) : List String := l.foldr insertStr []

/-- The per-line reconciliation loop of `parseData`, over the index
range of the new snapshot.  When the old snapshot has no entry at an
index, the source adopts the new line and emits an update, but then
falls into the comparison `newline.coverage !== oldline.coverage` with
`oldline` still `undefined` — a `TypeError`, modelled by `none`. -/
def reconcileLines (fname : String) (newLines : List (Int × LineData)) :
    List Int → List (Int × LineData) → List Event →
    Option (List (Int × LineData) × List Event)
  | [], old, evs => some (old, evs)
  | i :: is, old, evs =>
    match alook newLines i with
    | none => reconcileLines fname newLines is old evs
    | some newline =>
      match alook old i with
      | none => none
      | some oldline =>
        if newline.coverage == oldline.coverage &&
           equalArraysB newline.counts oldline.counts then
          reconcileLines fname newLines is old evs
        else
          let upd := { oldline with coverage := newline.coverage,
                                    counts := newline.counts }
          reconcileLines fname newLines is (aset old i upd)
            (evs ++ [.onLineUpdate fname i upd])

/-- The aggregate-tally recomputation loop over the accumulated old
snapshot (`for(i = 0; i < olddata.lines.length; i++)`). -/
def tallyLines (old : List (Int × LineData)) : Nat × Nat × Nat × Nat :=
  (List.range (lenLines old)).foldl
    (fun acc i =>
      match alook old (Int.ofNat i) with
      | none => acc
      | some l => addClass acc l.coverage)
    (0, 0, 0, 0)

/-- Reconcile a new snapshot against the stored one for an
already-seen filename: per-line updates, then the tally recomputation
and possible `onScriptUpdate`. -/
def reconcileFile (fname : String) (old new' : FileData) :
    Option (FileData × List Event) := do
  let (lines', evs) ← reconcileLines fname new'.lines
    ((List.range (lenLines new'.lines)).map fun n => Int.ofNat n) old.lines []
  let t := tallyLines lines'
  if t.1 == old.covered && t.2.1 == old.partialCnt &&
     t.2.2.1 == old.uncovered && t.2.2.2 == old.dead then
    pure ({ old with lines := lines' }, evs)
  else
    let upd : FileData :=
      { old with lines := lines', covered := t.1, partialCnt := t.2.1,
                 uncovered := t.2.2.1, dead := t.2.2.2 }
    pure (upd, evs ++ [.onScriptUpdate fname upd])

/-- `Coverage.prototype.parseData`: tokenize and build scripts, group
them into files, build snapshots in sorted filename order, then diff
each against the stored state, mutating it and collecting the emitted
events.  `none` models any exception escaping `parseData`. -/
def parseData (cov : Coverage) (rawdata : String) :
    Option (Coverage × List Event) := do
  let parser ← runLines { } (splitLines rawdata)
  let files ← parser.scripts.foldlM assignScript []
  let fds ← (sortStrings (files.map fun kv => kv.1)).mapM fun fn => do
    let file ← alook files fn
    let fd ← buildFileData fn file
    pure (fn, fd)
  fds.foldlM
    (fun (st : Coverage × List Event) p =>
      match alook st.1.filenames p.1 with
      | none =>
          some ({ filenames := aset st.1.filenames p.1 p.2 },
                st.2 ++ [.onNewScript p.1 p.2])
      | some old => do
          let (upd, evs) ← reconcileFile p.1 old p.2
          pure ({ filenames := aset st.1.filenames p.1 upd }, st.2 ++ evs))
    (cov, [])

/-! # Concrete inputs used by witnesses and counterexamples -/

/-- A minimal well-formed trace: one script, one instruction. -/
def textA : String :=
  "--- SCRIPT a:1 ---\n0:1/1/1 x 1 foo\n--- END SCRIPT ---"

/-- The same script re-dumped with an added instruction on a new source
line (so the stored snapshot lacks an entry at the new line's index). -/
def textB : String :=
  "--- SCRIPT a:1 ---\n0:1/1/1 x 1 foo\n5:1/1/1 x 2 stop\n--- END SCRIPT ---"

/-- A trace whose instruction line has only two slash-separated count
fields, so the decoded count is `NaN`. -/
def textNaN : String :=
  "--- SCRIPT a.js:1 ---\n0:1/2 x 3 foo\n--- END SCRIPT ---"

/-- A trace whose single instruction sits on source line 0, so its
snapshot entry lands at array index `-1`. -/
def textZero : String :=
  "--- SCRIPT a:1 ---\n0:1/1/1 x 0 foo\n--- END SCRIPT ---"

/-- A record block with no instruction lines at all. -/
def textEmpty : String :=
  "--- SCRIPT f:1 ---\n--- END SCRIPT ---"

/-! # Claim C3: a single unreachable non-halt instruction

The spec says such a line yields counts `[-1]` and classification
`dead`.  In the source, the branch
`rawcounts.length === 1 && rawcounts[0] === -1` only ever assigns
`counts` when the opcode's assembly is exactly `"stop"`; otherwise
`counts` is left `undefined`, so `counts()` returns `undefined` and
`coverage()` throws a `TypeError` on `counts.length`. -/

/-- C3: for every `Line` holding exactly one unreachable opcode whose
assembly is not `"stop"`, `counts()` returns `undefined` (not `[-1]`)
and `coverage()` throws — the code contradicts the spec's (and its own
comments') dead-line classification. -/
theorem C3_single_unreachable_nonstop_undefined
    (ln : Line) (k : String) (op : Opcode)
    (hln : ln.opcodes = [(k, op)])
    (hr : op.reachable = false)
    (hs : op.assembly ≠ "stop") :
    ln.countsF = none ∧ ln.coverageF = none := by
  have hbeq : (op.assembly == "stop") = false := by
    simpa using hs
  constructor
  · simp [Line.countsF, hln, countsStep, hr, hbeq, JSNum.seq]
  · simp [Line.coverageF, Line.countsF, hln, countsStep, hr, hbeq, JSNum.seq]

/-- C3 witness: the theorem applied to a concrete line holding one
unreachable `goto`. -/
theorem C3_witness :
    ({ number := 1,
       opcodes := [("x:0",
         { pc := 0, count := .int 0, srcline := 1,
           assembly := "goto 5" })] } : Line).countsF = none ∧
    ({ number := 1,
       opcodes := [("x:0",
         { pc := 0, count := .int 0, srcline := 1,
           assembly := "goto 5" })] } : Line).coverageF = none :=
  C3_single_unreachable_nonstop_undefined _ "x:0" _ rfl rfl (by decide)

/-! # Claim C6: one unreachable plus one reachable (count 4) opcode

The claim (and §8 of the spec) expects counts `[-1, 4]`; but `min` and
`max` only track reachable counts, so `min === max && min >= 0` holds
(both are 4) and the result collapses to the single-element `[4]`.
The classification is `full` either way. -/

/-- C6 counterexample: at a concrete line with an unreachable opcode
followed by a reachable opcode of count 4 (no fallthrough between
them), `counts()` is `[4]`, not `[-1, 4]` as the claim states. -/
theorem C6_counterexample :
    ({ number := 1,
       opcodes :=
         [("x:0", { pc := 0, count := .int 0, srcline := 1,
                    assembly := "goto 8" }),
          ("x:5", { pc := 5, count := .int 4, srcline := 1,
                    assembly := "add", reachable := true })] } : Line).countsF
      = some [.int 4] ∧
    ({ number := 1,
       opcodes :=
         [("x:0", { pc := 0, count := .int 0, srcline := 1,
                    assembly := "goto 8" }),
          ("x:5", { pc := 5, count := .int 4, srcline := 1,
                    assembly := "add", reachable := true })] } : Line).countsF
      ≠ some [.int (-1), .int 4] := by
  constructor <;> decide

/-- C6 amended: for every `Line` holding exactly one unreachable opcode
followed by one reachable opcode of count 4, where the unreachable
opcode does not fall through, `counts()` collapses to `[4]` (the only
reachable count) and `coverage()` is `full`. -/
theorem C6_dead_live_collapse
    (ln : Line) (k1 k2 : String) (op1 op2 : Opcode)
    (hln : ln.opcodes = [(k1, op1), (k2, op2)])
    (hr1 : op1.reachable = false)
    (hft : op1.fallsthrough = false)
    (hr2 : op2.reachable = true)
    (hc2 : op2.count = .int 4) :
    ln.countsF = some [.int 4] ∧ ln.coverageF = some (some "full") := by
  have h1 : ln.countsF = some [.int 4] := by
    simp [Line.countsF, hln, countsStep, hr1, hr2, hft, hc2, JSNum.seq,
          JSNum.jmin, JSNum.jmax, JSNum.ge0]
  refine ⟨h1, ?_⟩
  simp [Line.coverageF, h1, JSNum.gt0]

/-- C6 witness: the amended theorem at the concrete line of the
counterexample. -/
theorem C6_witness :
    ({ number := 1,
       opcodes :=
         [("x:0", { pc := 0, count := .int 0, srcline := 1,
                    assembly := "goto 8" }),
          ("x:5", { pc := 5, count := .int 4, srcline := 1,
                    assembly := "add", reachable := true })] } : Line).countsF
      = some [.int 4] ∧
    ({ number := 1,
       opcodes :=
         [("x:0", { pc := 0, count := .int 0, srcline := 1,
                    assembly := "goto 8" }),
          ("x:5", { pc := 5, count := .int 4, srcline := 1,
                    assembly := "add", reachable := true })] } : Line).coverageF
      = some (some "full") :=
  C6_dead_live_collapse _ "x:0" "x:5" _ _ rfl rfl rfl rfl rfl

/-! # Claim C10: two-field count groups parse to `NaN` counts

`SCRIPT_DATA` requires only `\d+(?:\/\d+)+` — two or more fields — but
the count is always `parseInt(counts[0]) + parseInt(counts[1]) +
parseInt(counts[2])`, and with two fields `counts[2]` is missing, so
the sum is `NaN`. -/

/-- C10: any instruction-data line accepted by the pattern with exactly
two slash-separated count fields produces a `NaN` count. -/
theorem C10_two_field_counts_nan
    (s : String) (d1 : List Char) (fields : List (List Char))
    (d3 : List Char) (asmText : String)
    (hm : matchScriptData s = some (d1, fields, d3, asmText))
    (hlen : fields.length = 2) :
    sumFirstThree fields = .nan := by
  match fields, hlen with
  | [a, b], _ =>
    simp [sumFirstThree, JSNum.add]

/-- C10 witness: the line `0:1/2 x 3 foo` is accepted and its count is
`NaN`. -/
theorem C10_witness :
    matchScriptData "0:1/2 x 3 foo" =
      some (['0'], [['1'], ['2']], ['3'], "foo") ∧
    sumFirstThree [['1'], ['2']] = .nan :=
  ⟨by decide,
   C10_two_field_counts_nan "0:1/2 x 3 foo" ['0'] [['1'], ['2']] ['3'] "foo"
     (by decide) rfl⟩

/-! # Claim C4: reconciliation when the old snapshot lacks a line

The source adopts the new line data and emits `onLineUpdate` with a
1-based line number — but there is no `else` before the following
comparison, which reads `oldline.coverage` from the still-`undefined`
local `oldline` and throws a `TypeError`.  Reconciliation never
continues past the first adopted line. -/

/-- C4: parsing `textA` and then `textB` (same file, one additional
source line) makes the second `parseData` throw instead of finishing
reconciliation: the embedded run returns `none`. -/
theorem C4_adopt_path_throws :
    (parseData {} textA).isSome = true ∧
    ((parseData {} textA).bind fun r => parseData r.1 textB) = none := by
  constructor <;> decide

/-! # Claim C2, counterexample part: re-parsing is not always silent

With a `NaN` count (claim C10), `equalArrays` compares `NaN !== NaN`,
so the stored and freshly computed counts `[NaN]` never compare equal
and `onLineUpdate` fires on every re-parse of the identical text. -/

/-- C2 counterexample, in two parts.  First, `NaN` counts: the first
parse of `textNaN` succeeds, and re-parsing the identical text emits an
`onLineUpdate` event even though nothing changed (`NaN !== NaN` in
`equalArrays`).  Second, a source line of 0: its snapshot entry is
stored at array index `-1`, which the tally recomputation loop
(`0 ≤ i < lines.length`) never visits, so re-parsing `textZero`
unchanged emits a spurious `onScriptUpdate` (the recomputed tally drops
the line).  Each part forces one proviso of the amended claim. -/
theorem C2_counterexample :
    (((parseData {} textNaN).bind fun r => parseData r.1 textNaN).map Prod.snd
      = some [.onLineUpdate "a.js" 2
          { coverage := none, counts := [.nan],
            startFunc := true, endFunc := true }] ∧
     ((parseData {} textNaN).bind fun r => parseData r.1 textNaN).map Prod.snd
      ≠ some []) ∧
    (((parseData {} textZero).bind fun r => parseData r.1 textZero).map
        Prod.snd
      = some [.onScriptUpdate "a"
          { filename := "a", covered := 0, partialCnt := 0, uncovered := 0,
            dead := 0,
            lines := [(-1, { coverage := some "full", counts := [.int 3],
                             startFunc := true, endFunc := true })] }] ∧
     ((parseData {} textZero).bind fun r => parseData r.1 textZero).map
        Prod.snd
      ≠ some []) := by
  exact ⟨⟨by decide, by decide⟩, ⟨by decide, by decide⟩⟩

/-! # Claim C7: `parseData` never raises

False: several malformed shapes raise.  The counterexample is the
simplest — a record block with no instruction lines, whose
`checkReachability` call reads `script.opcodes[0]` (`undefined`) and
throws.  What is true is the tolerance the spec describes for
unrecognized content *outside* record blocks: any input with no record
start marker is consumed silently and completely. -/

/-- C7 counterexample: `parseData` on a trace holding one empty record
block raises (the embedded run returns `none`). -/
theorem C7_counterexample :
    parseData {} textEmpty = none := by decide

/-- Outside a record, a line that does not match the start marker is
ignored without any state change. -/
theorem processLine_ignores_unrecognized
    (p : ParserState) (l : String)
    (hin : p.inscript = false) (hm : matchScriptStart l = none) :
    processLine p l = some p := by
  simp [processLine, hin, hm]

/-- Feeding only unrecognized lines leaves the parser unchanged. -/
theorem runLines_ignores_unrecognized
    (lines : List String) (p : ParserState)
    (hin : p.inscript = false)
    (h : ∀ l ∈ lines, matchScriptStart l = none) :
    runLines p lines = some p := by
  induction lines with
  | nil => rfl
  | cons l ls ih =>
      have h1 : processLine p l = some p :=
        processLine_ignores_unrecognized p l hin (h l (by simp))
      have h2 : ∀ l' ∈ ls, matchScriptStart l' = none := by
        intro l' hl'; exact h l' (by simp [hl'])
      simpa [runLines, h1] using ih h2

/-- C7 amended: `parseData` completes without raising — returning the
state unchanged and emitting nothing — on every input in which no line
matches the record start marker (unrecognized lines outside record
blocks are silently ignored); inputs whose record blocks are malformed
can still raise, as the counterexample shows. -/
theorem C7_no_marker_never_raises
    (cov : Coverage) (raw : String)
    (h : ∀ l ∈ splitLines raw, matchScriptStart l = none) :
    parseData cov raw = some (cov, []) := by
  have hrun : runLines { } (splitLines raw) = some { } :=
    runLines_ignores_unrecognized _ _ rfl h
  simp [parseData, hrun]
  rfl

/-- C7 witness: the amended theorem on a small unrecognized input. -/
theorem C7_witness :
    parseData {} "hello world\n0:1/2 x 3 foo\n--- END SCRIPT ---"
      = some ({}, []) :=
  C7_no_marker_never_raises {} _ (by decide)

/-! # Claim C5: structural duplicates merge counts element-wise -/

/-- The structural part of an opcode — what `toString` renders and what
`addCounts` requires to coincide. -/
def opStruct (op : Opcode) : Nat × Nat × String := (op.pc, op.srcline, op.assembly)

/-- Merging one opcode's count into another. -/
def mergeOp (o q : Opcode) : Opcode := { o with count := o.count.add q.count }

/-- `addCounts`'s loop succeeds and is the element-wise `zipWith` as
soon as `that` has at least as many opcodes as `this`. -/
theorem addCountsList_eq_zipWith (as : List Opcode) :
    ∀ bs : List Opcode, as.length ≤ bs.length →
      addCountsList as bs = some (List.zipWith mergeOp as bs) := by
  induction as with
  | nil => intro bs _; rfl
  | cons a as ih =>
      intro bs hlen
      match bs with
      | [] => simp at hlen
      | b :: bs =>
          simp only [addCountsList, List.zipWith, mergeOp]
          rw [ih bs (by simpa using hlen)]
          rfl

/-- Counts after the merge are the element-wise JavaScript sums. -/
theorem zipWith_mergeOp_counts (as bs : List Opcode) :
    (List.zipWith mergeOp as bs).map (fun o => o.count) =
      List.zipWith (fun x y => JSNum.add x y)
        (as.map fun o => o.count) (bs.map fun o => o.count) := by
  induction as generalizing bs with
  | nil => simp
  | cons a as ih =>
      match bs with
      | [] => simp
      | b :: bs => simp [mergeOp, ih]

/-- The merge never touches the analysis flags: the merged opcodes keep
the existing script's `reachable`/`fallsthrough`/`entrypoint` flags
(reachability is not re-run). -/
theorem zipWith_mergeOp_flags (as : List Opcode) :
    ∀ bs : List Opcode, as.length ≤ bs.length →
      (List.zipWith mergeOp as bs).map (fun o => (o.reachable, o.fallsthrough, o.entrypoint)) =
        as.map fun o => (o.reachable, o.fallsthrough, o.entrypoint) := by
  induction as with
  | nil => intro bs _; simp
  | cons a as ih =>
      intro bs hlen
      match bs with
      | [] => simp at hlen
      | b :: bs => simp [mergeOp, ih bs (by simpa using hlen)]

/-- C5: when the record block just closed parses to a script `c` whose
structural signature (name, entry index, per-instruction
pc/line/assembly) equals that of the already-registered script at index
`i`, `processLine` adds `c`'s counts element-wise into that script in
place: the scripts list keeps its length (no second entry), the merged
opcodes are the `zipWith` of the counts (flags — hence reachability —
untouched, by `zipWith_mergeOp_flags`). -/
theorem C5_duplicate_scripts_merge
    (p : ParserState) (endline : String) (c ex : Script) (i : Nat)
    (hin : p.inscript = true)
    (hend : matchScriptEnd endline = true)
    (hdummy : isDummyHeader ((p.scriptlines ++ [endline]).headD "") = false)
    (hbuild : buildScript (p.scriptlines ++ [endline]) p.remap = some c)
    (hmap : alook p.scriptMap c.sig = some i)
    (hex : p.scripts[i]? = some ex)
    (hname : ex.name = c.name)
    (hentry : ex.entrypoint = c.entrypoint)
    (hops : ex.opcodes.map opStruct = c.opcodes.map opStruct) :
    processLine p endline =
      some { p with inscript := false, scriptlines := [],
                    scripts := p.scripts.set i
                      { ex with opcodes :=
                          List.zipWith mergeOp ex.opcodes c.opcodes } } ∧
    (p.scripts.set i
      { ex with opcodes := List.zipWith mergeOp ex.opcodes c.opcodes }).length
      = p.scripts.length := by
  have hlen : ex.opcodes.length ≤ c.opcodes.length := by
    have := congrArg List.length hops
    simpa using this.le
  have hadd : addCounts ex c =
      some { ex with opcodes := List.zipWith mergeOp ex.opcodes c.opcodes } := by
    simp [addCounts, addCountsList_eq_zipWith ex.opcodes c.opcodes hlen]
  refine ⟨?_, by simp⟩
  simp only [processLine, hin, if_true, hend, hdummy]
  simp [hbuild, hmap, hex, hadd]

/-- Two structurally identical two-instruction dumps of the same
script, with counts `[3,3]` and `[2,2]`. -/
def textC : String :=
  "--- SCRIPT m:1 ---\n0:1/1/1 x 1 foo\n5:2/1/0 x 1 stop\n--- END SCRIPT ---\n" ++
  "--- SCRIPT m:1 ---\n0:2/0/0 x 1 foo\n5:1/1/0 x 1 stop\n--- END SCRIPT ---"

/-- The parser state just before the second block's end line. -/
def C5state : ParserState :=
  (runLines { } ((splitLines textC).take 7)).getD { }

/-- The second block's script as built. -/
def C5script : Script :=
  (buildScript (C5state.scriptlines ++ ["--- END SCRIPT ---"]) none).getD { }

/-- The registered first script (reachability already run on it). -/
def C5existing : Script := (C5state.scripts[0]?).getD { }

/-- C5 witness: the theorem at the concrete state reached after the
first `[3,3]` block and the second `[2,2]` block's lines; the single
merged script carries counts `[5,5]`. -/
theorem C5_witness :
    processLine C5state "--- END SCRIPT ---" =
      some { C5state with inscript := false, scriptlines := [],
                          scripts := C5state.scripts.set 0
                            { C5existing with opcodes :=
                                (List.zipWith mergeOp C5existing.opcodes
                                  C5script.opcodes) } } ∧
    (List.zipWith mergeOp C5existing.opcodes C5script.opcodes).map
        (fun o => o.count) = [.int 5, .int 5] ∧
    (runLines { } (splitLines textC)).map
        (fun q => q.scripts.map fun s => s.opcodes.map fun o => o.count)
      = some [[.int 5, .int 5]] := by
  have h := C5_duplicate_scripts_merge C5state "--- END SCRIPT ---"
    C5script C5existing 0 (by decide) (by decide) (by decide) (by decide)
    (by decide) (by decide) (by decide) (by decide) (by decide)
  exact ⟨h.1, by decide, by decide⟩

/-! # Claim C8: switch successors are relative offsets -/

/-- A switch mnemonic is in none of the other three category tables. -/
theorem switch_not_other (w : String) (h : w ∈ switchesL) :
    w ∉ terminatorsL ∧ w ∉ unconditionalsL ∧ w ∉ conditionalsL := by
  have hw : w = "tableswitch" ∨ w = "lookupswitch" ∨ w = "tableswitchx" ∨
      w = "lookupswitchx" := by
    simpa [switchesL] using h
  rcases hw with h' | h' | h' | h' <;> subst h' <;> decide

/-- A successful `resolveOffsets` means exactly: each decoded offset,
added to the switch's own pc and looked up in the address index,
resolves, and the results in order are the successor list. -/
theorem resolveOffsets_spec (idx : List (String × Nat)) (pc : Nat) :
    ∀ (offs ts : List Nat), resolveOffsets idx pc offs = some ts →
      offs.map (fun off => alook idx (Nat.repr (pc + off))) = ts.map some := by
  intro offs
  induction offs with
  | nil =>
      intro ts h
      simp [resolveOffsets, List.mapM, List.mapM.loop] at h
      subst h
      rfl
  | cons o os ih =>
      intro ts h
      simp only [resolveOffsets, List.mapM_cons] at h
      match hl : alook idx (Nat.repr (pc + o)) with
      | none => rw [hl] at h; simp at h
      | some t =>
          rw [hl] at h
          match hrest : os.mapM (fun off => alook idx (Nat.repr (pc + off))) with
          | none => rw [hrest] at h; simp at h
          | some ts' =>
              rw [hrest] at h
              simp at h
              have := ih ts' hrest
              simp [← h, this, hl]

/-- C8: a switch instruction's successors under the successor rules are
exactly the decoded offsets (default first, then one per case line)
each added to the switch instruction's own address and resolved through
the address index. -/
theorem C8_switch_relative_offsets
    (idx : List (String × Nat)) (ops : List Opcode) (j : Nat) (op : Opcode)
    (w : String) (offs ts : List Nat)
    (hop : ops[j]? = some op)
    (hw : firstWord op.assembly.data = some w)
    (hsw : w ∈ switchesL)
    (hoffs : switchOffsets op.assembly = some offs)
    (hres : resolveOffsets idx op.pc offs = some ts) :
    succsOf idx ops j = ts ∧
    offs.map (fun off => alook idx (Nat.repr (op.pc + off))) = ts.map some := by
  obtain ⟨h1, h2, h3⟩ := switch_not_other w hsw
  refine ⟨?_, resolveOffsets_spec idx op.pc offs ts hres⟩
  simp [succsOf, hop, hw, h1, h2, h3, hsw, hoffs, hres]

/-- A concrete three-instruction script: a switch at address 100 with
default offset 10 and one case offset 20, and instructions at
addresses 110 and 120. -/
def C8ops : List Opcode :=
  [{ pc := 100, count := .int 1, srcline := 1,
     assembly := "tableswitch defaultOffset 10\t0: 20" },
   { pc := 110, count := .int 1, srcline := 2, assembly := "stop" },
   { pc := 120, count := .int 1, srcline := 3, assembly := "stop" }]

/-- Its address index. -/
def C8idx : List (String × Nat) := [("100", 0), ("110", 1), ("120", 2)]

/-- C8 witness: the switch at address 100 has exactly the instructions
at addresses 110 (position 1) and 120 (position 2) as successors. -/
theorem C8_witness :
    succsOf C8idx C8ops 0 = [1, 2] ∧
    C8ops.map (fun o => o.pc) = [100, 110, 120] :=
  ⟨(C8_switch_relative_offsets C8idx C8ops 0 _ "tableswitch" [10, 20] [1, 2]
      rfl (by decide) (by decide) (by decide) (by decide)).1,
   by decide⟩

/-! # Claims C1 and C9: reachability correctness and termination

Infrastructure: the analysis only flips boolean flags, so the static
part of the opcode list (pc, assembly — everything the successor
relation reads) is invariant, and the set of marked positions only
grows.  Each recursive descent happens right after marking a previously
unmarked opcode, which bounds the recursion. -/

theorem length_modifyAt {α : Type} (f : α → α) :
    ∀ (n : Nat) (l : List α), (modifyAt f n l).length = l.length := by
  intro n l
  induction l generalizing n with
  | nil => cases n <;> rfl
  | cons a as ih =>
      match n with
      | 0 => rfl
      | n + 1 => simp [modifyAt, ih n]

theorem getElem?_modifyAt {α : Type} (f : α → α) :
    ∀ (n : Nat) (l : List α) (m : Nat),
      (modifyAt f n l)[m]? = if n = m then (l[m]?).map f else l[m]? := by
  intro n l
  induction l generalizing n with
  | nil => intro m; cases n <;> simp [modifyAt]
  | cons a as ih =>
      intro m
      match n, m with
      | 0, 0 => simp [modifyAt]
      | 0, m + 1 => simp [modifyAt]
      | n + 1, 0 => simp [modifyAt]
      | n + 1, m + 1 => simpa [modifyAt] using ih n m

/-- The static (flag-free) view of an opcode list. -/
def staticEq (a b : List Opcode) : Prop :=
  a.map (fun o => (o.pc, o.assembly)) = b.map (fun o => (o.pc, o.assembly))

theorem staticEq.refl (a : List Opcode) : staticEq a a := rfl

theorem staticEq.trans {a b c : List Opcode}
    (h1 : staticEq a b) (h2 : staticEq b c) : staticEq a c := Eq.trans h1 h2

theorem lt_of_getElem?_some {α : Type} {l : List α} {n : Nat} {a : α}
    (h : l[n]? = some a) : n < l.length :=
  (List.getElem?_eq_some_iff.mp h).1

theorem staticEq.length {a b : List Opcode} (h : staticEq a b) :
    a.length = b.length := by
  have := congrArg List.length h
  simpa using this

theorem staticEq.get {a b : List Opcode} (h : staticEq a b) (j : Nat) :
    (a[j]?).map (fun o => (o.pc, o.assembly)) =
      (b[j]?).map (fun o => (o.pc, o.assembly)) := by
  have h1 := congrArg (fun l => l[j]?) h
  simpa using h1

/-- The successor relation only reads static data. -/
theorem succsOf_staticEq {a b : List Opcode} (idx : List (String × Nat))
    (h : staticEq a b) (j : Nat) : succsOf idx a j = succsOf idx b j := by
  have hg := h.get j
  have hl := h.length
  match ha : a[j]?, hb : b[j]? with
  | none, none => simp [succsOf, ha, hb]
  | some x, none => rw [ha, hb] at hg; simp at hg
  | none, some y => rw [ha, hb] at hg; simp at hg
  | some x, some y =>
      rw [ha, hb] at hg
      simp at hg
      obtain ⟨hpc, hasm⟩ := hg
      simp [succsOf, ha, hb, hpc, hasm, hl]

/-- Marks only grow. -/
def marksLe (a b : List Opcode) : Prop :=
  ∀ j, markedAt a j = true → markedAt b j = true

theorem marksLe_refl (a : List Opcode) : marksLe a a := fun _ h => h

theorem marksLe_trans {a b c : List Opcode}
    (h1 : marksLe a b) (h2 : marksLe b c) : marksLe a c :=
  fun j h => h2 j (h1 j h)

theorem staticEq_setReach (i : Nat) (ops : List Opcode) :
    staticEq ops (setReach i ops) := by
  unfold staticEq setReach
  apply List.ext_getElem?
  intro m
  simp only [List.getElem?_map, getElem?_modifyAt]
  by_cases him : i = m <;> simp [him] <;> cases ops[m]? <;> rfl

theorem staticEq_setFT (i : Nat) (ops : List Opcode) :
    staticEq ops (setFT i ops) := by
  unfold staticEq setFT
  apply List.ext_getElem?
  intro m
  simp only [List.getElem?_map, getElem?_modifyAt]
  by_cases him : i = m <;> simp [him] <;> cases ops[m]? <;> rfl

theorem staticEq_setEntry (i : Nat) (ops : List Opcode) :
    staticEq ops (setEntry i ops) := by
  unfold staticEq setEntry
  apply List.ext_getElem?
  intro m
  simp only [List.getElem?_map, getElem?_modifyAt]
  by_cases him : i = m <;> simp [him] <;> cases ops[m]? <;> rfl

theorem markedAt_setReach_self (i : Nat) (ops : List Opcode)
    (h : i < ops.length) : markedAt (setReach i ops) i = true := by
  unfold markedAt setReach
  rw [getElem?_modifyAt]
  simp only [if_pos rfl]
  match hv : ops[i]? with
  | some op => simp
  | none => rw [List.getElem?_eq_none_iff] at hv; omega

theorem markedAt_setReach_other (i j : Nat) (ops : List Opcode)
    (h : i ≠ j) : markedAt (setReach i ops) j = markedAt ops j := by
  unfold markedAt setReach
  rw [getElem?_modifyAt, if_neg h]

theorem marksLe_setReach (i : Nat) (ops : List Opcode) :
    marksLe ops (setReach i ops) := by
  intro j hj
  by_cases hij : i = j
  · subst hij
    apply markedAt_setReach_self
    unfold markedAt at hj
    match hv : ops[i]? with
    | some op => exact lt_of_getElem?_some hv
    | none => rw [hv] at hj; simp at hj
  · rw [markedAt_setReach_other i j ops hij]; exact hj

theorem markedAt_setFT (i j : Nat) (ops : List Opcode) :
    markedAt (setFT i ops) j = markedAt ops j := by
  unfold markedAt setFT
  rw [getElem?_modifyAt]
  by_cases hij : i = j
  · subst hij; cases ops[i]? <;> simp
  · rw [if_neg hij]

theorem markedAt_setEntry (i j : Nat) (ops : List Opcode) :
    markedAt (setEntry i ops) j = markedAt ops j := by
  unfold markedAt setEntry
  rw [getElem?_modifyAt]
  by_cases hij : i = j
  · subst hij; cases ops[i]? <;> simp
  · rw [if_neg hij]

theorem marksLe_setFT (i : Nat) (ops : List Opcode) : marksLe ops (setFT i ops) :=
  fun j h => by rw [markedAt_setFT]; exact h

theorem marksLe_setEntry (i : Nat) (ops : List Opcode) :
    marksLe ops (setEntry i ops) :=
  fun j h => by rw [markedAt_setEntry]; exact h

/-- `nonlinear` is the union of the four category tables. -/
theorem nonlinear_split (w : String) :
    nonlinearL.contains w = true ↔
      w ∈ terminatorsL ∨ w ∈ switchesL ∨ w ∈ conditionalsL ∨
      w ∈ unconditionalsL := by
  rw [List.elem_iff]
  simp [nonlinearL, or_assoc]

/-- A linear opcode name is in none of the four tables. -/
theorem linear_not_any (w : String) (h : nonlinearL.contains w = false) :
    w ∉ terminatorsL ∧ w ∉ switchesL ∧ w ∉ conditionalsL ∧
    w ∉ unconditionalsL := by
  have h2 : ¬(w ∈ terminatorsL ∨ w ∈ switchesL ∨ w ∈ conditionalsL ∨
      w ∈ unconditionalsL) := by
    intro hc
    have h3 := (nonlinear_split w).mpr hc
    rw [h] at h3
    exact Bool.noConfusion h3
  push_neg at h2
  exact h2

/-- The walk at an out-of-range position returns immediately. -/
theorem walk_oob (k : Nat) (ops : List Opcode) (i : Nat)
    (h : ops.length ≤ i) : walkLinear k ops i = (ops, .offEnd) := by
  match k with
  | 0 => rfl
  | k + 1 =>
      have hv : ops[i]? = none := List.getElem?_eq_none_iff.mpr h
      simp [walkLinear, hv]

/-- The walk never changes the static view and only adds marks. -/
theorem walk_shape :
    ∀ (k : Nat) (ops : List Opcode) (i : Nat) (ops' : List Opcode) (r : WalkRes),
      walkLinear k ops i = (ops', r) → staticEq ops ops' ∧ marksLe ops ops' := by
  intro k
  induction k with
  | zero =>
      intro ops i ops' r h
      simp only [walkLinear, Prod.mk.injEq] at h
      obtain ⟨rfl, -⟩ := h
      exact ⟨staticEq.refl _, marksLe_refl _⟩
  | succ k ih =>
      intro ops i ops' r h
      simp only [walkLinear] at h
      match hv : ops[i]? with
      | none =>
          rw [hv] at h
          simp only [Prod.mk.injEq] at h
          obtain ⟨rfl, -⟩ := h
          exact ⟨staticEq.refl _, marksLe_refl _⟩
      | some op =>
          rw [hv] at h
          by_cases hr : op.reachable = true
          · simp only [hr, if_true, Prod.mk.injEq] at h
            obtain ⟨rfl, -⟩ := h
            exact ⟨staticEq.refl _, marksLe_refl _⟩
          · rw [Bool.not_eq_true] at hr
            simp only [hr, Bool.false_eq_true, if_false] at h
            match hfw : firstWord op.assembly.data with
            | none =>
                rw [hfw] at h
                simp only [Prod.mk.injEq] at h
                obtain ⟨rfl, -⟩ := h
                exact ⟨staticEq_setReach i ops, marksLe_setReach i ops⟩
            | some w =>
                rw [hfw] at h
                by_cases hnl : nonlinearL.contains w = true
                · simp only [hnl, if_true, Prod.mk.injEq] at h
                  obtain ⟨rfl, -⟩ := h
                  exact ⟨staticEq_setReach i ops, marksLe_setReach i ops⟩
                · rw [Bool.not_eq_true] at hnl
                  simp only [hnl, Bool.false_eq_true, if_false] at h
                  obtain ⟨hst, hml⟩ := ih _ _ _ _ h
                  refine ⟨?_, ?_⟩
                  · exact ((staticEq_setReach i ops).trans
                      (staticEq_setFT i (setReach i ops))).trans hst
                  · exact marksLe_trans (marksLe_trans (marksLe_setReach i ops)
                      (marksLe_setFT i (setReach i ops))) hml

/-- With an adequate budget, the walk marks its starting position. -/
theorem walk_marks :
    ∀ (k : Nat) (ops : List Opcode) (i : Nat) (ops' : List Opcode) (r : WalkRes),
      ops.length ≤ k + i → i < ops.length →
      walkLinear k ops i = (ops', r) → markedAt ops' i = true := by
  intro k
  induction k with
  | zero => intro ops i ops' r hk hi h; omega
  | succ k ih =>
      intro ops i ops' r hk hi h
      simp only [walkLinear] at h
      match hv : ops[i]? with
      | none =>
          rw [List.getElem?_eq_none_iff] at hv; omega
      | some op =>
          rw [hv] at h
          by_cases hr : op.reachable = true
          · simp only [hr, if_true, Prod.mk.injEq] at h
            obtain ⟨rfl, -⟩ := h
            unfold markedAt; rw [hv]; exact hr
          · rw [Bool.not_eq_true] at hr
            simp only [hr, Bool.false_eq_true, if_false] at h
            have hmark : markedAt (setReach i ops) i = true :=
              markedAt_setReach_self i ops hi
            match hfw : firstWord op.assembly.data with
            | none =>
                rw [hfw] at h
                simp only [Prod.mk.injEq] at h
                obtain ⟨rfl, -⟩ := h
                exact hmark
            | some w =>
                rw [hfw] at h
                by_cases hnl : nonlinearL.contains w = true
                · simp only [hnl, if_true, Prod.mk.injEq] at h
                  obtain ⟨rfl, -⟩ := h
                  exact hmark
                · rw [Bool.not_eq_true] at hnl
                  simp only [hnl, Bool.false_eq_true, if_false] at h
                  have hml := (walk_shape k _ _ _ _ h).2
                  have hm2 : markedAt (setFT i (setReach i ops)) i = true := by
                    rw [markedAt_setFT]; exact hmark
                  exact hml i hm2

theorem marked_setReach_cases {i j : Nat} {ops : List Opcode}
    (h : markedAt (setReach i ops) j = true) :
    markedAt ops j = true ∨ j = i := by
  by_cases hij : j = i
  · exact Or.inr hij
  · rw [markedAt_setReach_other i j ops (fun he => hij he.symm)] at h
    exact Or.inl h

theorem staticEq_get_some {a b : List Opcode} (h : staticEq a b)
    {j : Nat} {op : Opcode} (hb : b[j]? = some op) :
    ∃ opB, a[j]? = some opB ∧ opB.pc = op.pc ∧ opB.assembly = op.assembly := by
  have hg := h.get j
  rw [hb] at hg
  match ha : a[j]? with
  | none => rw [ha] at hg; simp at hg
  | some x =>
      rw [ha] at hg
      simp at hg
      exact ⟨x, rfl, hg.1, hg.2⟩

/-- Marks are unchanged at positions other than the walk target across
both flag setters. -/
theorem markedAt_step_other {i j : Nat} (ops : List Opcode) (h : j ≠ i) :
    markedAt (setFT i (setReach i ops)) j = markedAt ops j := by
  rw [markedAt_setFT, markedAt_setReach_other i j ops (fun he => h he.symm)]

/-- What the walk's non-linear stop means: a freshly marked position
carrying a non-linear opcode name. -/
theorem walk_nonlinear :
    ∀ (k : Nat) (ops : List Opcode) (i : Nat) (ops' : List Opcode)
      (j : Nat) (w : String),
      walkLinear k ops i = (ops', .nonlinear j w) →
      markedAt ops j = false ∧ markedAt ops' j = true ∧ i ≤ j ∧
      ∃ op, ops[j]? = some op ∧ firstWord op.assembly.data = some w ∧
        nonlinearL.contains w = true := by
  intro k
  induction k with
  | zero =>
      intro ops i ops' j w h
      simp only [walkLinear, Prod.mk.injEq] at h
      exact absurd h.2 (by simp)
  | succ k ih =>
      intro ops i ops' j w h
      simp only [walkLinear] at h
      match hv : ops[i]? with
      | none =>
          rw [hv] at h
          simp only [Prod.mk.injEq] at h
          exact absurd h.2 (by simp)
      | some op =>
          rw [hv] at h
          by_cases hr : op.reachable = true
          · simp only [hr, if_true, Prod.mk.injEq] at h
            exact absurd h.2 (by simp)
          · rw [Bool.not_eq_true] at hr
            simp only [hr, Bool.false_eq_true, if_false] at h
            match hfw : firstWord op.assembly.data with
            | none =>
                rw [hfw] at h
                simp only [Prod.mk.injEq] at h
                exact absurd h.2 (by simp)
            | some w' =>
                rw [hfw] at h
                by_cases hnl : nonlinearL.contains w' = true
                · simp only [hnl, if_true, Prod.mk.injEq,
                    WalkRes.nonlinear.injEq] at h
                  obtain ⟨rfl, rfl, rfl⟩ := h
                  refine ⟨?_, markedAt_setReach_self i ops
                    (lt_of_getElem?_some hv), le_refl i, op, hv, hfw, hnl⟩
                  unfold markedAt; rw [hv]; exact hr
                · rw [Bool.not_eq_true] at hnl
                  simp only [hnl, Bool.false_eq_true, if_false] at h
                  obtain ⟨hm0, hm1, hle, op₂, hop₂, hfw₂, hnl₂⟩ := ih _ _ _ _ _ h
                  have hji : j ≠ i := by omega
                  refine ⟨?_, hm1, by omega, op₂, ?_, hfw₂, hnl₂⟩
                  · rw [← markedAt_step_other ops hji]; exact hm0
                  · rw [← hop₂]
                    unfold setFT setReach
                    rw [getElem?_modifyAt, if_neg (fun he => hji he.symm),
                        getElem?_modifyAt, if_neg (fun he => hji he.symm)]

/-- Soundness of the walk: every fresh mark lies on a successor path
from the walk's start, and so does a non-linear stop position. -/
theorem walk_sound (idx : List (String × Nat)) (base : List Opcode) :
    ∀ (k : Nat) (ops : List Opcode) (i : Nat) (ops' : List Opcode) (r : WalkRes),
      staticEq base ops →
      walkLinear k ops i = (ops', r) →
      (∀ j, markedAt ops' j = true →
        markedAt ops j = true ∨ ReachFrom idx base i j) ∧
      (∀ j w, r = .nonlinear j w → ReachFrom idx base i j) := by
  intro k
  induction k with
  | zero =>
      intro ops i ops' r hst h
      simp only [walkLinear, Prod.mk.injEq] at h
      obtain ⟨rfl, rfl⟩ := h
      exact ⟨fun j hj => Or.inl hj, fun j w hw => absurd hw (by simp)⟩
  | succ k ih =>
      intro ops i ops' r hst h
      simp only [walkLinear] at h
      match hv : ops[i]? with
      | none =>
          rw [hv] at h
          simp only [Prod.mk.injEq] at h
          obtain ⟨rfl, rfl⟩ := h
          exact ⟨fun j hj => Or.inl hj, fun j w hw => absurd hw (by simp)⟩
      | some op =>
          rw [hv] at h
          by_cases hr : op.reachable = true
          · simp only [hr, if_true, Prod.mk.injEq] at h
            obtain ⟨rfl, rfl⟩ := h
            exact ⟨fun j hj => Or.inl hj, fun j w hw => absurd hw (by simp)⟩
          · rw [Bool.not_eq_true] at hr
            simp only [hr, Bool.false_eq_true, if_false] at h
            match hfw : firstWord op.assembly.data with
            | none =>
                rw [hfw] at h
                simp only [Prod.mk.injEq] at h
                obtain ⟨rfl, rfl⟩ := h
                refine ⟨fun j hj => ?_, fun j w hw => absurd hw (by simp)⟩
                rcases marked_setReach_cases hj with hm | rfl
                · exact Or.inl hm
                · exact Or.inr Relation.ReflTransGen.refl
            | some w' =>
                rw [hfw] at h
                by_cases hnl : nonlinearL.contains w' = true
                · simp only [hnl, if_true, Prod.mk.injEq,
                    WalkRes.nonlinear.injEq] at h
                  obtain ⟨rfl, rfl, rfl⟩ := h
                  refine ⟨fun j hj => ?_, fun j w hw => ?_⟩
                  · rcases marked_setReach_cases hj with hm | rfl
                    · exact Or.inl hm
                    · exact Or.inr Relation.ReflTransGen.refl
                  · obtain ⟨rfl, rfl⟩ : j = i ∧ w = w' := by
                      cases hw; exact ⟨rfl, rfl⟩
                    exact Relation.ReflTransGen.refl
                · rw [Bool.not_eq_true] at hnl
                  simp only [hnl, Bool.false_eq_true, if_false] at h
                  by_cases hlen : i + 1 < ops.length
                  · -- a legal linear step i → i+1
                    have hst₂ : staticEq base (setFT i (setReach i ops)) :=
                      (hst.trans (staticEq_setReach i ops)).trans
                        (staticEq_setFT i (setReach i ops))
                    obtain ⟨hsound, hnonlin⟩ := ih _ _ _ _ hst₂ h
                    obtain ⟨opB, hopB, hpcB, hasmB⟩ := staticEq_get_some hst hv
                    have hstep : stepRel idx base i (i + 1) := by
                      obtain ⟨h1, h2, h3, h4⟩ := linear_not_any w' hnl
                      have hfwB : firstWord opB.assembly.data = some w' := by
                        rw [hasmB]; exact hfw
                      unfold stepRel
                      simp [succsOf, hopB, hfwB, h1, h2, h3, h4,
                            hst.length ▸ hlen]
                    refine ⟨fun j hj => ?_, fun j w hw => ?_⟩
                    · rcases hsound j hj with hm₂ | hpath
                      · rw [markedAt_setFT] at hm₂
                        rcases marked_setReach_cases hm₂ with hm | rfl
                        · exact Or.inl hm
                        · exact Or.inr Relation.ReflTransGen.refl
                      · exact Or.inr (Relation.ReflTransGen.head hstep hpath)
                    · exact Relation.ReflTransGen.head hstep (hnonlin j w hw)
                  · -- the next position is off the end: the inner walk
                    -- returns at once
                    have hoob : walkLinear k (setFT i (setReach i ops)) (i + 1) =
                        (setFT i (setReach i ops), .offEnd) := by
                      apply walk_oob
                      unfold setFT setReach
                      rw [length_modifyAt, length_modifyAt]
                      omega
                    rw [hoob] at h
                    simp only [Prod.mk.injEq] at h
                    obtain ⟨rfl, rfl⟩ := h
                    refine ⟨fun j hj => ?_, fun j w hw => absurd hw (by simp)⟩
                    rw [markedAt_setFT] at hj
                    rcases marked_setReach_cases hj with hm | rfl
                    · exact Or.inl hm
                    · exact Or.inr Relation.ReflTransGen.refl

/-- Closure of the walk: every freshly marked position has all its
successors marked on exit, except possibly the non-linear stop
position (whose successors the caller handles). -/
theorem walk_closed (idx : List (String × Nat)) (base : List Opcode) :
    ∀ (k : Nat) (ops : List Opcode) (i : Nat) (ops' : List Opcode) (r : WalkRes),
      staticEq base ops →
      ops.length ≤ k + i →
      walkLinear k ops i = (ops', r) →
      ∀ j, markedAt ops j = false → markedAt ops' j = true →
        (∀ x ∈ succsOf idx base j, markedAt ops' x = true) ∨
        ∃ w, r = .nonlinear j w := by
  intro k
  induction k with
  | zero =>
      intro ops i ops' r hst hk h j hj0 hj1
      simp only [walkLinear, Prod.mk.injEq] at h
      obtain ⟨rfl, rfl⟩ := h
      rw [hj0] at hj1
      exact absurd hj1 (by simp)
  | succ k ih =>
      intro ops i ops' r hst hk h j hj0 hj1
      simp only [walkLinear] at h
      match hv : ops[i]? with
      | none =>
          rw [hv] at h
          simp only [Prod.mk.injEq] at h
          obtain ⟨rfl, rfl⟩ := h
          rw [hj0] at hj1
          exact absurd hj1 (by simp)
      | some op =>
          rw [hv] at h
          by_cases hr : op.reachable = true
          · simp only [hr, if_true, Prod.mk.injEq] at h
            obtain ⟨rfl, rfl⟩ := h
            rw [hj0] at hj1
            exact absurd hj1 (by simp)
          · rw [Bool.not_eq_true] at hr
            simp only [hr, Bool.false_eq_true, if_false] at h
            match hfw : firstWord op.assembly.data with
            | none =>
                rw [hfw] at h
                simp only [Prod.mk.injEq] at h
                obtain ⟨rfl, rfl⟩ := h
                rcases marked_setReach_cases hj1 with hm | rfl
                · rw [hj0] at hm; exact absurd hm (by simp)
                · left
                  obtain ⟨opB, hopB, hpcB, hasmB⟩ := staticEq_get_some hst hv
                  have hfwB : firstWord opB.assembly.data = none := by
                    rw [hasmB]; exact hfw
                  intro x hx
                  simp [succsOf, hopB, hfwB] at hx
            | some w' =>
                rw [hfw] at h
                by_cases hnl : nonlinearL.contains w' = true
                · simp only [hnl, if_true, Prod.mk.injEq,
                    WalkRes.nonlinear.injEq] at h
                  obtain ⟨rfl, rfl, rfl⟩ := h
                  rcases marked_setReach_cases hj1 with hm | rfl
                  · rw [hj0] at hm; exact absurd hm (by simp)
                  · exact Or.inr ⟨w', rfl⟩
                · rw [Bool.not_eq_true] at hnl
                  simp only [hnl, Bool.false_eq_true, if_false] at h
                  have hst₂ : staticEq base (setFT i (setReach i ops)) :=
                    (hst.trans (staticEq_setReach i ops)).trans
                      (staticEq_setFT i (setReach i ops))
                  have hlen₂ : (setFT i (setReach i ops)).length = ops.length := by
                    unfold setFT setReach
                    rw [length_modifyAt, length_modifyAt]
                  by_cases hji : j = i
                  · -- the start itself: its only successor is i+1
                    subst hji
                    left
                    obtain ⟨opB, hopB, hpcB, hasmB⟩ := staticEq_get_some hst hv
                    have hfwB : firstWord opB.assembly.data = some w' := by
                      rw [hasmB]; exact hfw
                    obtain ⟨h1, h2, h3, h4⟩ := linear_not_any w' hnl
                    intro x hx
                    have hblen : base.length = ops.length := hst.length
                    by_cases hlen : j + 1 < ops.length
                    · have hs : succsOf idx base j = [j + 1] := by
                        simp [succsOf, hopB, hfwB, h1, h2, h3, h4, hblen, hlen]
                      rw [hs] at hx
                      simp at hx
                      subst hx
                      refine walk_marks k _ _ _ _ ?_ ?_ h
                      · rw [hlen₂]; omega
                      · rw [hlen₂]; exact hlen
                    · have hs : succsOf idx base j = [] := by
                        simp [succsOf, hopB, hfwB, h1, h2, h3, h4, hblen, hlen]
                      rw [hs] at hx
                      simp at hx
                  · -- a fresh mark made by the rest of the walk
                    have hj0₂ : markedAt (setFT i (setReach i ops)) j = false := by
                      rw [markedAt_step_other ops hji]; exact hj0
                    exact ih _ _ _ _ hst₂ (by omega) h j hj0₂ hj1

/-- Complete case analysis of one work-list step (every later induction
over `reachableAux` consumes this one lemma). -/
theorem auxStep_cases (go : List Opcode → List Nat → RRes)
    (idx : List (String × Nat)) (ops : List Opcode) (i : Nat) :
    (ops[i]? = none ∧ auxStep go idx ops i = .jsError) ∨
    ∃ op ops' r, ops[i]? = some op ∧
      walkLinear (setEntry i ops).length (setEntry i ops) i = (ops', r) ∧
      (((r = .offEnd ∨ r = .hitMarked) ∧ auxStep go idx ops i = .ok ops') ∨
       (r = .err ∧ auxStep go idx ops i = .jsError) ∨
       ∃ j w, r = .nonlinear j w ∧
         ((ops'[j]? = none ∧ auxStep go idx ops i = .jsError) ∨
          ∃ op', ops'[j]? = some op' ∧
            ((w ∈ terminatorsL ∧ auxStep go idx ops i = .ok ops') ∨
             (w ∉ terminatorsL ∧ w ∈ unconditionalsL ∧
               ((branchIndex idx op'.assembly = none ∧
                   auxStep go idx ops i = .jsError) ∨
                ∃ t, branchIndex idx op'.assembly = some t ∧
                  auxStep go idx ops i = go ops' [t])) ∨
             (w ∉ terminatorsL ∧ w ∉ unconditionalsL ∧ w ∈ conditionalsL ∧
               auxStep go idx ops i =
                 go ops' (condWs j (branchIndex idx op'.assembly))) ∨
             (w ∉ terminatorsL ∧ w ∉ unconditionalsL ∧ w ∉ conditionalsL ∧
               w ∈ switchesL ∧
               ((switchOffsets op'.assembly = none ∧
                   auxStep go idx ops i = .jsError) ∨
                ∃ offs, switchOffsets op'.assembly = some offs ∧
                  ((resolveOffsets idx op'.pc offs = none ∧
                      auxStep go idx ops i = .jsError) ∨
                   ∃ ts, resolveOffsets idx op'.pc offs = some ts ∧
                     auxStep go idx ops i = go ops' ts))) ∨
             (w ∉ terminatorsL ∧ w ∉ unconditionalsL ∧ w ∉ conditionalsL ∧
               w ∉ switchesL ∧ auxStep go idx ops i = .ok ops')))) := by
  match hv : ops[i]? with
  | none =>
      exact Or.inl ⟨rfl, by simp only [auxStep, hv]⟩
  | some op =>
      refine Or.inr ⟨op, ?_⟩
      match hwk : walkLinear (setEntry i ops).length (setEntry i ops) i with
      | (ops', r) =>
        refine ⟨ops', r, rfl, rfl, ?_⟩
        have hbase : auxStep go idx ops i =
            (match (ops', r) with
             | (ops', .offEnd) => RRes.ok ops'
             | (ops', .hitMarked) => RRes.ok ops'
             | (_, .err) => RRes.jsError
             | (ops', .nonlinear j w) =>
               match ops'[j]? with
               | none => RRes.jsError
               | some op =>
                 if terminatorsL.contains w then RRes.ok ops'
                 else if unconditionalsL.contains w then
                   match branchIndex idx op.assembly with
                   | none => RRes.jsError
                   | some t => go ops' [t]
                 else if conditionalsL.contains w then
                   go ops' (condWs j (branchIndex idx op.assembly))
                 else if switchesL.contains w then
                   match switchOffsets op.assembly with
                   | none => RRes.jsError
                   | some offs =>
                     match resolveOffsets idx op.pc offs with
                     | none => RRes.jsError
                     | some ts => go ops' ts
                 else RRes.ok ops') := by
          simp only [auxStep, hv]
          rw [hwk]
        match r with
        | .offEnd => exact Or.inl ⟨Or.inl rfl, hbase⟩
        | .hitMarked => exact Or.inl ⟨Or.inr rfl, hbase⟩
        | .err => exact Or.inr (Or.inl ⟨rfl, hbase⟩)
        | .nonlinear j w =>
            refine Or.inr (Or.inr ⟨j, w, rfl, ?_⟩)
            match hop : ops'[j]? with
            | none =>
                refine Or.inl ⟨rfl, ?_⟩
                rw [hbase]; simp only [hop]
            | some op' =>
                refine Or.inr ⟨op', rfl, ?_⟩
                rw [hbase]
                simp only [hop]
                by_cases hterm : w ∈ terminatorsL
                · have hc : terminatorsL.contains w = true := List.elem_iff.mpr hterm
                  exact Or.inl ⟨hterm, by simp only [hc, if_true]⟩
                · have hc : terminatorsL.contains w = false := by
                    rw [← Bool.not_eq_true]; intro hcc
                    exact hterm (List.elem_iff.mp hcc)
                  simp only [hc, Bool.false_eq_true, if_false]
                  by_cases hunc : w ∈ unconditionalsL
                  · have hc2 : unconditionalsL.contains w = true :=
                      List.elem_iff.mpr hunc
                    simp only [hc2, if_true]
                    refine Or.inr (Or.inl ⟨hterm, hunc, ?_⟩)
                    match hbi : branchIndex idx op'.assembly with
                    | none => exact Or.inl ⟨rfl, by simp⟩
                    | some t => exact Or.inr ⟨t, rfl, by simp⟩
                  · have hc2 : unconditionalsL.contains w = false := by
                      rw [← Bool.not_eq_true]; intro hcc
                      exact hunc (List.elem_iff.mp hcc)
                    simp only [hc2, Bool.false_eq_true, if_false]
                    by_cases hcond : w ∈ conditionalsL
                    · have hc3 : conditionalsL.contains w = true :=
                        List.elem_iff.mpr hcond
                      simp only [hc3, if_true]
                      refine Or.inr (Or.inr (Or.inl ⟨hterm, hunc, hcond, ?_⟩))
                      first
                      | rfl
                      | trivial
                      | simp
                    · have hc3 : conditionalsL.contains w = false := by
                        rw [← Bool.not_eq_true]; intro hcc
                        exact hcond (List.elem_iff.mp hcc)
                      simp only [hc3, Bool.false_eq_true, if_false]
                      by_cases hsw : w ∈ switchesL
                      · have hc4 : switchesL.contains w = true :=
                          List.elem_iff.mpr hsw
                        simp only [hc4, if_true]
                        refine Or.inr (Or.inr (Or.inr (Or.inl
                          ⟨hterm, hunc, hcond, hsw, ?_⟩)))
                        match hoffs : switchOffsets op'.assembly with
                        | none => exact Or.inl ⟨rfl, by simp⟩
                        | some offs =>
                            refine Or.inr ⟨offs, rfl, ?_⟩
                            simp only []
                            match hres : resolveOffsets idx op'.pc offs with
                            | none => exact Or.inl ⟨rfl, by simp⟩
                            | some ts => exact Or.inr ⟨ts, rfl, by simp⟩
                      · have hc4 : switchesL.contains w = false := by
                          rw [← Bool.not_eq_true]; intro hcc
                          exact hsw (List.elem_iff.mp hcc)
                        simp only [hc4, Bool.false_eq_true, if_false]
                        refine Or.inr (Or.inr (Or.inr (Or.inr
                          ⟨hterm, hunc, hcond, hsw, ?_⟩)))
                        first
                        | rfl
                        | trivial
                        | simp

theorem length_setReach (i : Nat) (ops : List Opcode) :
    (setReach i ops).length = ops.length := by
  unfold setReach; exact length_modifyAt _ _ _

theorem length_setFT (i : Nat) (ops : List Opcode) :
    (setFT i ops).length = ops.length := by
  unfold setFT; exact length_modifyAt _ _ _

theorem length_setEntry (i : Nat) (ops : List Opcode) :
    (setEntry i ops).length = ops.length := by
  unfold setEntry; exact length_modifyAt _ _ _

/-- Eliminate the continuation match of `reachableAux`. -/
theorem contOfMatch {idx : List (String × Nat)} {fuel : Nat} {rest : List Nat}
    {final : List Opcode} {X : RRes}
    (h : (match X with
          | RRes.ok o => reachableAux idx fuel o rest
          | e => e) = RRes.ok final) :
    ∃ ops2, X = RRes.ok ops2 ∧ reachableAux idx fuel ops2 rest = RRes.ok final := by
  match X with
  | .ok o => exact ⟨o, rfl, h⟩
  | .jsError => simp at h
  | .fuelOut => simp at h

/-- Shape of a completed run: statics unchanged, marks only grown, and
every work-list position marked. -/
theorem aux_shape (idx : List (String × Nat)) (base : List Opcode) :
    ∀ (fuel : Nat) (ops : List Opcode) (ws : List Nat) (final : List Opcode),
      staticEq base ops →
      reachableAux idx fuel ops ws = .ok final →
      staticEq ops final ∧ marksLe ops final ∧
        ∀ x ∈ ws, markedAt final x = true := by
  intro fuel
  induction fuel with
  | zero =>
      intro ops ws final _ h
      exact absurd h (by simp [reachableAux])
  | succ fuel ih =>
      intro ops ws final hst h
      match ws with
      | [] =>
          simp only [reachableAux, RRes.ok.injEq] at h
          subst h
          exact ⟨staticEq.refl _, marksLe_refl _, by simp⟩
      | i :: rest =>
          simp only [reachableAux] at h
          rcases contOfMatch h with ⟨ops₂, hX, hcont⟩
          rcases auxStep_cases (reachableAux idx fuel) idx ops i with
            ⟨hv, heq⟩ | ⟨op, ops', r, hv, hwk, hbr⟩
          · rw [heq] at hX; exact absurd hX (by simp)
          · obtain ⟨hwkSt, hwkMl⟩ := walk_shape _ _ _ _ _ hwk
            have hst1 : staticEq ops ops' := (staticEq_setEntry i ops).trans hwkSt
            have hml1 : marksLe ops ops' := marksLe_trans (marksLe_setEntry i ops) hwkMl
            have hiLen : i < ops.length := lt_of_getElem?_some hv
            have hmark_i : markedAt ops' i = true := by
              refine walk_marks _ _ _ _ _ ?_ ?_ hwk
              · omega
              · rw [length_setEntry]; exact hiLen
            have descend : ∀ (ws' : List Nat),
                reachableAux idx fuel ops' ws' = RRes.ok ops₂ →
                staticEq ops final ∧ marksLe ops final ∧
                  ∀ x ∈ i :: rest, markedAt final x = true := by
              intro ws' hchild
              obtain ⟨stC, mlC, -⟩ := ih ops' ws' ops₂ (hst.trans hst1) hchild
              obtain ⟨stR, mlR, wsR⟩ :=
                ih ops₂ rest final (((hst.trans hst1).trans stC)) hcont
              refine ⟨(hst1.trans stC).trans stR, marksLe_trans (marksLe_trans hml1 mlC) mlR, ?_⟩
              intro x hx
              rcases List.mem_cons.mp hx with rfl | hx'
              · exact mlR _ (mlC _ hmark_i)
              · exact wsR x hx'
            have noDescend :
                auxStep (reachableAux idx fuel) idx ops i = RRes.ok ops' →
                staticEq ops final ∧ marksLe ops final ∧
                  ∀ x ∈ i :: rest, markedAt final x = true := by
              intro heq
              rw [heq] at hX
              have hops : ops' = ops₂ := by cases hX; rfl
              subst hops
              obtain ⟨stR, mlR, wsR⟩ :=
                ih ops' rest final (hst.trans hst1) hcont
              refine ⟨hst1.trans stR, marksLe_trans hml1 mlR, ?_⟩
              intro x hx
              rcases List.mem_cons.mp hx with rfl | hx'
              · exact mlR _ hmark_i
              · exact wsR x hx'
            rcases hbr with ⟨hre, heq⟩ | ⟨hre, heq⟩ |
              ⟨j, w, hre, hinner⟩
            · exact noDescend heq
            · rw [heq] at hX; exact absurd hX (by simp)
            · rcases hinner with ⟨hop, heq⟩ | ⟨op', hop, hcat⟩
              · rw [heq] at hX; exact absurd hX (by simp)
              · rcases hcat with ⟨hcw, heq⟩ |
                  ⟨h1, h2, ⟨hbi, heq⟩ | ⟨t, hbi, heq⟩⟩ |
                  ⟨h1, h2, h3, heq⟩ |
                  ⟨h1, h2, h3, h4, ⟨hoffs, heq⟩ |
                    ⟨offs, hoffs, ⟨hres, heq⟩ | ⟨ts, hres, heq⟩⟩⟩ |
                  ⟨h1, h2, h3, h4, heq⟩
                · exact noDescend heq
                · rw [heq] at hX; exact absurd hX (by simp)
                · exact descend _ (by rw [← heq]; exact hX)
                · exact descend _ (by rw [← heq]; exact hX)
                · rw [heq] at hX; exact absurd hX (by simp)
                · rw [heq] at hX; exact absurd hX (by simp)
                · exact descend _ (by rw [← heq]; exact hX)
                · exact noDescend heq

/-- Closure of a completed run: every freshly marked position has all
its successors marked in the final state.  The side hypothesis — the
entry position 0 is already marked or heads the work list — holds on
every call the analysis makes, and covers the skipped branch call of a
conditional whose target is index 0. -/
theorem aux_closed (idx : List (String × Nat)) (base : List Opcode) :
    ∀ (fuel : Nat) (ops : List Opcode) (ws : List Nat) (final : List Opcode),
      staticEq base ops →
      (markedAt ops 0 = true ∨ ∃ tl, ws = 0 :: tl) →
      reachableAux idx fuel ops ws = .ok final →
      ∀ j, markedAt ops j = false → markedAt final j = true →
        ∀ x ∈ succsOf idx base j, markedAt final x = true := by
  intro fuel
  induction fuel with
  | zero =>
      intro ops ws final _ _ h
      exact absurd h (by simp [reachableAux])
  | succ fuel ih =>
      intro ops ws final hst h0 h
      match ws with
      | [] =>
          simp only [reachableAux, RRes.ok.injEq] at h
          subst h
          intro j hj0 hj1
          rw [hj0] at hj1
          exact absurd hj1 (by simp)
      | i :: rest =>
          simp only [reachableAux] at h
          rcases contOfMatch h with ⟨ops₂, hX, hcont⟩
          rcases auxStep_cases (reachableAux idx fuel) idx ops i with
            ⟨hv, heq⟩ | ⟨op, ops', r, hv, hwk, hbr⟩
          · rw [heq] at hX; exact absurd hX (by simp)
          · obtain ⟨hwkSt, hwkMl⟩ := walk_shape _ _ _ _ _ hwk
            have hst1 : staticEq ops ops' := (staticEq_setEntry i ops).trans hwkSt
            have hml1 : marksLe ops ops' := marksLe_trans (marksLe_setEntry i ops) hwkMl
            have hiLen : i < ops.length := lt_of_getElem?_some hv
            have hmark_i : markedAt ops' i = true := by
              refine walk_marks _ _ _ _ _ ?_ ?_ hwk
              · omega
              · rw [length_setEntry]; exact hiLen
            -- after the walk, position 0 is always marked
            have h0' : markedAt ops' 0 = true := by
              rcases h0 with hm | ⟨tl, htl⟩
              · exact hml1 0 hm
              · cases htl; exact hmark_i
            -- closure inherited from the walk
            have hwalkClosed := walk_closed idx base _ (setEntry i ops) i ops' r
              (hst.trans (staticEq_setEntry i ops)) (by omega) hwk
            -- new marks made by the walk, rephrased over `ops`
            have hwalkNew : ∀ j, markedAt ops j = false →
                markedAt ops' j = true →
                (∀ x ∈ succsOf idx base j, markedAt ops' x = true) ∨
                ∃ w, r = .nonlinear j w := by
              intro j hj0 hj1
              exact hwalkClosed j (by rw [markedAt_setEntry]; exact hj0) hj1
            rcases hbr with ⟨hre, heq⟩ | ⟨hre, heq⟩ |
              ⟨j0, w, hre, hinner⟩
            · -- walk ran off the end or hit a mark: no dispatch
              rw [heq] at hX
              have hops : ops' = ops₂ := by cases hX; rfl
              subst hops
              obtain ⟨-, mlR, -⟩ := aux_shape idx base fuel ops' rest final
                (hst.trans hst1) hcont
              intro j hj0 hj1 x hx
              by_cases hjw : markedAt ops' j = true
              · rcases hwalkNew j hj0 hjw with hcl | ⟨w, hw⟩
                · exact mlR x (hcl x hx)
                · rcases hre with hro | hro <;> rw [hro] at hw <;>
                    exact absurd hw (by simp)
              · rw [Bool.not_eq_true] at hjw
                exact ih ops' rest final (hst.trans hst1) (Or.inl h0') hcont
                  j hjw hj1 x hx
            · rw [heq] at hX; exact absurd hX (by simp)
            · rcases hinner with ⟨hop, heq⟩ | ⟨op', hop, hcat⟩
              · rw [heq] at hX; exact absurd hX (by simp)
              · -- facts about the non-linear stop position j0
                have hwk' := hwk
                rw [hre] at hwk'
                obtain ⟨-, -, -, opw, hopw, hfww, hnlw⟩ :=
                  walk_nonlinear _ _ _ _ _ _ hwk'
                obtain ⟨opE, hopE, hpcE, hasmE⟩ := staticEq_get_some hwkSt hop
                have hopwE : opw = opE := by rw [hopE] at hopw; cases hopw; rfl
                have hfw' : firstWord op'.assembly.data = some w := by
                  rw [← hasmE, ← hopwE]; exact hfww
                obtain ⟨opB, hopB, hpcB, hasmB⟩ :=
                  staticEq_get_some (hst.trans hst1) hop
                have hfwB : firstWord opB.assembly.data = some w := by
                  rw [hasmB]; exact hfw'
                have hbl : base.length = ops.length := hst.length
                -- a fresh walk mark at the stop position means `j = j0`
                have hstopEq : ∀ j w'', (WalkRes.nonlinear j0 w : WalkRes) =
                    .nonlinear j w'' → j = j0 ∧ w'' = w := by
                  intro j w'' hww
                  cases hww
                  exact ⟨rfl, rfl⟩
                rcases hcat with ⟨hcw, heq⟩ |
                  ⟨h1, h2, ⟨hbi, heq⟩ | ⟨t, hbi, heq⟩⟩ |
                  ⟨h1, h2, h3, heq⟩ |
                  ⟨h1, h2, h3, h4, ⟨hoffs, heq⟩ |
                    ⟨offs, hoffs, ⟨hres, heq⟩ | ⟨ts, hres, heq⟩⟩⟩ |
                  ⟨h1, h2, h3, h4, heq⟩
                · -- terminator: no successors, no descent
                  rw [heq] at hX
                  have hops : ops' = ops₂ := by cases hX; rfl
                  subst hops
                  obtain ⟨-, mlR, -⟩ := aux_shape idx base fuel ops' rest final
                    (hst.trans hst1) hcont
                  have hsuccs : succsOf idx base j0 = [] := by
                    simp [succsOf, hopB, hfwB, hcw]
                  intro j hj0 hj1 x hx
                  by_cases hjw : markedAt ops' j = true
                  · rcases hwalkNew j hj0 hjw with hcl | ⟨w'', hw⟩
                    · exact mlR x (hcl x hx)
                    · obtain ⟨rfl, rfl⟩ := hstopEq j w'' (hre ▸ hw)
                      rw [hsuccs] at hx
                      exact absurd hx (by simp)
                  · rw [Bool.not_eq_true] at hjw
                    exact ih ops' rest final (hst.trans hst1) (Or.inl h0')
                      hcont j hjw hj1 x hx
                · -- unconditional with unresolved target: an exception
                  rw [heq] at hX; exact absurd hX (by simp)
                · -- unconditional: one descent into the branch target
                  have hXchild : reachableAux idx fuel ops' [t] = RRes.ok ops₂ := by
                    rw [← heq]; exact hX
                  obtain ⟨stC, mlC, wsC⟩ := aux_shape idx base fuel ops' [t] ops₂
                    (hst.trans hst1) hXchild
                  obtain ⟨stR, mlR, wsR⟩ := aux_shape idx base fuel ops₂ rest final
                    ((hst.trans hst1).trans stC) hcont
                  have hsuccs : succsOf idx base j0 = [t] := by
                    have hbiB : branchIndex idx opB.assembly = some t := by
                      rw [hasmB]; exact hbi
                    simp [succsOf, hopB, hfwB, h1, h2, hbiB]
                  intro j hj0 hj1 x hx
                  by_cases hjw : markedAt ops' j = true
                  · rcases hwalkNew j hj0 hjw with hcl | ⟨w'', hw⟩
                    · exact mlR x (mlC x (hcl x hx))
                    · obtain ⟨rfl, rfl⟩ := hstopEq j w'' (hre ▸ hw)
                      rw [hsuccs] at hx
                      simp at hx
                      subst hx
                      exact mlR x (wsC x (by simp))
                  · rw [Bool.not_eq_true] at hjw
                    by_cases hjc : markedAt ops₂ j = true
                    · exact mlR x (ih ops' [t] ops₂ (hst.trans hst1)
                        (Or.inl h0') hXchild j hjw hjc x hx)
                    · rw [Bool.not_eq_true] at hjc
                      exact ih ops₂ rest final ((hst.trans hst1).trans stC)
                        (Or.inl (mlC 0 h0')) hcont j hjc hj1 x hx
                · -- conditional: descend into next-plus-target
                  have hXchild : reachableAux idx fuel ops'
                      (condWs j0 (branchIndex idx op'.assembly)) = RRes.ok ops₂ := by
                    rw [← heq]; exact hX
                  obtain ⟨stC, mlC, wsC⟩ := aux_shape idx base fuel ops' _ ops₂
                    (hst.trans hst1) hXchild
                  obtain ⟨stR, mlR, wsR⟩ := aux_shape idx base fuel ops₂ rest final
                    ((hst.trans hst1).trans stC) hcont
                  have hbiB : branchIndex idx opB.assembly =
                      branchIndex idx op'.assembly := by rw [hasmB]
                  have hsuccs : succsOf idx base j0 =
                      (if j0 + 1 < ops.length then [j0 + 1] else []) ++
                        (branchIndex idx op'.assembly).toList := by
                    simp [succsOf, hopB, hfwB, h1, h2, h3, hbiB, hbl]
                  have hnext : j0 + 1 ∈ condWs j0 (branchIndex idx op'.assembly) := by
                    match branchIndex idx op'.assembly with
                    | none => simp [condWs]
                    | some 0 => simp [condWs]
                    | some (b + 1) => simp [condWs]
                  intro j hj0 hj1 x hx
                  by_cases hjw : markedAt ops' j = true
                  · rcases hwalkNew j hj0 hjw with hcl | ⟨w'', hw⟩
                    · exact mlR x (mlC x (hcl x hx))
                    · obtain ⟨rfl, rfl⟩ := hstopEq j w'' (hre ▸ hw)
                      rw [hsuccs] at hx
                      rcases List.mem_append.mp hx with hx1 | hx2
                      · have hxj : x = j + 1 := by
                          by_cases hlt : j + 1 < ops.length
                          · rw [if_pos hlt] at hx1; simpa using hx1
                          · rw [if_neg hlt] at hx1; simp at hx1
                        subst hxj
                        exact mlR _ (wsC _ hnext)
                      · match hbi2 : branchIndex idx op'.assembly with
                        | none => rw [hbi2] at hx2; simp at hx2
                        | some 0 =>
                            rw [hbi2] at hx2
                            simp at hx2
                            subst hx2
                            exact mlR 0 (mlC 0 h0')
                        | some (b + 1) =>
                            rw [hbi2] at hx2
                            simp at hx2
                            subst hx2
                            refine mlR _ (wsC _ ?_)
                            rw [hbi2]
                            simp [condWs]
                  · rw [Bool.not_eq_true] at hjw
                    by_cases hjc : markedAt ops₂ j = true
                    · exact mlR x (ih ops' _ ops₂ (hst.trans hst1)
                        (Or.inl h0') hXchild j hjw hjc x hx)
                    · rw [Bool.not_eq_true] at hjc
                      exact ih ops₂ rest final ((hst.trans hst1).trans stC)
                        (Or.inl (mlC 0 h0')) hcont j hjc hj1 x hx
                · -- switch with undecodable offsets: an exception
                  rw [heq] at hX; exact absurd hX (by simp)
                · -- switch with unresolved target: an exception
                  rw [heq] at hX; exact absurd hX (by simp)
                · -- switch: descend into all the case targets
                  have hXchild : reachableAux idx fuel ops' ts = RRes.ok ops₂ := by
                    rw [← heq]; exact hX
                  obtain ⟨stC, mlC, wsC⟩ := aux_shape idx base fuel ops' ts ops₂
                    (hst.trans hst1) hXchild
                  obtain ⟨stR, mlR, wsR⟩ := aux_shape idx base fuel ops₂ rest final
                    ((hst.trans hst1).trans stC) hcont
                  have hsuccs : succsOf idx base j0 = ts := by
                    have hoffsB : switchOffsets opB.assembly = some offs := by
                      rw [hasmB]; exact hoffs
                    have hresB : resolveOffsets idx opB.pc offs = some ts := by
                      rw [hpcB]; exact hres
                    simp [succsOf, hopB, hfwB, h1, h2, h3, h4, hoffsB, hresB]
                  intro j hj0 hj1 x hx
                  by_cases hjw : markedAt ops' j = true
                  · rcases hwalkNew j hj0 hjw with hcl | ⟨w'', hw⟩
                    · exact mlR x (mlC x (hcl x hx))
                    · obtain ⟨rfl, rfl⟩ := hstopEq j w'' (hre ▸ hw)
                      rw [hsuccs] at hx
                      exact mlR x (wsC x hx)
                  · rw [Bool.not_eq_true] at hjw
                    by_cases hjc : markedAt ops₂ j = true
                    · exact mlR x (ih ops' ts ops₂ (hst.trans hst1)
                        (Or.inl h0') hXchild j hjw hjc x hx)
                    · rw [Bool.not_eq_true] at hjc
                      exact ih ops₂ rest final ((hst.trans hst1).trans stC)
                        (Or.inl (mlC 0 h0')) hcont j hjc hj1 x hx
                · -- a non-linear word in none of the four tables: impossible
                  exact absurd ((nonlinear_split w).mp hnlw)
                    (by simp [h1, h2, h3, h4])

/-- A completed run's first work-list position is in range (an
out-of-range call throws). -/
theorem aux_ok_head_lt (idx : List (String × Nat)) (fuel : Nat)
    (ops : List Opcode) (x : Nat) (xs : List Nat) (final : List Opcode)
    (h : reachableAux idx fuel ops (x :: xs) = .ok final) : x < ops.length := by
  match fuel with
  | 0 => exact absurd h (by simp [reachableAux])
  | fuel + 1 =>
      simp only [reachableAux] at h
      rcases contOfMatch h with ⟨ops₂, hX, -⟩
      rcases auxStep_cases (reachableAux idx fuel) idx ops x with
        ⟨hv, heq⟩ | ⟨op, ops', r, hv, -, -⟩
      · rw [heq] at hX; exact absurd hX (by simp)
      · exact lt_of_getElem?_some hv

/-- Soundness of a completed run: every marked position is reachable
from 0 once all work-list positions are and all previous marks are. -/
theorem aux_sound (idx : List (String × Nat)) (base : List Opcode) :
    ∀ (fuel : Nat) (ops : List Opcode) (ws : List Nat) (final : List Opcode),
      staticEq base ops →
      reachableAux idx fuel ops ws = .ok final →
      (∀ x ∈ ws, ReachFrom idx base 0 x) →
      (∀ j, markedAt ops j = true → ReachFrom idx base 0 j) →
      ∀ j, markedAt final j = true → ReachFrom idx base 0 j := by
  intro fuel
  induction fuel with
  | zero =>
      intro ops ws final _ h
      exact absurd h (by simp [reachableAux])
  | succ fuel ih =>
      intro ops ws final hst h hwsR hold
      match ws with
      | [] =>
          simp only [reachableAux, RRes.ok.injEq] at h
          subst h
          exact hold
      | i :: rest =>
          simp only [reachableAux] at h
          rcases contOfMatch h with ⟨ops₂, hX, hcont⟩
          rcases auxStep_cases (reachableAux idx fuel) idx ops i with
            ⟨hv, heq⟩ | ⟨op, ops', r, hv, hwk, hbr⟩
          · rw [heq] at hX; exact absurd hX (by simp)
          · obtain ⟨hwkSt, hwkMl⟩ := walk_shape _ _ _ _ _ hwk
            have hst1 : staticEq ops ops' := (staticEq_setEntry i ops).trans hwkSt
            have hiR : ReachFrom idx base 0 i := hwsR i (by simp)
            obtain ⟨hsndW, hnlW⟩ := walk_sound idx base _ (setEntry i ops) i ops' r
              (hst.trans (staticEq_setEntry i ops)) hwk
            have hold' : ∀ j, markedAt ops' j = true → ReachFrom idx base 0 j := by
              intro j hj
              rcases hsndW j hj with hm | hpath
              · rw [markedAt_setEntry] at hm; exact hold j hm
              · exact Relation.ReflTransGen.trans hiR hpath
            have hrestR : ∀ x ∈ rest, ReachFrom idx base 0 x := by
              intro x hx; exact hwsR x (by simp [hx])
            have noDescend :
                auxStep (reachableAux idx fuel) idx ops i = RRes.ok ops' →
                ∀ j, markedAt final j = true → ReachFrom idx base 0 j := by
              intro heq
              rw [heq] at hX
              have hops : ops' = ops₂ := by cases hX; rfl
              subst hops
              exact ih ops' rest final (hst.trans hst1) hcont hrestR hold'
            rcases hbr with ⟨hre, heq⟩ | ⟨hre, heq⟩ |
              ⟨j0, w, hre, hinner⟩
            · exact noDescend heq
            · rw [heq] at hX; exact absurd hX (by simp)
            · rcases hinner with ⟨hop, heq⟩ | ⟨op', hop, hcat⟩
              · rw [heq] at hX; exact absurd hX (by simp)
              · -- static facts about the stop position
                have hwk' := hwk
                rw [hre] at hwk'
                obtain ⟨-, -, -, opw, hopw, hfww, hnlw⟩ :=
                  walk_nonlinear _ _ _ _ _ _ hwk'
                obtain ⟨opE, hopE, hpcE, hasmE⟩ := staticEq_get_some hwkSt hop
                have hopwE : opw = opE := by rw [hopE] at hopw; cases hopw; rfl
                have hfw' : firstWord op'.assembly.data = some w := by
                  rw [← hasmE, ← hopwE]; exact hfww
                obtain ⟨opB, hopB, hpcB, hasmB⟩ :=
                  staticEq_get_some (hst.trans hst1) hop
                have hfwB : firstWord opB.assembly.data = some w := by
                  rw [hasmB]; exact hfw'
                have hbl : base.length = ops.length := hst.length
                have hj0R : ReachFrom idx base 0 j0 :=
                  Relation.ReflTransGen.trans hiR (hnlW j0 w hre)
                have descend : ∀ (ws' : List Nat),
                    reachableAux idx fuel ops' ws' = RRes.ok ops₂ →
                    (∀ x ∈ ws', ReachFrom idx base 0 x) →
                    ∀ j, markedAt final j = true → ReachFrom idx base 0 j := by
                  intro ws' hchild hws'
                  have hold₂ := ih ops' ws' ops₂ (hst.trans hst1) hchild hws' hold'
                  obtain ⟨stC, -, -⟩ := aux_shape idx base fuel ops' ws' ops₂
                    (hst.trans hst1) hchild
                  exact ih ops₂ rest final ((hst.trans hst1).trans stC) hcont
                    hrestR hold₂
                rcases hcat with ⟨hcw, heq⟩ |
                  ⟨h1, h2, hbr2⟩ |
                  ⟨h1, h2, h3, heq⟩ |
                  ⟨h1, h2, h3, h4, hbr2⟩ |
                  ⟨h1, h2, h3, h4, heq⟩
                · exact noDescend heq
                · rcases hbr2 with ⟨hbi, heq⟩ | ⟨tgt, hbi, heq⟩
                  · rw [heq] at hX; exact absurd hX (by simp)
                  · -- unconditional: the target is a successor of j0
                    have hXchild : reachableAux idx fuel ops' [tgt] = RRes.ok ops₂ := by
                      rw [← heq]; exact hX
                    refine descend [tgt] hXchild ?_
                    intro x hx
                    simp at hx
                    refine Relation.ReflTransGen.tail hj0R ?_
                    have hbiB : branchIndex idx opB.assembly = some tgt := by
                      rw [hasmB]; exact hbi
                    unfold stepRel
                    rw [hx]
                    simp [succsOf, hopB, hfwB, h1, h2, hbiB]
                · -- conditional: next instruction and possibly the target
                  have hXchild : reachableAux idx fuel ops'
                      (condWs j0 (branchIndex idx op'.assembly)) = RRes.ok ops₂ := by
                    rw [← heq]; exact hX
                  have hbiB : branchIndex idx opB.assembly =
                      branchIndex idx op'.assembly := by rw [hasmB]
                  have hsuccs : succsOf idx base j0 =
                      (if j0 + 1 < ops.length then [j0 + 1] else []) ++
                        (branchIndex idx op'.assembly).toList := by
                    simp [succsOf, hopB, hfwB, h1, h2, h3, hbiB, hbl]
                  -- the next instruction is in range (else the child throws)
                  have hnextLt : j0 + 1 < ops.length := by
                    have hhead : j0 + 1 < ops'.length := by
                      have hcw := hXchild
                      match hbi2 : branchIndex idx op'.assembly with
                      | none =>
                          rw [hbi2] at hcw
                          exact aux_ok_head_lt _ _ _ _ _ _ hcw
                      | some 0 =>
                          rw [hbi2] at hcw
                          exact aux_ok_head_lt _ _ _ _ _ _ hcw
                      | some (b + 1) =>
                          rw [hbi2] at hcw
                          exact aux_ok_head_lt _ _ _ _ _ _ hcw
                    rw [hst1.length]; exact hhead
                  refine descend _ hXchild ?_
                  intro x hx
                  match hbi2 : branchIndex idx op'.assembly with
                  | none =>
                      rw [hbi2] at hx
                      simp [condWs] at hx
                      subst hx
                      refine Relation.ReflTransGen.tail hj0R ?_
                      unfold stepRel
                      rw [hsuccs, hbi2]
                      simp [hnextLt]
                  | some 0 =>
                      rw [hbi2] at hx
                      simp [condWs] at hx
                      subst hx
                      refine Relation.ReflTransGen.tail hj0R ?_
                      unfold stepRel
                      rw [hsuccs, hbi2]
                      simp [hnextLt]
                  | some (b + 1) =>
                      rw [hbi2] at hx
                      simp [condWs] at hx
                      rcases hx with rfl | rfl
                      · refine Relation.ReflTransGen.tail hj0R ?_
                        unfold stepRel
                        rw [hsuccs, hbi2]
                        simp [hnextLt]
                      · refine Relation.ReflTransGen.tail hj0R ?_
                        unfold stepRel
                        rw [hsuccs, hbi2]
                        simp
                · -- switch
                  rcases hbr2 with ⟨hoffs, heq⟩ |
                    ⟨offs, hoffs, ⟨hres, heq⟩ | ⟨ts, hres, heq⟩⟩
                  · rw [heq] at hX; exact absurd hX (by simp)
                  · rw [heq] at hX; exact absurd hX (by simp)
                  · -- all resolved targets are successors of j0
                    have hXchild : reachableAux idx fuel ops' ts = RRes.ok ops₂ := by
                      rw [← heq]; exact hX
                    have hsuccs : succsOf idx base j0 = ts := by
                      have hoffsB : switchOffsets opB.assembly = some offs := by
                        rw [hasmB]; exact hoffs
                      have hresB : resolveOffsets idx opB.pc offs = some ts := by
                        rw [hpcB]; exact hres
                      simp [succsOf, hopB, hfwB, h1, h2, h3, h4, hoffsB, hresB]
                    refine descend ts hXchild ?_
                    intro x hx
                    refine Relation.ReflTransGen.tail hj0R ?_
                    unfold stepRel
                    rw [hsuccs]
                    exact hx
                · exact noDescend heq

/-! ### Fuel adequacy and fuel stability (C9)

`reachable` in the source has no structural measure; its termination is
exactly the statement that the fuel embedding never returns `fuelOut`
for the fuel `checkReachability` supplies, and that any larger fuel
gives the same answer. -/

/-- One work-list step either ignores the recursive callback entirely
(producing a fixed value) or is exactly one callback invocation: all
the discriminating data of `auxStep` is independent of the callback. -/
theorem auxStep_descent_or_const (idx : List (String × Nat))
    (ops : List Opcode) (i : Nat) :
    (∃ v, ∀ g, auxStep g idx ops i = v) ∨
    (∃ ops' ws, ∀ g, auxStep g idx ops i = g ops' ws) := by
  match hv : ops[i]? with
  | none => exact Or.inl ⟨.jsError, fun g => by simp only [auxStep, hv]⟩
  | some op =>
    match hwk : walkLinear (setEntry i ops).length (setEntry i ops) i with
    | (ops', r) =>
      have hbase : ∀ g : List Opcode → List Nat → RRes, auxStep g idx ops i =
          (match ((ops', r) : List Opcode × WalkRes) with
           | (ops', .offEnd) => RRes.ok ops'
           | (ops', .hitMarked) => RRes.ok ops'
           | (_, .err) => RRes.jsError
           | (ops', .nonlinear j w) =>
             match ops'[j]? with
             | none => RRes.jsError
             | some op =>
               if terminatorsL.contains w then RRes.ok ops'
               else if unconditionalsL.contains w then
                 match branchIndex idx op.assembly with
                 | none => RRes.jsError
                 | some t => g ops' [t]
               else if conditionalsL.contains w then
                 g ops' (condWs j (branchIndex idx op.assembly))
               else if switchesL.contains w then
                 match switchOffsets op.assembly with
                 | none => RRes.jsError
                 | some offs =>
                   match resolveOffsets idx op.pc offs with
                   | none => RRes.jsError
                   | some ts => g ops' ts
               else RRes.ok ops') := by
        intro g
        simp only [auxStep, hv]
        rw [hwk]
      match r with
      | .offEnd => exact Or.inl ⟨.ok ops', hbase⟩
      | .hitMarked => exact Or.inl ⟨.ok ops', hbase⟩
      | .err => exact Or.inl ⟨.jsError, hbase⟩
      | .nonlinear j w =>
        match hop : ops'[j]? with
        | none =>
            refine Or.inl ⟨.jsError, fun g => ?_⟩
            rw [hbase g]; simp only [hop]
        | some op' =>
            by_cases hterm : w ∈ terminatorsL
            · refine Or.inl ⟨.ok ops', fun g => ?_⟩
              rw [hbase g]; simp [hop, hterm]
            · by_cases hunc : w ∈ unconditionalsL
              · match hbi : branchIndex idx op'.assembly with
                | none =>
                    refine Or.inl ⟨.jsError, fun g => ?_⟩
                    rw [hbase g]; simp [hop, hterm, hunc, hbi]
                | some t =>
                    refine Or.inr ⟨ops', [t], fun g => ?_⟩
                    rw [hbase g]; simp [hop, hterm, hunc, hbi]
              · by_cases hcond : w ∈ conditionalsL
                · refine Or.inr ⟨ops', condWs j (branchIndex idx op'.assembly),
                    fun g => ?_⟩
                  rw [hbase g]; simp [hop, hterm, hunc, hcond]
                · by_cases hsw : w ∈ switchesL
                  · match hoffs : switchOffsets op'.assembly with
                    | none =>
                        refine Or.inl ⟨.jsError, fun g => ?_⟩
                        rw [hbase g]; simp [hop, hterm, hunc, hcond, hsw, hoffs]
                    | some offs =>
                        match hresv : resolveOffsets idx op'.pc offs with
                        | none =>
                            refine Or.inl ⟨.jsError, fun g => ?_⟩
                            rw [hbase g]
                            simp [hop, hterm, hunc, hcond, hsw, hoffs, hresv]
                        | some ts =>
                            refine Or.inr ⟨ops', ts, fun g => ?_⟩
                            rw [hbase g]
                            simp [hop, hterm, hunc, hcond, hsw, hoffs, hresv]
                  · refine Or.inl ⟨.ok ops', fun g => ?_⟩
                    rw [hbase g]; simp [hop, hterm, hunc, hcond, hsw]

/-- Raising the fuel by one does not change a run that did not exhaust
it. -/
theorem aux_fuel_succ (idx : List (String × Nat)) :
    ∀ (fuel : Nat) (ops : List Opcode) (ws : List Nat),
      reachableAux idx fuel ops ws ≠ .fuelOut →
      reachableAux idx (fuel + 1) ops ws = reachableAux idx fuel ops ws := by
  intro fuel
  induction fuel with
  | zero =>
      intro ops ws h
      exact absurd rfl h
  | succ fuel ih =>
      intro ops ws h
      match ws with
      | [] => rfl
      | i :: rest =>
          rcases auxStep_descent_or_const idx ops i with
            ⟨v, hval⟩ | ⟨ops', ws', hval⟩
          · simp only [reachableAux, hval] at h ⊢
            match v with
            | .ok ops2 => exact ih ops2 rest h
            | .jsError => rfl
            | .fuelOut => exact absurd rfl h
          · simp only [reachableAux, hval] at h ⊢
            have hchild : reachableAux idx fuel ops' ws' ≠ .fuelOut := by
              intro hc
              rw [hc] at h
              exact h rfl
            rw [ih ops' ws' hchild]
            match hresv : reachableAux idx fuel ops' ws' with
            | .ok ops2 =>
                rw [hresv] at h
                exact ih ops2 rest h
            | .jsError => rfl
            | .fuelOut => exact absurd hresv hchild

/-- Any fuel at least as large gives the same result as a run that did
not exhaust its fuel. -/
theorem aux_fuel_le (idx : List (String × Nat)) (f1 f2 : Nat) (hle : f1 ≤ f2)
    (ops : List Opcode) (ws : List Nat)
    (h : reachableAux idx f1 ops ws ≠ .fuelOut) :
    reachableAux idx f2 ops ws = reachableAux idx f1 ops ws := by
  obtain ⟨k, rfl⟩ := Nat.exists_eq_add_of_le hle
  clear hle
  induction k with
  | zero => rfl
  | succ k ih =>
      have h1 : reachableAux idx (f1 + k) ops ws = reachableAux idx f1 ops ws := ih
      have h2 : reachableAux idx (f1 + k) ops ws ≠ .fuelOut := by
        rw [h1]; exact h
      calc reachableAux idx (f1 + (k + 1)) ops ws
          = reachableAux idx ((f1 + k) + 1) ops ws := by rw [Nat.add_succ]
        _ = reachableAux idx (f1 + k) ops ws := aux_fuel_succ idx (f1 + k) ops ws h2
        _ = reachableAux idx f1 ops ws := h1

theorem markedAt_nil (j : Nat) : markedAt [] j = false := by
  simp [markedAt]

theorem markedAt_cons_zero (a : Opcode) (as : List Opcode) :
    markedAt (a :: as) 0 = a.reachable := by
  simp [markedAt]

theorem markedAt_cons_succ (a : Opcode) (as : List Opcode) (j : Nat) :
    markedAt (a :: as) (j + 1) = markedAt as j := by
  simp [markedAt]

theorem marksLe_tail {a b : Opcode} {as bs : List Opcode}
    (h : marksLe (a :: as) (b :: bs)) : marksLe as bs := by
  intro j hj
  have h2 := h (j + 1) (by rw [markedAt_cons_succ]; exact hj)
  rwa [markedAt_cons_succ] at h2

theorem unmarkedCount_cons (a : Opcode) (as : List Opcode) :
    unmarkedCount (a :: as) =
      (if a.reachable then 0 else 1) + unmarkedCount as := by
  unfold unmarkedCount
  cases hr : a.reachable <;> simp [List.filter_cons, hr] <;> omega

/-- Growing the marks cannot increase the number of unmarked opcodes. -/
theorem unmarked_le :
    ∀ (a b : List Opcode), a.length = b.length → marksLe a b →
      unmarkedCount b ≤ unmarkedCount a := by
  intro a
  induction a with
  | nil =>
      intro b hlen _
      have hb : b.length = 0 := by simpa using hlen.symm
      rw [List.eq_nil_of_length_eq_zero hb]
  | cons x as ih =>
      intro b hlen hml
      match b with
      | [] => simp at hlen
      | y :: bs =>
          have htail : unmarkedCount bs ≤ unmarkedCount as :=
            ih bs (by simpa using hlen) (marksLe_tail hml)
          rw [unmarkedCount_cons, unmarkedCount_cons]
          cases hx : x.reachable
          · cases hy : y.reachable <;> simp <;> omega
          · have hy : y.reachable = true := by
              have h0 := hml 0
              rw [markedAt_cons_zero, markedAt_cons_zero] at h0
              exact h0 hx
            simp [hy]
            exact htail

/-- A fresh mark strictly decreases the number of unmarked opcodes. -/
theorem unmarked_lt :
    ∀ (j : Nat) (a b : List Opcode), a.length = b.length → marksLe a b →
      markedAt a j = false → markedAt b j = true →
      unmarkedCount b < unmarkedCount a := by
  intro j
  induction j with
  | zero =>
      intro a b hlen hml ha hb
      match a, b with
      | [], [] => rw [markedAt_nil] at hb; exact absurd hb (by simp)
      | [], y :: bs => simp at hlen
      | x :: as, [] => simp at hlen
      | x :: as, y :: bs =>
          rw [markedAt_cons_zero] at ha hb
          have htail : unmarkedCount bs ≤ unmarkedCount as :=
            unmarked_le as bs (by simpa using hlen) (marksLe_tail hml)
          rw [unmarkedCount_cons, unmarkedCount_cons, ha, hb]
          simp
          omega
  | succ j ih =>
      intro a b hlen hml ha hb
      match a, b with
      | [], [] => rw [markedAt_nil] at hb; exact absurd hb (by simp)
      | [], y :: bs => simp at hlen
      | x :: as, [] => simp at hlen
      | x :: as, y :: bs =>
          rw [markedAt_cons_succ] at ha hb
          have htail : unmarkedCount bs < unmarkedCount as :=
            ih as bs (by simpa using hlen) (marksLe_tail hml) ha hb
          rw [unmarkedCount_cons, unmarkedCount_cons]
          cases hx : x.reachable
          · cases hy : y.reachable <;> simp <;> omega
          · have hy : y.reachable = true := by
              have h0 := hml 0
              rw [markedAt_cons_zero, markedAt_cons_zero] at h0
              exact h0 hx
            simp [hy]
            exact htail

theorem foldl_max_init_le {α : Type} (g : α → Nat) :
    ∀ (l : List α) (init : Nat),
      init ≤ l.foldl (fun acc x => max acc (g x)) init := by
  intro l
  induction l with
  | nil => intro init; exact Nat.le_refl _
  | cons x xs ih =>
      intro init
      simp only [List.foldl_cons]
      exact Nat.le_trans (Nat.le_max_left _ _) (ih _)

theorem foldl_max_mem_le {α : Type} (g : α → Nat) :
    ∀ (l : List α) (init : Nat) (x : α), x ∈ l →
      g x ≤ l.foldl (fun acc y => max acc (g y)) init := by
  intro l
  induction l with
  | nil => intro init x hx; exact absurd hx (by simp)
  | cons a as ih =>
      intro init x hx
      simp only [List.foldl_cons]
      rcases List.mem_cons.mp hx with rfl | hx'
      · exact Nat.le_trans (Nat.le_max_right _ _) (foldl_max_init_le g as _)
      · exact ih _ x hx'

theorem two_le_succBound (ops : List Opcode) : 2 ≤ succBound ops :=
  foldl_max_init_le _ ops 2

/-- A switch's decoded offset list is no longer than the work-list
bound of any opcode list containing it. -/
theorem switch_len_le_succBound {ops : List Opcode} {op : Opcode}
    {offs : List Nat} (hmem : op ∈ ops)
    (hoffs : switchOffsets op.assembly = some offs) :
    offs.length ≤ succBound ops := by
  have h := foldl_max_mem_le
    (fun o => match switchOffsets o.assembly with
              | some offs => offs.length
              | none => 0) ops 2 op hmem
  have h2 : (match switchOffsets op.assembly with
             | some offs => offs.length
             | none => 0) ≤ succBound ops := h
  rw [hoffs] at h2
  exact h2

theorem foldl_max_assembly :
    ∀ (l : List Opcode) (init : Nat),
      l.foldl (fun acc op =>
          max acc (match switchOffsets op.assembly with
                   | some offs => offs.length
                   | none => 0)) init =
        (l.map (fun o => o.assembly)).foldl
          (fun acc asm =>
            max acc (match switchOffsets asm with
                     | some offs => offs.length
                     | none => 0)) init := by
  intro l
  induction l with
  | nil => intro init; rfl
  | cons x xs ih =>
      intro init
      simp only [List.foldl_cons, List.map_cons]
      exact ih _

/-- The work-list bound only reads static data. -/
theorem succBound_staticEq {a b : List Opcode} (h : staticEq a b) :
    succBound a = succBound b := by
  have hasm : a.map (fun o => o.assembly) = b.map (fun o => o.assembly) := by
    have h2 := congrArg (List.map Prod.snd) h
    simpa [List.map_map, Function.comp] using h2
  unfold succBound
  rw [foldl_max_assembly, foldl_max_assembly, hasm]

theorem condWs_len (j : Nat) (o : Option Nat) : (condWs j o).length ≤ 2 := by
  match o with
  | none => simp [condWs]
  | some 0 => simp [condWs]
  | some (t + 1) => simp [condWs]

theorem mem_of_lookup {α : Type} {l : List α} {n : Nat} {a : α}
    (h : l[n]? = some a) : a ∈ l := by
  obtain ⟨hlt, hEq⟩ := List.getElem?_eq_some_iff.mp h
  subst hEq
  exact List.getElem_mem hlt

/-- Fuel adequacy: the fuel never runs out while the measure
`unmarked * (succBound + 1) + worklist length` is below it — every
descent strictly decreases the unmarked count (the already-reachable
guard) and spawns at most `succBound` new work-list positions. -/
theorem aux_no_fuelOut (idx : List (String × Nat)) (base : List Opcode) :
    ∀ (fuel : Nat) (ops : List Opcode) (ws : List Nat),
      staticEq base ops →
      unmarkedCount ops * (succBound base + 1) + ws.length < fuel →
      reachableAux idx fuel ops ws ≠ .fuelOut := by
  intro fuel
  induction fuel with
  | zero => intro ops ws _ hm; omega
  | succ fuel ih =>
      intro ops ws hst hm
      match ws with
      | [] => simp [reachableAux]
      | i :: rest =>
          rw [List.length_cons] at hm
          simp only [reachableAux]
          rcases auxStep_cases (reachableAux idx fuel) idx ops i with
            ⟨hv, heq⟩ | ⟨op, ops', r, hv, hwk, hbr⟩
          · rw [heq]; simp
          · obtain ⟨hwkSt, hwkMl⟩ := walk_shape _ _ _ _ _ hwk
            have hst1 : staticEq ops ops' := (staticEq_setEntry i ops).trans hwkSt
            have hstB : staticEq base ops' := hst.trans hst1
            have hml1 : marksLe ops ops' := marksLe_trans (marksLe_setEntry i ops) hwkMl
            have hlen1 : ops.length = ops'.length := hst1.length
            have hule : unmarkedCount ops' ≤ unmarkedCount ops :=
              unmarked_le ops ops' hlen1 hml1
            have hmulle :=
              Nat.mul_le_mul_right (succBound base + 1) hule
            rcases hbr with ⟨hre, heq⟩ | ⟨hre, heq⟩ | ⟨j, w, hre, hinner⟩
            · rw [heq]; exact ih ops' rest hstB (by omega)
            · rw [heq]; simp
            · subst hre
              obtain ⟨hj0, hj1, -, -⟩ := walk_nonlinear _ _ _ _ _ _ hwk
              rw [markedAt_setEntry] at hj0
              have hsucc : unmarkedCount ops' + 1 ≤ unmarkedCount ops :=
                unmarked_lt j ops ops' hlen1 hml1 hj0 hj1
              have hmullt :=
                Nat.mul_le_mul_right (succBound base + 1) hsucc
              have hexp : (unmarkedCount ops' + 1) * (succBound base + 1) =
                  unmarkedCount ops' * (succBound base + 1) +
                    (succBound base + 1) := by ring
              have descend : ∀ ws2 : List Nat,
                  ws2.length ≤ succBound base →
                  reachableAux idx fuel ops' ws2 ≠ RRes.fuelOut ∧
                    ∀ ops2, reachableAux idx fuel ops' ws2 = RRes.ok ops2 →
                      reachableAux idx fuel ops2 rest ≠ RRes.fuelOut := by
                intro ws2 hlenW
                refine ⟨ih ops' ws2 hstB (by omega), ?_⟩
                intro ops2 hok
                obtain ⟨hst2, hml2, -⟩ :=
                  aux_shape idx base fuel ops' ws2 ops2 hstB hok
                have hu2 : unmarkedCount ops2 ≤ unmarkedCount ops' :=
                  unmarked_le ops' ops2 hst2.length hml2
                have hsucc2 : unmarkedCount ops2 + 1 ≤ unmarkedCount ops := by
                  omega
                have hmul2 :=
                  Nat.mul_le_mul_right (succBound base + 1) hsucc2
                have hexp2 : (unmarkedCount ops2 + 1) * (succBound base + 1) =
                    unmarkedCount ops2 * (succBound base + 1) +
                      (succBound base + 1) := by ring
                exact ih ops2 rest (hstB.trans hst2) (by omega)
              rcases hinner with ⟨hop, heq⟩ | ⟨op', hop, hcat⟩
              · rw [heq]; simp
              · rcases hcat with ⟨hcw, heq⟩ |
                  ⟨h1, h2, ⟨hbi, heq⟩ | ⟨t, hbi, heq⟩⟩ |
                  ⟨h1, h2, h3, heq⟩ |
                  ⟨h1, h2, h3, h4, ⟨hoffs, heq⟩ |
                    ⟨offs, hoffs, ⟨hresO, heq⟩ | ⟨ts, hresO, heq⟩⟩⟩ |
                  ⟨h1, h2, h3, h4, heq⟩
                · rw [heq]; exact ih ops' rest hstB (by omega)
                · rw [heq]; simp
                · -- unconditional: descend on the single target
                  obtain ⟨hnf, hcontOk⟩ := descend [t]
                    (by
                      have h5 := two_le_succBound base
                      simp only [List.length_cons, List.length_nil]
                      omega)
                  rw [heq]
                  match hresv : reachableAux idx fuel ops' [t] with
                  | .fuelOut => exact absurd hresv hnf
                  | .jsError => simp
                  | .ok ops2 => exact hcontOk ops2 hresv
                · -- conditional: descend on the (at most two) successors
                  obtain ⟨hnf, hcontOk⟩ := descend
                    (condWs j (branchIndex idx op'.assembly))
                    (by
                      have h5 := two_le_succBound base
                      have h6 := condWs_len j (branchIndex idx op'.assembly)
                      omega)
                  rw [heq]
                  match hresv : reachableAux idx fuel ops'
                      (condWs j (branchIndex idx op'.assembly)) with
                  | .fuelOut => exact absurd hresv hnf
                  | .jsError => simp
                  | .ok ops2 => exact hcontOk ops2 hresv
                · rw [heq]; simp
                · rw [heq]; simp
                · -- switch: descend on the resolved targets
                  have hlts : ts.length = offs.length := by
                    have hspec := resolveOffsets_spec idx op'.pc offs ts hresO
                    have h7 := congrArg List.length hspec
                    simpa using h7.symm
                  obtain ⟨hnf, hcontOk⟩ := descend ts
                    (by
                      rw [hlts]
                      have h8 := switch_len_le_succBound (mem_of_lookup hop) hoffs
                      rw [succBound_staticEq hstB]
                      exact h8)
                  rw [heq]
                  match hresv : reachableAux idx fuel ops' ts with
                  | .fuelOut => exact absurd hresv hnf
                  | .jsError => simp
                  | .ok ops2 => exact hcontOk ops2 hresv
                · rw [heq]; exact ih ops' rest hstB (by omega)

/-- The premise shared by the reachability claims: every decoded branch
target of an unconditional opcode and every decoded offset list of a
switch opcode resolves through the script's address index.
(Conditional branch targets are optional by the successor rules, so
they impose no condition.) -/
def resolvesAllB (idx : List (String × Nat)) (ops : List Opcode) : Bool :=
  ops.all fun op =>
    match firstWord op.assembly.data with
    | none => true
    | some w =>
      if unconditionalsL.contains w then (branchIndex idx op.assembly).isSome
      else if switchesL.contains w then
        match switchOffsets op.assembly with
        | none => false
        | some offs => (resolveOffsets idx op.pc offs).isSome
      else true

/-- C9: on every script — in particular one whose decoded branch and
switch targets all resolve, and regardless of cycles in the control
flow — `checkReachability` terminates: the fuel `checkReachability`
supplies is never exhausted (each recursive entry is bounded by the
already-reachable guard, which strictly shrinks the unmarked set on
every descent), and every larger fuel returns the very same result, so
the result is the analysis's true fixed point and not a truncation.
(The resolution premise of the claim is stated but not needed: an
unresolved target makes the analysis throw, which also terminates.) -/
theorem C9_reachability_terminates (s : Script)
    (hres : resolvesAllB s.pcToOpcodeIndex s.opcodes = true) :
    checkReachability s ≠ RRes.fuelOut ∧
    ∀ f, fuelFor s.opcodes ≤ f →
      reachableAux s.pcToOpcodeIndex f s.opcodes [0] = checkReachability s := by
  have hnf : checkReachability s ≠ RRes.fuelOut := by
    unfold checkReachability fuelFor
    exact aux_no_fuelOut s.pcToOpcodeIndex s.opcodes _ s.opcodes [0]
      (staticEq.refl _)
      (by simp only [List.length_cons, List.length_nil]; omega)
  refine ⟨hnf, ?_⟩
  intro f hf
  exact aux_fuel_le s.pcToOpcodeIndex (fuelFor s.opcodes) f hf s.opcodes [0] hnf

/-- A one-instruction script whose single opcode jumps to itself: the
smallest cyclic control-flow graph. -/
def C9script : Script :=
  { name := some "loop"
    entrypoint := some 0
    opcodes := [{ pc := 0, count := JSNum.int 1, srcline := 1,
                  assembly := "goto 0" }]
    pcToOpcodeIndex := [("0", 0)] }

theorem C9_witness :
    resolvesAllB C9script.pcToOpcodeIndex C9script.opcodes = true ∧
    checkReachability C9script ≠ RRes.fuelOut ∧
    reachableAux C9script.pcToOpcodeIndex (fuelFor C9script.opcodes + 7)
        C9script.opcodes [0] = checkReachability C9script := by
  have h := C9_reachability_terminates C9script (by decide)
  exact ⟨by decide, h.1, h.2 _ (by omega)⟩

/-- C1: graph-reachability correctness of the analysis.  For a script
whose decoded branch and switch targets resolve through its address
index, started (as the `Script` constructor always does) with no
instruction marked, a completed `checkReachability` marks an
instruction reachable if and only if it is reachable from position 0
under the per-category successor rules of §4.3 — on cyclic control
flow as well, the run completing by the already-reachable guard
(claim C9).  Soundness needs no resolution premise at all: a completed
run can only have marked real paths. -/
theorem C1_reachability_correct (s : Script) (final : List Opcode)
    (hres : resolvesAllB s.pcToOpcodeIndex s.opcodes = true)
    (hfresh : s.opcodes.all (fun o => !o.reachable) = true)
    (hok : checkReachability s = RRes.ok final) :
    ∀ j, markedAt final j = true ↔ ReachFrom s.pcToOpcodeIndex s.opcodes 0 j := by
  have hfresh2 : ∀ j, markedAt s.opcodes j = false := by
    intro j
    unfold markedAt
    match hv : s.opcodes[j]? with
    | none => rfl
    | some op =>
        have hmem := mem_of_lookup hv
        have h2 := (List.all_eq_true.mp hfresh) op hmem
        simpa using h2
  have hok2 : reachableAux s.pcToOpcodeIndex (fuelFor s.opcodes) s.opcodes [0] =
      RRes.ok final := hok
  intro j
  constructor
  · intro hmark
    refine aux_sound s.pcToOpcodeIndex s.opcodes (fuelFor s.opcodes) s.opcodes
      [0] final (staticEq.refl _) hok2 ?_ ?_ j hmark
    · intro x hx
      have hx0 : x = 0 := by simpa using hx
      subst hx0
      exact Relation.ReflTransGen.refl
    · intro j2 hj2
      rw [hfresh2 j2] at hj2
      exact absurd hj2 (by simp)
  · intro hreach
    have hclosed := aux_closed s.pcToOpcodeIndex s.opcodes (fuelFor s.opcodes)
      s.opcodes [0] final (staticEq.refl _) (Or.inr ⟨[], rfl⟩) hok2
    have hshape := aux_shape s.pcToOpcodeIndex s.opcodes (fuelFor s.opcodes)
      s.opcodes [0] final (staticEq.refl _) hok2
    have h0final : markedAt final 0 = true := hshape.2.2 0 (by simp)
    induction hreach with
    | refl => exact h0final
    | tail hR hstep ih => exact hclosed _ (hfresh2 _) ih _ hstep

/-- A three-instruction script with a back edge: a linear opcode, a
conditional jumping back to position 0, and a stop. -/
def C1script : Script :=
  { name := some "t"
    entrypoint := some 0
    opcodes :=
      [{ pc := 0, count := JSNum.int 1, srcline := 1, assembly := "foo" },
       { pc := 1, count := JSNum.int 1, srcline := 1, assembly := "ifeq 0" },
       { pc := 2, count := JSNum.int 1, srcline := 1, assembly := "stop" }]
    pcToOpcodeIndex := [("0", 0), ("1", 1), ("2", 2)] }

/-- The marks `checkReachability` computes for `C1script`. -/
def C1final : List Opcode :=
  [{ pc := 0, count := JSNum.int 1, srcline := 1, assembly := "foo",
     reachable := true, fallsthrough := true, entrypoint := true },
   { pc := 1, count := JSNum.int 1, srcline := 1, assembly := "ifeq 0",
     reachable := true },
   { pc := 2, count := JSNum.int 1, srcline := 1, assembly := "stop",
     reachable := true, entrypoint := true }]

theorem C1_witness :
    resolvesAllB C1script.pcToOpcodeIndex C1script.opcodes = true ∧
    C1script.opcodes.all (fun o => !o.reachable) = true ∧
    checkReachability C1script = RRes.ok C1final ∧
    (markedAt C1final 1 = true ↔
      ReachFrom C1script.pcToOpcodeIndex C1script.opcodes 0 1) :=
  ⟨by decide, by decide, by decide,
   C1_reachability_correct C1script C1final (by decide) (by decide) (by decide) 1⟩

/-! ### The diff engine on an unchanged trace (C2, amended) -/

theorem alook_aset_self {κ α : Type} [BEq κ] [LawfulBEq κ]
    (l : List (κ × α)) (k : κ) (v : α) : alook (aset l k v) k = some v := by
  induction l with
  | nil => simp [aset, alook]
  | cons kv m ih =>
      match kv with
      | (k0, v0) =>
          by_cases h : (k0 == k) = true
          · simp [aset, h, alook]
          · simp [aset, h, alook, ih]

theorem alook_aset_other {κ α : Type} [BEq κ] [LawfulBEq κ]
    (l : List (κ × α)) (k k' : κ) (v : α) (hne : k' ≠ k) :
    alook (aset l k v) k' = alook l k' := by
  have hne2 : (k == k') = false := by
    rw [beq_eq_false_iff_ne]
    exact Ne.symm hne
  induction l with
  | nil => simp [aset, alook, hne2]
  | cons kv m ih =>
      match kv with
      | (k0, v0) =>
          by_cases h : (k0 == k) = true
          · have hk0 : k0 = k := by simpa using h
            simp [aset, h, alook, hk0, hne2]
          · have hf : (k0 == k) = false := by simpa using h
            simp [aset, hf, alook, ih]

theorem alook_mem {κ α : Type} [BEq κ] [LawfulBEq κ] :
    ∀ {l : List (κ × α)} {k : κ} {v : α}, alook l k = some v → (k, v) ∈ l := by
  intro l
  induction l with
  | nil => intro k v h; simp [alook] at h
  | cons kv m ih =>
      intro k v h
      match kv with
      | (k0, v0) =>
          by_cases hk : (k0 == k) = true
          · have hk0 : k0 = k := by simpa using hk
            subst hk0
            simp [alook, hk] at h
            simp [h]
          · have hkf : (k0 == k) = false := by simpa using hk
            simp only [alook, hkf, Bool.false_eq_true, if_false] at h
            exact List.mem_cons_of_mem _ (ih h)

/-- JavaScript `===` on this program's numbers only succeeds on equal
values. -/
theorem seq_eq : ∀ {a b : JSNum}, JSNum.seq a b = true → a = b := by
  intro a b h
  cases a <;> cases b <;> simp_all [JSNum.seq]

theorem equalArraysB_eq : ∀ {a b : List JSNum},
    equalArraysB a b = true → a = b := by
  intro a
  induction a with
  | nil =>
      intro b h
      match b with
      | [] => rfl
      | _ :: _ => simp [equalArraysB] at h
  | cons x xs ih =>
      intro b h
      match b with
      | [] => simp [equalArraysB] at h
      | y :: ys =>
          rw [equalArraysB, Bool.and_eq_true] at h
          rw [seq_eq h.1, ih h.2]

/-- `equalArrays` is reflexive exactly on `NaN`-free lists. -/
theorem equalArraysB_refl : ∀ {l : List JSNum},
    l.all (fun c => JSNum.seq c c) = true → equalArraysB l l = true := by
  intro l
  induction l with
  | nil => intro _; rfl
  | cons x xs ih =>
      intro h
      rw [List.all_cons, Bool.and_eq_true] at h
      rw [equalArraysB, h.1, ih h.2]
      rfl

theorem lenLines_init_le :
    ∀ (lines : List (Int × LineData)) (init : Nat),
      init ≤ lines.foldl
        (fun acc kv => if 0 ≤ kv.1 then max acc (kv.1.toNat + 1) else acc)
        init := by
  intro lines
  induction lines with
  | nil => intro init; exact Nat.le_refl _
  | cons kv m ih =>
      intro init
      simp only [List.foldl_cons]
      by_cases h : 0 ≤ kv.1
      · rw [if_pos h]
        exact Nat.le_trans (Nat.le_max_left _ _) (ih _)
      · rw [if_neg h]
        exact ih _

theorem lenLines_mem_le :
    ∀ (lines : List (Int × LineData)) (init : Nat) (kv : Int × LineData),
      kv ∈ lines → 0 ≤ kv.1 →
      kv.1.toNat + 1 ≤ lines.foldl
        (fun acc kv => if 0 ≤ kv.1 then max acc (kv.1.toNat + 1) else acc)
        init := by
  intro lines
  induction lines with
  | nil => intro init kv h; exact absurd h (by simp)
  | cons a m ih =>
      intro init kv hmem hpos
      simp only [List.foldl_cons]
      rcases List.mem_cons.mp hmem with rfl | hmem'
      · rw [if_pos hpos]
        exact Nat.le_trans (Nat.le_max_right _ _) (lenLines_init_le m _)
      · exact ih _ kv hmem' hpos

/-- Every non-negative index of a sparse `lines` array is below its
`length`. -/
theorem lenLines_mem {lines : List (Int × LineData)} {kv : Int × LineData}
    (hmem : kv ∈ lines) (hpos : 0 ≤ kv.1) :
    kv.1.toNat + 1 ≤ lenLines lines :=
  lenLines_mem_le lines 0 kv hmem hpos

/-- The stored snapshot holds, at every index the new snapshot
populates, an entry with the new snapshot's coverage class and counts
array. -/
def lineAgrees (new' old : List (Int × LineData)) : Prop :=
  ∀ i nl, alook new' i = some nl →
    ∃ ol, alook old i = some ol ∧
      ol.coverage = nl.coverage ∧ ol.counts = nl.counts

/-- The stored aggregate tallies are the recomputation loop's value on
the stored lines. -/
def tallyOK (fd : FileData) : Prop :=
  tallyLines fd.lines = (fd.covered, fd.partialCnt, fd.uncovered, fd.dead)

/-- The per-line loop is the identity — no events and no writes — when
the old snapshot already agrees, provided no compared counts array
holds a `NaN`. -/
theorem recon_self (fname : String) (newLines : List (Int × LineData)) :
    ∀ (is : List Int) (old : List (Int × LineData)) (evs : List Event),
      (∀ i ∈ is, ∀ nl, alook newLines i = some nl →
        ∃ ol, alook old i = some ol ∧ ol.coverage = nl.coverage ∧
          ol.counts = nl.counts ∧
          nl.counts.all (fun c => JSNum.seq c c) = true) →
      reconcileLines fname newLines is old evs = some (old, evs) := by
  intro is
  induction is with
  | nil => intro old evs _; rfl
  | cons i is' ih =>
      intro old evs h
      simp only [reconcileLines]
      match hni : alook newLines i with
      | none => exact ih old evs (fun x hx => h x (by simp [hx]))
      | some nl =>
          obtain ⟨ol, hol, hcov, hcts, hnn⟩ := h i (by simp) nl hni
          simp only [hol]
          have hbeq : (nl.coverage == ol.coverage) = true := by
            rw [hcov]
            exact beq_self_eq_true _
          have harr : equalArraysB nl.counts ol.counts = true := by
            rw [hcts]
            exact equalArraysB_refl hnn
          have hcnd : (nl.coverage == ol.coverage &&
              equalArraysB nl.counts ol.counts) = true := by
            rw [hbeq, harr]
            rfl
          rw [if_pos hcnd]
          exact ih old evs (fun x hx => h x (by simp [hx]))

/-- After the per-line loop, every index the new snapshot populates
(already agreeing beforehand or visited by the loop) agrees in the
resulting old snapshot. -/
theorem recon_post (fname : String) (newLines : List (Int × LineData)) :
    ∀ (is : List Int) (old : List (Int × LineData)) (evs : List Event)
      (old' : List (Int × LineData)) (evs' : List Event),
      reconcileLines fname newLines is old evs = some (old', evs') →
      ∀ i nl, alook newLines i = some nl →
        ((∃ ol, alook old i = some ol ∧ ol.coverage = nl.coverage ∧
            ol.counts = nl.counts) ∨ i ∈ is) →
        ∃ ol, alook old' i = some ol ∧ ol.coverage = nl.coverage ∧
          ol.counts = nl.counts := by
  intro is
  induction is with
  | nil =>
      intro old evs old' evs' h i nl hni hcase
      simp only [reconcileLines, Option.some.injEq, Prod.mk.injEq] at h
      obtain ⟨rfl, -⟩ := h
      rcases hcase with hL | hmem
      · exact hL
      · exact absurd hmem (by simp)
  | cons j is' ih =>
      intro old evs old' evs' h i nl hni hcase
      simp only [reconcileLines] at h
      match hnj : alook newLines j with
      | none =>
          rw [hnj] at h
          refine ih old evs old' evs' h i nl hni ?_
          rcases hcase with hL | hmem
          · exact Or.inl hL
          · rcases List.mem_cons.mp hmem with rfl | hm'
            · rw [hni] at hnj
              exact absurd hnj (by simp)
            · exact Or.inr hm'
      | some nlj =>
          simp only [hnj] at h
          match hoj : alook old j with
          | none =>
              simp only [hoj] at h
              exact absurd h (by simp)
          | some olj =>
              simp only [hoj] at h
              by_cases hcnd : (nlj.coverage == olj.coverage &&
                  equalArraysB nlj.counts olj.counts) = true
              · rw [if_pos hcnd] at h
                rw [Bool.and_eq_true] at hcnd
                have hc1 : olj.coverage = nlj.coverage :=
                  (eq_of_beq hcnd.1).symm
                have hc2 : olj.counts = nlj.counts :=
                  (equalArraysB_eq hcnd.2).symm
                refine ih old evs old' evs' h i nl hni ?_
                rcases hcase with hL | hmem
                · exact Or.inl hL
                · rcases List.mem_cons.mp hmem with rfl | hm'
                  · rw [hni] at hnj
                    have he : nl = nlj := by
                      have := hnj
                      simp at this
                      exact this
                    subst he
                    exact Or.inl ⟨olj, hoj, hc1, hc2⟩
                  · exact Or.inr hm'
              · rw [if_neg hcnd] at h
                refine ih _ _ _ _ h i nl hni ?_
                rcases hcase with hL | hmem
                · obtain ⟨ol, holi, hg1, hg2⟩ := hL
                  by_cases hij : i = j
                  · subst hij
                    rw [hni] at hnj
                    have he : nl = nlj := by
                      have := hnj
                      simp at this
                      exact this
                    subst he
                    exact Or.inl ⟨_, alook_aset_self old i _, rfl, rfl⟩
                  · refine Or.inl ⟨ol, ?_, hg1, hg2⟩
                    rw [alook_aset_other old j i _ hij]
                    exact holi
                · rcases List.mem_cons.mp hmem with rfl | hm'
                  · rw [hni] at hnj
                    have he : nl = nlj := by
                      have := hnj
                      simp at this
                      exact this
                    subst he
                    exact Or.inl ⟨_, alook_aset_self old i _, rfl, rfl⟩
                  · exact Or.inr hm'

/-- After a successful reconciliation whose new snapshot has no
negative line index, the stored snapshot agrees with the new one at
every populated index, and the stored tallies are the recomputation
over the stored lines. -/
theorem reconcileFile_post (fname : String) (old fd upd : FileData)
    (evs : List Event)
    (h : reconcileFile fname old fd = some (upd, evs))
    (hkeys : ∀ kv ∈ fd.lines, 0 ≤ kv.1) :
    lineAgrees fd.lines upd.lines ∧ tallyOK upd := by
  unfold reconcileFile at h
  match hrec : reconcileLines fname fd.lines
      ((List.range (lenLines fd.lines)).map fun n => Int.ofNat n)
      old.lines [] with
  | none =>
      rw [hrec] at h
      simp [bind, Option.bind] at h
  | some (lines', evs0) =>
      rw [hrec] at h
      simp only [bind, Option.bind] at h
      have hmemR : ∀ i nl, alook fd.lines i = some nl →
          i ∈ (List.range (lenLines fd.lines)).map fun n => Int.ofNat n := by
        intro i nl hni
        have hm := alook_mem hni
        have hpos : 0 ≤ i := hkeys (i, nl) hm
        have hlt : i.toNat + 1 ≤ lenLines fd.lines := lenLines_mem hm hpos
        simp only [List.mem_map, List.mem_range]
        exact ⟨i.toNat, by omega, Int.toNat_of_nonneg hpos⟩
      have hagrees : lineAgrees fd.lines lines' := by
        intro i nl hni
        exact recon_post fname fd.lines _ old.lines [] lines' evs0 hrec i nl
          hni (Or.inr (hmemR i nl hni))
      by_cases hcnd : ((tallyLines lines').1 == old.covered &&
          (tallyLines lines').2.1 == old.partialCnt &&
          (tallyLines lines').2.2.1 == old.uncovered &&
          (tallyLines lines').2.2.2 == old.dead) = true
      · rw [if_pos hcnd] at h
        simp only [pure, Option.some.injEq, Prod.mk.injEq] at h
        obtain ⟨hupd, -⟩ := h
        rw [← hupd]
        refine ⟨hagrees, ?_⟩
        simp only [Bool.and_eq_true, beq_iff_eq] at hcnd
        obtain ⟨⟨⟨h1, h2⟩, h3⟩, h4⟩ := hcnd
        show tallyLines lines' =
          (old.covered, old.partialCnt, old.uncovered, old.dead)
        rw [← h1, ← h2, ← h3, ← h4]
      · rw [if_neg hcnd] at h
        simp only [pure, Option.some.injEq, Prod.mk.injEq] at h
        obtain ⟨hupd, -⟩ := h
        rw [← hupd]
        exact ⟨hagrees, rfl⟩

/-- Reconciling a snapshot against a stored state that already agrees
(with `NaN`-free counts and consistent tallies) changes nothing and
emits nothing. -/
theorem reconcileFile_self (fname : String) (old fd : FileData)
    (hag : lineAgrees fd.lines old.lines)
    (hnn : ∀ i nl, alook fd.lines i = some nl →
      nl.counts.all (fun c => JSNum.seq c c) = true)
    (ht : tallyOK old) :
    reconcileFile fname old fd = some (old, []) := by
  unfold reconcileFile
  have hrec := recon_self fname fd.lines
    ((List.range (lenLines fd.lines)).map fun n => Int.ofNat n) old.lines []
    (by
      intro i hi nl hni
      obtain ⟨ol, h1, h2, h3⟩ := hag i nl hni
      exact ⟨ol, h1, h2, h3, hnn i nl hni⟩)
  rw [hrec]
  simp only [bind, Option.bind]
  have hcnd : ((tallyLines old.lines).1 == old.covered &&
      (tallyLines old.lines).2.1 == old.partialCnt &&
      (tallyLines old.lines).2.2.1 == old.uncovered &&
      (tallyLines old.lines).2.2.2 == old.dead) = true := by
    unfold tallyOK at ht
    rw [ht]
    simp
  rw [if_pos hcnd]
  rfl

/-- One step of `parseData`'s final loop: diff one built snapshot
against the stored state. -/
def diffStep (st : Coverage × List Event) (p : String × FileData) :
    Option (Coverage × List Event) :=
  match alook st.1.filenames p.1 with
  | none =>
      some ({ filenames := aset st.1.filenames p.1 p.2 },
            st.2 ++ [.onNewScript p.1 p.2])
  | some old => do
      let (upd, evs) ← reconcileFile p.1 old p.2
      pure ({ filenames := aset st.1.filenames p.1 upd }, st.2 ++ evs)

/-- The state-independent front of `parseData`: tokenize, build
scripts, group into files, build the snapshots in sorted filename
order. -/
def buildFileDatas (text : String) : Option (List (String × FileData)) := do
  let parser ← runLines { } (splitLines text)
  let files ← parser.scripts.foldlM assignScript []
  (sortStrings (files.map fun kv => kv.1)).mapM fun fn => do
    let file ← alook files fn
    let fd ← buildFileData fn file
    pure (fn, fd)

/-- `parseData` is the snapshot build followed by the diff loop. -/
theorem parseData_eq (cov : Coverage) (text : String) :
    parseData cov text =
      (buildFileDatas text).bind fun fds =>
        fds.foldlM diffStep (cov, []) := by
  unfold parseData buildFileDatas
  cases hr : runLines { } (splitLines text) with
  | none => rfl
  | some parser =>
      simp only [bind, Option.bind]
      cases hf : parser.scripts.foldlM assignScript [] with
      | none => rfl
      | some files =>
          simp only []
          cases hm : (sortStrings (files.map fun kv => kv.1)).mapM
              (fun fn => do
                let file ← alook files fn
                let fd ← buildFileData fn file
                pure (fn, fd)) with
          | none => rfl
          | some fds => rfl

/-- The diff loop never touches the stored entry of a filename not in
its list. -/
theorem diffFold_frame :
    ∀ (fds : List (String × FileData)) (st res : Coverage × List Event),
      List.foldlM diffStep st fds = some res →
      ∀ k, k ∉ fds.map (fun p => p.1) →
        alook res.1.filenames k = alook st.1.filenames k := by
  intro fds
  induction fds with
  | nil =>
      intro st res h k _
      have h2 : some st = some res := h
      simp only [Option.some.injEq] at h2
      rw [← h2]
  | cons q fds' ih =>
      intro st res h k hk
      simp only [List.foldlM] at h
      match hstep : diffStep st q with
      | none =>
          rw [hstep] at h
          simp [bind, Option.bind] at h
      | some st2 =>
          rw [hstep] at h
          have h2 : List.foldlM diffStep st2 fds' = some res := h
          have hk' : k ∉ fds'.map (fun p => p.1) := by
            intro hm
            exact hk (by simp [hm])
          have hkq : k ≠ q.1 := by
            intro he
            exact hk (by simp [he])
          rw [ih st2 res h2 k hk']
          unfold diffStep at hstep
          match holdq : alook st.1.filenames q.1 with
          | none =>
              simp only [holdq, Option.some.injEq] at hstep
              rw [← hstep]
              exact alook_aset_other _ _ _ _ hkq
          | some oldq =>
              simp only [holdq] at hstep
              match hrf : reconcileFile q.1 oldq q.2 with
              | none =>
                  rw [hrf] at hstep
                  simp [bind, Option.bind] at hstep
              | some (updq, evsq) =>
                  rw [hrf] at hstep
                  simp only [bind, Option.bind, pure,
                    Option.some.injEq] at hstep
                  rw [← hstep]
                  exact alook_aset_other _ _ _ _ hkq

/-- After a successful diff loop over distinct filenames all already
stored, each stored entry agrees with its built snapshot and carries
the recomputed tallies. -/
theorem lineAgrees_refl (l : List (Int × LineData)) : lineAgrees l l :=
  fun _ nl h => ⟨nl, h, rfl, rfl⟩

theorem diffFold_post :
    ∀ (fds : List (String × FileData)) (st res : Coverage × List Event),
      List.foldlM diffStep st fds = some res →
      (fds.map (fun p => p.1)).Nodup →
      (∀ p ∈ fds, tallyOK p.2) →
      (∀ p ∈ fds, ∀ kv ∈ p.2.lines, 0 ≤ kv.1) →
      ∀ p ∈ fds, ∃ old1, alook res.1.filenames p.1 = some old1 ∧
        lineAgrees p.2.lines old1.lines ∧ tallyOK old1 := by
  intro fds
  induction fds with
  | nil =>
      intro st res h _ _ _ p hp
      exact absurd hp (by simp)
  | cons q fds' ih =>
      intro st res h hnd htfd hkeys p hp
      simp only [List.foldlM] at h
      rw [List.map_cons, List.nodup_cons] at hnd
      match hstep : diffStep st q with
      | none =>
          rw [hstep] at h
          simp [bind, Option.bind] at h
      | some st2 =>
          rw [hstep] at h
          have h2 : List.foldlM diffStep st2 fds' = some res := h
          have hind : ∀ p ∈ fds', ∃ old1,
              alook res.1.filenames p.1 = some old1 ∧
              lineAgrees p.2.lines old1.lines ∧ tallyOK old1 :=
            ih st2 res h2 hnd.2 (fun r hr => htfd r (by simp [hr]))
              (fun r hr => hkeys r (by simp [hr]))
          match holdq : alook st.1.filenames q.1 with
          | none =>
              -- first sight of the filename: the built snapshot is
              -- stored verbatim
              simp only [diffStep, holdq, Option.some.injEq] at hstep
              rcases List.mem_cons.mp hp with rfl | hp'
              · have hfr := diffFold_frame fds' st2 res h2 p.1 hnd.1
                rw [hfr, ← hstep]
                refine ⟨p.2, ?_, lineAgrees_refl _, htfd p (by simp)⟩
                exact alook_aset_self _ _ _
              · exact hind p hp'
          | some oldq =>
              simp only [diffStep, holdq] at hstep
              match hrf : reconcileFile q.1 oldq q.2 with
              | none =>
                  rw [hrf] at hstep
                  simp [bind, Option.bind] at hstep
              | some (updq, evsq) =>
                  rw [hrf] at hstep
                  simp only [bind, Option.bind, pure,
                    Option.some.injEq] at hstep
                  obtain ⟨hAgr, hTly⟩ := reconcileFile_post q.1 oldq q.2
                    updq evsq hrf (hkeys q (by simp))
                  rcases List.mem_cons.mp hp with rfl | hp'
                  · have hfr := diffFold_frame fds' st2 res h2 p.1 hnd.1
                    rw [hfr, ← hstep]
                    refine ⟨updq, ?_, hAgr, hTly⟩
                    exact alook_aset_self _ _ _
                  · exact hind p hp'

/-- The diff loop is silent — same stored entries looked up, nothing
changed, no events appended — when every stored entry already agrees
with its built snapshot (with `NaN`-free counts and consistent
tallies). -/
theorem diffFold_self :
    ∀ (fds : List (String × FileData)) (covSt : Coverage) (evs0 : List Event),
      (fds.map (fun p => p.1)).Nodup →
      (∀ p ∈ fds, ∃ old1, alook covSt.filenames p.1 = some old1 ∧
        lineAgrees p.2.lines old1.lines ∧ tallyOK old1) →
      (∀ p ∈ fds, ∀ i nl, alook p.2.lines i = some nl →
        nl.counts.all (fun c => JSNum.seq c c) = true) →
      ∃ cov2, List.foldlM diffStep (covSt, evs0) fds = some (cov2, evs0) := by
  intro fds
  induction fds with
  | nil =>
      intro covSt evs0 _ _ _
      exact ⟨covSt, rfl⟩
  | cons q fds' ih =>
      intro covSt evs0 hnd hag hnn
      obtain ⟨old1, hold1, hagq, htq⟩ := hag q (by simp)
      have hrf := reconcileFile_self q.1 old1 q.2 hagq
        (hnn q (by simp)) htq
      rw [List.map_cons, List.nodup_cons] at hnd
      simp only [List.foldlM, diffStep, hold1, hrf, bind, Option.bind, pure]
      rw [List.append_nil]
      refine ih { filenames := aset covSt.filenames q.1 old1 } evs0 hnd.2
        ?_ ?_
      · intro p hp
        obtain ⟨o, ho, hA, hT⟩ := hag p (by simp [hp])
        have hne : p.1 ≠ q.1 := by
          intro he
          exact hnd.1 (he ▸ List.mem_map.mpr ⟨p, hp, rfl⟩)
        refine ⟨o, ?_, hA, hT⟩
        show alook (aset covSt.filenames q.1 old1) p.1 = some o
        rw [alook_aset_other _ _ _ _ hne]
        exact ho
      · intro p hp i nl hni
        exact hnn p (by simp [hp]) i nl hni

theorem all_counts_of_alook {entries : List (Int × LineData)}
    (hall : (entries.all fun kv =>
      kv.2.counts.all fun c => JSNum.seq c c) = true) :
    ∀ i nl, alook entries i = some nl →
      nl.counts.all (fun c => JSNum.seq c c) = true := by
  intro i nl h
  exact List.all_eq_true.mp hall (i, nl) (alook_mem h)

/-! ### The stored tallies of a freshly built snapshot (C2, new-file
path)

On a first sight of a filename, `parseData` stores the built snapshot
verbatim, with tallies computed by `File.coverage` over the file's
lines in insertion order; a later re-parse recomputes them by the
index loop of `tallyLines`.  The two agree because the class counter
is order-insensitive and, when no line number is 0, the index loop
visits exactly the stored entries. -/

theorem addClass_comm (b : Nat × Nat × Nat × Nat) (v1 v2 : Option String) :
    addClass (addClass b v1) v2 = addClass (addClass b v2) v1 := by
  unfold addClass
  repeat' split
  all_goals rfl

instance addClass_rcomm : RightCommutative addClass := ⟨addClass_comm⟩

theorem filterMap_congr_mem {α β : Type} (f g : α → Option β) :
    ∀ (l : List α), (∀ x ∈ l, f x = g x) → l.filterMap f = l.filterMap g := by
  intro l
  induction l with
  | nil => intro _; rfl
  | cons a l' ih =>
      intro h
      rw [List.filterMap_cons, List.filterMap_cons, h a (by simp),
        ih (fun x hx => h x (by simp [hx]))]

/-- Pulling the one position where `f` sees a value `g` misses to the
front, up to permutation. -/
theorem perm_insert {α β : Type} (f g : α → Option β) (m : α) (v : β)
    (hfm : f m = some v) (hgm : g m = none)
    (hfg : ∀ x, x ≠ m → f x = g x) :
    ∀ (l : List α), m ∈ l → l.Nodup →
      List.Perm (l.filterMap f) (v :: l.filterMap g) := by
  intro l
  induction l with
  | nil => intro h; exact absurd h (by simp)
  | cons a l' ih =>
      intro hm hnd
      rw [List.nodup_cons] at hnd
      rcases List.mem_cons.mp hm with rfl | hm'
      · rw [List.filterMap_cons, List.filterMap_cons, hfm, hgm]
        rw [filterMap_congr_mem f g l' (fun x hx => hfg x (by
          intro he
          exact hnd.1 (he ▸ hx)))]
      · have ha : a ≠ m := by
          intro he
          exact hnd.1 (he ▸ hm')
        rw [List.filterMap_cons, List.filterMap_cons, hfg a ha]
        match g a with
        | none => exact ih hm' hnd.2
        | some w =>
            refine List.Perm.trans (List.Perm.cons w (ih hm' hnd.2)) ?_
            exact List.Perm.swap v w _

theorem alook_none_of_not_mem {κ α : Type} [BEq κ] [LawfulBEq κ] :
    ∀ (l : List (κ × α)) (k : κ), k ∉ l.map Prod.fst → alook l k = none := by
  intro l
  induction l with
  | nil => intro k _; rfl
  | cons kv m ih =>
      intro k hk
      match kv with
      | (k0, v0) =>
          have hne : (k0 == k) = false := by
            rw [beq_eq_false_iff_ne]
            intro he
            exact hk (by simp [he])
          simp only [alook, hne, Bool.false_eq_true, if_false]
          exact ih k (fun hm => hk (by simp [hm]))

/-- The values the index loop finds are a permutation of the stored
entries (distinct keys, all of the form `Int.ofNat m` with `m < N`). -/
theorem alook_range_perm :
    ∀ (lds : List (Int × LineData)) (N : Nat),
      (lds.map Prod.fst).Nodup →
      (∀ kv ∈ lds, 0 ≤ kv.1 ∧ kv.1.toNat < N) →
      List.Perm ((List.range N).filterMap (fun i => alook lds (Int.ofNat i)))
        (lds.map Prod.snd) := by
  intro lds
  induction lds with
  | nil =>
      intro N _ _
      simp [alook]
  | cons kv rest ih =>
      intro N hnd hrange
      match kv with
      | (k, v) =>
          simp only [List.map_cons, List.nodup_cons] at hnd
          obtain ⟨hk0, hkN⟩ := hrange (k, v) (by simp)
          have hofk : Int.ofNat k.toNat = k := Int.toNat_of_nonneg hk0
          have hfm : alook ((k, v) :: rest) (Int.ofNat k.toNat) = some v := by
            rw [hofk]
            simp [alook]
          have hgm : alook rest (Int.ofNat k.toNat) = none := by
            rw [hofk]
            exact alook_none_of_not_mem rest k hnd.1
          have hfg : ∀ i, i ≠ k.toNat →
              alook ((k, v) :: rest) (Int.ofNat i) =
                alook rest (Int.ofNat i) := by
            intro i hi
            have hne : (k == Int.ofNat i) = false := by
              rw [beq_eq_false_iff_ne]
              intro he
              apply hi
              rw [← hofk] at he
              exact (Int.ofNat.inj he).symm
            simp only [alook, hne, Bool.false_eq_true, if_false]
          have hperm := perm_insert _ _ k.toNat v hfm hgm hfg (List.range N)
            (List.mem_range.mpr hkN) (List.nodup_range N)
          refine List.Perm.trans hperm ?_
          exact List.Perm.cons v (ih N hnd.2
            (fun kv2 h2 => hrange kv2 (by simp [h2])))

theorem tally_fusion (lds : List (Int × LineData)) :
    ∀ (is : List Nat) (acc : Nat × Nat × Nat × Nat),
      is.foldl (fun acc i =>
        match alook lds (Int.ofNat i) with
        | none => acc
        | some l => addClass acc l.coverage) acc =
      ((is.filterMap (fun i => alook lds (Int.ofNat i))).map
        (fun l => l.coverage)).foldl addClass acc := by
  intro is
  induction is with
  | nil => intro acc; rfl
  | cons i is' ih =>
      intro acc
      rw [List.foldl_cons, List.filterMap_cons]
      match h : alook lds (Int.ofNat i) with
      | none => exact ih acc
      | some l => exact ih (addClass acc l.coverage)

/-- With distinct non-negative keys, the index-loop tally equals the
insertion-order class fold over the stored entries. -/
theorem tallyLines_perm (lds : List (Int × LineData))
    (hnd : (lds.map Prod.fst).Nodup)
    (hpos : ∀ kv ∈ lds, 0 ≤ kv.1) :
    tallyLines lds =
      ((lds.map Prod.snd).map (fun l => l.coverage)).foldl addClass
        (0, 0, 0, 0) := by
  unfold tallyLines
  rw [tally_fusion]
  have hperm := alook_range_perm lds (lenLines lds) hnd
    (fun kv h => ⟨hpos kv h, by
      have := lenLines_mem h (hpos kv h)
      omega⟩)
  exact @List.Perm.foldl_eq _ _ addClass _ _ addClass_rcomm
    (hperm.map (fun l => l.coverage)) (0, 0, 0, 0)

theorem aset_append_fresh {κ α : Type} [BEq κ] [LawfulBEq κ] :
    ∀ (l : List (κ × α)) (k : κ) (v : α), k ∉ l.map Prod.fst →
      aset l k v = l ++ [(k, v)] := by
  intro l
  induction l with
  | nil => intro k v _; rfl
  | cons kv m ih =>
      intro k v hk
      match kv with
      | (k0, v0) =>
          have hne : (k0 == k) = false := by
            rw [beq_eq_false_iff_ne]
            intro he
            exact hk (by simp [he])
          simp only [aset, hne, Bool.false_eq_true, if_false, List.cons_append]
          rw [ih k v (fun hm => hk (by simp [hm]))]

theorem mem_aset {κ α : Type} [BEq κ] [LawfulBEq κ] :
    ∀ (l : List (κ × α)) (k : κ) (v : α) (e : κ × α),
      e ∈ aset l k v → e ∈ l ∨ e = (k, v) := by
  intro l
  induction l with
  | nil =>
      intro k v e he
      simp only [aset] at he
      exact Or.inr (by simpa using he)
  | cons kv m ih =>
      intro k v e he
      match kv with
      | (k0, v0) =>
          by_cases hk : (k0 == k) = true
          · simp only [aset, hk, if_true] at he
            rcases List.mem_cons.mp he with rfl | he'
            · have hk0 : k0 = k := by simpa using hk
              exact Or.inr (by rw [hk0])
            · exact Or.inl (List.mem_cons_of_mem _ he')
          · have hkf : (k0 == k) = false := by simpa using hk
            simp only [aset, hkf, Bool.false_eq_true, if_false] at he
            rcases List.mem_cons.mp he with rfl | he'
            · exact Or.inl (by simp)
            · rcases ih k v e he' with h1 | h2
              · exact Or.inl (List.mem_cons_of_mem _ h1)
              · exact Or.inr h2

theorem aset_keys {κ α : Type} [BEq κ] [LawfulBEq κ] :
    ∀ (l : List (κ × α)) (k : κ) (v : α),
      (aset l k v).map Prod.fst =
        if k ∈ l.map Prod.fst then l.map Prod.fst
        else l.map Prod.fst ++ [k] := by
  intro l
  induction l with
  | nil => intro k v; rfl
  | cons kv m ih =>
      intro k v
      match kv with
      | (k0, v0) =>
          by_cases hk : (k0 == k) = true
          · have hk0 : k0 = k := by simpa using hk
            subst hk0
            simp [aset, hk]
          · have hkf : (k0 == k) = false := by simpa using hk
            have hne : k0 ≠ k := by simpa using hkf
            simp only [aset, hkf, Bool.false_eq_true, if_false,
              List.map_cons, ih]
            by_cases hm : k ∈ m.map Prod.fst
            · simp [hm, Ne.symm hne]
            · simp [hm, Ne.symm hne]

theorem aset_keys_nodup {κ α : Type} [BEq κ] [LawfulBEq κ]
    (l : List (κ × α)) (k : κ) (v : α)
    (h : (l.map Prod.fst).Nodup) : ((aset l k v).map Prod.fst).Nodup := by
  rw [aset_keys]
  by_cases hm : k ∈ l.map Prod.fst
  · rw [if_pos hm]
    exact h
  · rw [if_neg hm]
    simp [List.nodup_append, h, hm]

/-- `File.prototype.coverage` as a pure fold: it succeeds exactly when
every line's `coverage()` does, and then tallies the class list. -/
theorem covF_spec :
    ∀ (entries : List (Nat × Line)) (acc cov : Nat × Nat × Nat × Nat),
      List.foldlM (fun acc nl => do
        pure (addClass acc (← nl.2.coverageF))) acc entries = some cov →
      ∃ clss, List.mapM (fun nl => nl.2.coverageF) entries = some clss ∧
        cov = clss.foldl addClass acc := by
  intro entries
  induction entries with
  | nil =>
      intro acc cov h
      have h2 : some acc = some cov := h
      simp only [Option.some.injEq] at h2
      exact ⟨[], rfl, h2.symm⟩
  | cons nl rest ih =>
      intro acc cov h
      simp only [List.foldlM] at h
      match hcv : nl.2.coverageF with
      | none =>
          rw [hcv] at h
          simp [bind, Option.bind] at h
      | some cv =>
          rw [hcv] at h
          have h2 : List.foldlM (fun acc nl => do
              pure (addClass acc (← nl.2.coverageF)))
              (addClass acc cv) rest = some cov := h
          obtain ⟨clss, hm, hc⟩ := ih (addClass acc cv) cov h2
          refine ⟨cv :: clss, ?_, hc⟩
          rw [List.mapM_cons, hcv, hm]
          rfl

/-- The snapshot-lines fold appends one entry per file line (fresh
distinct keys), in order, carrying each line's coverage class. -/
theorem bd_lines :
    ∀ (entries : List (Nat × Line)) (lds0 lds : List (Int × LineData)),
      List.foldlM (fun (acc : List (Int × LineData)) nl => do
        let cv ← nl.2.coverageF
        let cts ← nl.2.countsF
        pure (aset acc (Int.ofNat nl.1 - 1)
          { coverage := cv, counts := cts,
            startFunc := nl.2.startFunc, endFunc := nl.2.endFunc }))
        lds0 entries = some lds →
      (∀ nl ∈ entries, (Int.ofNat nl.1 - 1) ∉ lds0.map Prod.fst) →
      (entries.map (fun nl => Int.ofNat nl.1 - 1)).Nodup →
      ∃ tail, lds = lds0 ++ tail ∧
        tail.map Prod.fst = entries.map (fun nl => Int.ofNat nl.1 - 1) ∧
        ∃ clss, List.mapM (fun nl => nl.2.coverageF) entries = some clss ∧
          tail.map (fun kv => kv.2.coverage) = clss := by
  intro entries
  induction entries with
  | nil =>
      intro lds0 lds h _ _
      have h2 : some lds0 = some lds := h
      simp only [Option.some.injEq] at h2
      exact ⟨[], by rw [← h2, List.append_nil], rfl, [], rfl, rfl⟩
  | cons nl rest ih =>
      intro lds0 lds h hfresh hnd
      simp only [List.foldlM] at h
      match hcv : nl.2.coverageF with
      | none =>
          rw [hcv] at h
          simp [bind, Option.bind] at h
      | some cv =>
          rw [hcv] at h
          match hct : nl.2.countsF with
          | none =>
              rw [hct] at h
              simp [bind, Option.bind] at h
          | some cts =>
              rw [hct] at h
              have hfr : (Int.ofNat nl.1 - 1) ∉ lds0.map Prod.fst :=
                hfresh nl (by simp)
              have hset := aset_append_fresh lds0 (Int.ofNat nl.1 - 1)
                { coverage := cv, counts := cts,
                  startFunc := nl.2.startFunc, endFunc := nl.2.endFunc } hfr
              have h2 : List.foldlM (fun (acc : List (Int × LineData)) nl => do
                  let cv ← nl.2.coverageF
                  let cts ← nl.2.countsF
                  pure (aset acc (Int.ofNat nl.1 - 1)
                    { coverage := cv, counts := cts,
                      startFunc := nl.2.startFunc, endFunc := nl.2.endFunc }))
                  (aset lds0 (Int.ofNat nl.1 - 1)
                    { coverage := cv, counts := cts,
                      startFunc := nl.2.startFunc,
                      endFunc := nl.2.endFunc }) rest = some lds := h
              rw [hset] at h2
              rw [List.map_cons, List.nodup_cons] at hnd
              obtain ⟨tail', hT1, hT2, clss', hm', hT3⟩ := ih _ lds h2
                (by
                  intro nl' hnl'
                  rw [List.map_append]
                  intro hmem
                  rcases List.mem_append.mp hmem with hmem1 | hmem2
                  · exact hfresh nl' (by simp [hnl']) hmem1
                  · simp only [List.map_cons, List.map_nil,
                      List.mem_singleton] at hmem2
                    exact hnd.1 (hmem2 ▸ List.mem_map.mpr ⟨nl', hnl', rfl⟩))
                hnd.2
              refine ⟨(Int.ofNat nl.1 - 1,
                  ({ coverage := cv, counts := cts,
                     startFunc := nl.2.startFunc,
                     endFunc := nl.2.endFunc } : LineData)) :: tail',
                  ?_, ?_, ?_⟩
              · rw [hT1, List.append_assoc]
                rfl
              · simp only [List.map_cons, hT2]
              · refine ⟨cv :: clss', ?_, ?_⟩
                · rw [List.mapM_cons, hcv, hm']
                  rfl
                · simp only [List.map_cons, hT3]

/-- A snapshot built from a file with distinct line numbers, none of
them 0, stores tallies equal to the index-loop recomputation over its
own lines: the `onNewScript` path stores a tally-consistent snapshot. -/
theorem buildFileData_tallyOK (fname : String) (file : File) (fd : FileData)
    (h : buildFileData fname file = some fd)
    (hnd : (file.lines.map Prod.fst).Nodup)
    (hkeys : ∀ kv ∈ fd.lines, 0 ≤ kv.1) :
    tallyOK fd := by
  unfold buildFileData at h
  match hcov : file.coverageF with
  | none =>
      rw [hcov] at h
      simp [bind, Option.bind] at h
  | some cov =>
      rw [hcov] at h
      match hlds : file.lines.foldlM
          (fun (acc : List (Int × LineData)) nl => do
            let cv ← nl.2.coverageF
            let cts ← nl.2.countsF
            pure (aset acc (Int.ofNat nl.1 - 1)
              { coverage := cv, counts := cts,
                startFunc := nl.2.startFunc, endFunc := nl.2.endFunc }))
          [] with
      | none =>
          rw [hlds] at h
          simp [bind, Option.bind] at h
      | some lds =>
          rw [hlds] at h
          simp only [bind, Option.bind, pure, Option.some.injEq] at h
          have h2 := h
          have hndM : (file.lines.map
              (fun nl => Int.ofNat nl.1 - 1)).Nodup := by
            have he : file.lines.map (fun nl => Int.ofNat nl.1 - 1) =
                (file.lines.map Prod.fst).map (fun n => Int.ofNat n - 1) := by
              rw [List.map_map]
              rfl
            rw [he]
            exact List.Nodup.map (fun a b hab => by
              have hab2 : Int.ofNat a - 1 = Int.ofNat b - 1 := hab
              simp only [Int.ofNat_eq_natCast] at hab2
              omega) hnd
          obtain ⟨tail, hT1, hT2, clss, hm, hT3⟩ :=
            bd_lines file.lines [] lds hlds (by simp) hndM
          have hcov2 : List.foldlM (fun acc nl => do
              pure (addClass acc (← nl.2.coverageF)))
              ((0, 0, 0, 0) : Nat × Nat × Nat × Nat)
              file.lines = some cov := hcov
          obtain ⟨clss2, hm2, hcfold⟩ := covF_spec file.lines (0, 0, 0, 0)
            cov hcov2
          rw [hm] at hm2
          simp only [Option.some.injEq] at hm2
          rw [List.nil_append] at hT1
          have hldsnd : (lds.map Prod.fst).Nodup := by
            rw [hT1, hT2]
            exact hndM
          have hldspos : ∀ kv ∈ lds, 0 ≤ kv.1 := by
            intro kv hkv
            apply hkeys
            rw [← h2]
            exact hkv
          have htl := tallyLines_perm lds hldsnd hldspos
          unfold tallyOK
          rw [← h2]
          show tallyLines lds = (cov.1, cov.2.1, cov.2.2.1, cov.2.2.2)
          rw [htl]
          have hvals : (lds.map Prod.snd).map (fun l => l.coverage) = clss := by
            rw [hT1, List.map_map]
            exact hT3
          have hcf : cov = clss.foldl addClass (0, 0, 0, 0) := by
            rw [hm2]
            exact hcfold
          rw [hvals, ← hcf]

theorem mapM_mem {α β : Type} (f : α → Option β) :
    ∀ (l : List α) (l' : List β), l.mapM f = some l' →
      ∀ y ∈ l', ∃ x ∈ l, f x = some y := by
  intro l
  induction l with
  | nil =>
      intro l' h y hy
      have h2 : some ([] : List β) = some l' := h
      simp only [Option.some.injEq] at h2
      rw [← h2] at hy
      exact absurd hy (by simp)
  | cons a l ih =>
      intro l' h y hy
      rw [List.mapM_cons] at h
      match hfa : f a with
      | none =>
          rw [hfa] at h
          simp [bind, Option.bind] at h
      | some b =>
          rw [hfa] at h
          match hrest : l.mapM f with
          | none =>
              rw [hrest] at h
              simp [bind, Option.bind] at h
          | some bs =>
              rw [hrest] at h
              have h2 : some (b :: bs) = some l' := h
              simp only [Option.some.injEq] at h2
              rw [← h2] at hy
              rcases List.mem_cons.mp hy with rfl | hy'
              · exact ⟨a, by simp, hfa⟩
              · obtain ⟨x, hx, hfx⟩ := ih bs hrest y hy'
                exact ⟨x, by simp [hx], hfx⟩

theorem buildFDs_keys (files : List (String × File)) :
    ∀ (names : List String) (fds : List (String × FileData)),
      names.mapM (fun fn => do
        let file ← alook files fn
        let fd ← buildFileData fn file
        pure (fn, fd)) = some fds →
      fds.map Prod.fst = names := by
  intro names
  induction names with
  | nil =>
      intro fds h
      have h2 : some ([] : List (String × FileData)) = some fds := h
      simp only [Option.some.injEq] at h2
      rw [← h2]
      rfl
  | cons fn names' ih =>
      intro fds h
      rw [List.mapM_cons] at h
      match hfi : alook files fn with
      | none =>
          rw [hfi] at h
          simp [bind, Option.bind] at h
      | some file =>
          rw [hfi] at h
          have hA : (buildFileData fn file >>= fun fd => pure (fn, fd)) >>=
              (fun b => (names'.mapM (fun fn => do
                let file ← alook files fn
                let fd ← buildFileData fn file
                pure (fn, fd))) >>= fun bs => pure (b :: bs)) = some fds := h
          match hbd : buildFileData fn file with
          | none =>
              rw [hbd] at hA
              simp [bind, Option.bind] at hA
          | some fd =>
              rw [hbd] at hA
              have hB : (names'.mapM (fun fn => do
                  let file ← alook files fn
                  let fd ← buildFileData fn file
                  pure (fn, fd))) >>=
                  (fun bs => pure ((fn, fd) :: bs)) = some fds := hA
              match hrest : names'.mapM (fun fn => do
                  let file ← alook files fn
                  let fd ← buildFileData fn file
                  pure (fn, fd)) with
              | none =>
                  rw [hrest] at hB
                  simp [bind, Option.bind] at hB
              | some fds' =>
                  rw [hrest] at hB
                  have h2 : some ((fn, fd) :: fds') = some fds := hB
                  simp only [Option.some.injEq] at h2
                  rw [← h2, List.map_cons, ih fds' hrest]

theorem buildFD_step_spec (files : List (String × File)) (fn : String)
    (p : String × FileData)
    (h : (do
      let file ← alook files fn
      let fd ← buildFileData fn file
      pure (fn, fd)) = some p) :
    ∃ file, alook files fn = some file ∧
      buildFileData fn file = some p.2 ∧ p.1 = fn := by
  match hfi : alook files fn with
  | none =>
      rw [hfi] at h
      simp [bind, Option.bind] at h
  | some file =>
      rw [hfi] at h
      have hA : (buildFileData fn file >>= fun fd => pure (fn, fd)) =
          some p := h
      match hbd : buildFileData fn file with
      | none =>
          rw [hbd] at hA
          simp [bind, Option.bind] at hA
      | some fd =>
          rw [hbd] at hA
          have h3 : some (fn, fd) = some p := hA
          simp only [Option.some.injEq] at h3
          refine ⟨file, rfl, ?_, ?_⟩
          · rw [← h3]
            exact hbd
          · rw [← h3]

theorem insertStr_perm (x : String) :
    ∀ (l : List String), List.Perm (insertStr x l) (x :: l) := by
  intro l
  induction l with
  | nil => exact List.Perm.refl _
  | cons y ys ih =>
      simp only [insertStr]
      by_cases h : x < y
      · rw [if_pos h]
      · rw [if_neg h]
        refine List.Perm.trans (List.Perm.cons y ih) ?_
        exact List.Perm.swap x y ys

theorem sortStrings_perm : ∀ (l : List String),
    List.Perm (sortStrings l) l := by
  intro l
  induction l with
  | nil => exact List.Perm.refl _
  | cons a l' ih =>
      refine List.Perm.trans (insertStr_perm a (sortStrings l')) ?_
      exact List.Perm.cons a ih

/-- The invariant `assignScript` maintains: distinct filenames, and
per file distinct line numbers. -/
def filesInv (files : List (String × File)) : Prop :=
  (files.map Prod.fst).Nodup ∧
  ∀ e ∈ files, (e.2.lines.map Prod.fst).Nodup

theorem lineSet_keys_nodup (f : File) (n : Nat) (ln : Line)
    (h : (f.lines.map Prod.fst).Nodup) :
    ((f.lineSet n ln).lines.map Prod.fst).Nodup := by
  unfold File.lineSet
  exact aset_keys_nodup _ _ _ h

theorem foldl_lineSet_nodup (s : Script) :
    ∀ (ops : List Opcode) (f : File), (f.lines.map Prod.fst).Nodup →
      (((ops.foldl (fun f op =>
        f.lineSet op.srcline
          ((f.lineGet op.srcline).addOp
            (jstr s.name ++ ":" ++ Nat.repr op.pc) op)) f).lines.map
        Prod.fst)).Nodup := by
  intro ops
  induction ops with
  | nil => intro f h; exact h
  | cons op ops' ih =>
      intro f h
      rw [List.foldl_cons]
      exact ih _ (lineSet_keys_nodup _ _ _ h)

theorem assignScript_inv (files files' : List (String × File)) (s : Script)
    (h : assignScript files s = some files') (hinv : filesInv files) :
    filesInv files' := by
  unfold assignScript at h
  match hh : s.opcodes.head?, hl : s.opcodes.getLast? with
  | none, y2 =>
      rw [hh, hl] at h
      cases y2 <;> simp at h
  | some op0, none =>
      rw [hh, hl] at h
      simp at h
  | some op0, some opL =>
      simp only [hh, hl, Option.some.injEq] at h
      rw [← h]
      constructor
      · exact aset_keys_nodup _ _ _ hinv.1
      · intro e he
        rcases mem_aset _ _ _ _ he with h1 | h2
        · exact hinv.2 e h1
        · rw [h2]
          apply lineSet_keys_nodup
          apply lineSet_keys_nodup
          apply foldl_lineSet_nodup
          match hf : alook files (jstr s.filename) with
          | some f0 =>
              simp only [hf]
              exact hinv.2 (jstr s.filename, f0) (alook_mem hf)
          | none =>
              simp [hf]

theorem scriptsFold_inv :
    ∀ (ss : List Script) (files files' : List (String × File)),
      List.foldlM assignScript files ss = some files' →
      filesInv files → filesInv files' := by
  intro ss
  induction ss with
  | nil =>
      intro files files' h hinv
      have h2 : some files = some files' := h
      simp only [Option.some.injEq] at h2
      rw [← h2]
      exact hinv
  | cons s ss' ih =>
      intro files files' h hinv
      simp only [List.foldlM] at h
      match hstep : assignScript files s with
      | none =>
          rw [hstep] at h
          simp [bind, Option.bind] at h
      | some files2 =>
          rw [hstep] at h
          exact ih files2 files' h (assignScript_inv files files2 s hstep hinv)

/-- The snapshots `parseData` builds have distinct filenames and — when
no line number is 0 — tallies consistent with the index-loop
recomputation.  (Filenames are the keys of the `aset`-built file map,
sorted; each snapshot comes from `buildFileData` on a file with
distinct line numbers.) -/
theorem buildFileDatas_inv (text : String) (fds : List (String × FileData))
    (hfds : buildFileDatas text = some fds)
    (hkeys : ∀ p ∈ fds, ∀ kv ∈ p.2.lines, 0 ≤ kv.1) :
    (fds.map (fun p => p.1)).Nodup ∧ ∀ p ∈ fds, tallyOK p.2 := by
  unfold buildFileDatas at hfds
  match hr : runLines { } (splitLines text) with
  | none =>
      rw [hr] at hfds
      simp [bind, Option.bind] at hfds
  | some parser =>
      rw [hr] at hfds
      have hA : (parser.scripts.foldlM assignScript [] >>= fun files =>
          (sortStrings (files.map fun kv => kv.1)).mapM fun fn => do
            let file ← alook files fn
            let fd ← buildFileData fn file
            pure (fn, fd)) = some fds := hfds
      match hf : parser.scripts.foldlM assignScript [] with
      | none =>
          rw [hf] at hA
          simp [bind, Option.bind] at hA
      | some files =>
          rw [hf] at hA
          have hB : (sortStrings (files.map fun kv => kv.1)).mapM (fun fn => do
              let file ← alook files fn
              let fd ← buildFileData fn file
              pure (fn, fd)) = some fds := hA
          have hinv : filesInv files :=
            scriptsFold_inv parser.scripts [] files hf ⟨by simp, by simp⟩
          constructor
          · have hkeysEq := buildFDs_keys files _ fds hB
            have hperm := sortStrings_perm (files.map fun kv => kv.1)
            have hsortnd : (sortStrings (files.map fun kv => kv.1)).Nodup :=
              hperm.nodup_iff.mpr hinv.1
            rw [show (fds.map fun p => p.1) = fds.map Prod.fst from rfl,
              hkeysEq]
            exact hsortnd
          · intro p hp
            obtain ⟨fn, hfn, hstep⟩ := mapM_mem _ _ fds hB p hp
            obtain ⟨file, hfi, hbd, hp1⟩ := buildFD_step_spec files fn p hstep
            have hnd : (file.lines.map Prod.fst).Nodup :=
              hinv.2 (fn, file) (alook_mem hfi)
            exact buildFileData_tallyOK fn file p.2 hbd hnd
              (fun kv hkv => hkeys p hp kv hkv)

/-- C2 (amended): after any successful `parseData(text)` call — a
fresh engine included — re-parsing the identical text emits no events,
provided no built count is `NaN` and no instruction sits on source
line 0.  Both provisos are forced by `C2_counterexample`: a `NaN`
count re-fires `onLineUpdate` (`NaN !== NaN` in `equalArrays`), and a
source line of 0 stores data at array index `-1`, invisible to the
tally recomputation, re-firing `onScriptUpdate`.  The first parse may
take either path per file: a reconcile leaves stored values equal to
the built ones with recomputed tallies, and a first sight stores the
built snapshot verbatim, whose tallies provably equal the
recomputation (`buildFileDatas_inv`). -/
theorem C2_identical_reparse_silent (cov0 cov1 : Coverage) (text : String)
    (fds : List (String × FileData)) (evs1 : List Event)
    (hfds : buildFileDatas text = some fds)
    (h1 : parseData cov0 text = some (cov1, evs1))
    (hkeys : ∀ p ∈ fds, ∀ kv ∈ p.2.lines, 0 ≤ kv.1)
    (hnn : ∀ p ∈ fds, ∀ i nl, alook p.2.lines i = some nl →
      nl.counts.all (fun c => JSNum.seq c c) = true) :
    ∃ cov2, parseData cov1 text = some (cov2, []) := by
  obtain ⟨hdist, htfd⟩ := buildFileDatas_inv text fds hfds hkeys
  rw [parseData_eq, hfds] at h1
  rw [parseData_eq, hfds]
  have h1' : List.foldlM diffStep ((cov0, []) : Coverage × List Event) fds =
      some (cov1, evs1) := h1
  have hpost := diffFold_post fds (cov0, []) (cov1, evs1) h1' hdist
    htfd hkeys
  obtain ⟨cov2, hc⟩ := diffFold_self fds cov1 [] hdist
    (fun p hp => hpost p hp) hnn
  exact ⟨cov2, hc⟩

/-- The snapshot `textA` builds, as stored by its first parse. -/
def C2fd : FileData :=
  { filename := "a", covered := 1, partialCnt := 0, uncovered := 0, dead := 0,
    lines := [(0, { coverage := some "full", counts := [JSNum.int 3],
                    startFunc := true, endFunc := true })] }

/-- Engine state holding `textA`'s file. -/
def C2cov : Coverage := { filenames := [("a", C2fd)] }

theorem C2_witness :
    buildFileDatas textA = some [("a", C2fd)] ∧
    parseData { } textA = some (C2cov, [Event.onNewScript "a" C2fd]) ∧
    (∃ cov2, parseData C2cov textA = some (cov2, [])) := by
  refine ⟨by decide, by decide, ?_⟩
  refine C2_identical_reparse_silent { } C2cov textA [("a", C2fd)]
    [Event.onNewScript "a" C2fd] (by decide) (by decide) (by decide) ?_
  intro p hp i nl hni
  have hp' : p = ("a", C2fd) := by simpa using hp
  subst hp'
  exact all_counts_of_alook (by decide) i nl hni

end CoverMonkey
